import Mathlib

/-!
llama.cpp Android JNI bindings: sampler chain, stop check and generation loop.

A shallow embedding of `jni_sampling.cpp` (`build_sampler_chain`),
`jni_common.cpp` (`batch_add`, `batch_clear`) and `jni_completion.cpp`
(`generate_worker`), followed by theorems about them.

Conventions of the embedding:

* `std::string` is a list of bytes, `int` is `Int`, `size_t` is `Nat`;
* a `float` is modelled by the value it denotes (`F32`): NaN, the two
  infinities, or a rational number; only the ordered comparisons the source
  performs on floats are defined on it;
* the inference engine (llama.cpp) is external: its pure vocabulary
  functions are the fields of `llama_vocab`, its stateful calls
  (`llama_sampler_sample`, `llama_decode`, thread attach) are oracles that
  may depend on everything that has happened so far (the event trace);
* every externally visible action of the worker is recorded, in order, in
  an event trace.
-/

namespace LlamaJni

/-! ## Basic types -/

abbrev Byte := Fin 256

/-- The C++ type std::string, as its sequence of bytes. -/
abbrev CppString := List Byte

abbrev llama_token := Int

/-- Values a C++ float can take, as far as ordered comparison tells them apart
(the two zeros compare equal, so both are `finite 0`). -/
inductive F32 where
  | nan
  | neg_inf
  | pos_inf
  | finite (q : ℚ)
  deriving DecidableEq

namespace F32

/-- C++ `a < b` on floats: false as soon as one side is NaN. -/
def lt : F32 → F32 → Bool
  | nan, _ => false
  | _, nan => false
  | neg_inf, neg_inf => false
  | neg_inf, _ => true
  | _, neg_inf => false
  | pos_inf, _ => false
  | finite _, pos_inf => true
  | finite a, finite b => decide (a < b)

/-- C++ `a > b` on floats. -/
def gt (a b : F32) : Bool := lt b a

/-- C++ `a == b` on floats: false as soon as one side is NaN. -/
def eq : F32 → F32 → Bool
  | nan, _ => false
  | _, nan => false
  | neg_inf, neg_inf => true
  | pos_inf, pos_inf => true
  | finite a, finite b => decide (a = b)
  | _, _ => false

/-- C++ `a != b` on floats: true as soon as one side is NaN. -/
def ne (a b : F32) : Bool := !(eq a b)

/-- The literal `0.0f`. -/
def zero : F32 := finite 0

/-- The literal `1.0f`. -/
def one : F32 := finite 1

end F32

/-! ## Sampler chain (`jni_sampling.cpp`) -/

/-- The fields of `struct GenerateParams` that are data of the request (the JVM
handles and the context pointer are part of the environment, see `Engine`). -/
structure GenerateParams where
  prompt : CppString
  prompt_tokens : List llama_token
  grammar : CppString
  temperature : F32
  topK : Int
  topP : F32
  minP : F32
  repeatPenalty : F32
  repeatLastN : Int
  frequencyPenalty : F32
  presencePenalty : F32
  seed : Int
  maxTokens : Int
  stopSequences : List CppString
  typicalP : F32
  xtcProbability : F32
  xtcThreshold : F32
  mirostatMode : Int
  mirostatTau : F32
  mirostatEta : F32
  dryMultiplier : F32
  dryBase : F32
  dryAllowedLength : Int
  deriving DecidableEq

/-- The vocabulary of the loaded model: the pure functions of the engine that take
a `const llama_vocab*`. -/
structure llama_vocab where
  /-- `llama_vocab_n_tokens` -/
  n_tokens : Int
  /-- whether `llama_sampler_init_grammar(vocab, text, "root")` returns a sampler
  (true) or a null pointer (false), for the C string `text` -/
  grammar_compiles : CppString → Bool
  /-- `llama_vocab_is_eog` -/
  is_eog : llama_token → Bool
  /-- `llama_token_to_piece(vocab, tok, buf, 256, 0, true)`: the returned length
  and the contents of the buffer after the call -/
  token_to_piece : llama_token → Int × CppString
  /-- the token sequence of a text under
  `llama_tokenize(vocab, text, len, _, _, true, true)` -/
  tokenize : CppString → List llama_token
  /-- the token sequence of a text under
  `llama_tokenize(vocab, text, len, _, _, false, false)` -/
  tokenize_plain : CppString → List llama_token
  /-- `llama_vocab_get_add_bos` -/
  add_bos : Bool
  /-- `llama_vocab_get_add_eos` -/
  add_eos : Bool
  /-- `llama_vocab_bos` -/
  bos : llama_token
  /-- `llama_vocab_eos` -/
  eos : llama_token
  /-- `llama_vocab_sep` -/
  sep : llama_token
  /-- `llama_vocab_fim_pre` -/
  fim_pre : llama_token
  /-- `llama_vocab_fim_suf` -/
  fim_suf : llama_token
  /-- `llama_vocab_fim_mid` -/
  fim_mid : llama_token

/-- One sampler object, named after the engine constructor that makes it, with the
arguments the constructor received. -/
inductive llama_sampler where
  | init_grammar (grammar_str : CppString) (grammar_root : String)
  | init_dry (n_ctx_train : Int) (dry_multiplier dry_base : F32)
      (dry_allowed_length dry_penalty_last_n : Int) (num_breakers : Nat)
  | init_penalties (penalty_last_n : Int)
      (penalty_repeat penalty_freq penalty_present : F32)
  | init_top_k (k : Int)
  | init_top_p (p : F32) (min_keep : Nat)
  | init_min_p (p : F32) (min_keep : Nat)
  | init_typical (p : F32) (min_keep : Nat)
  | init_xtc (p t : F32) (min_keep : Nat) (seed : Int)
  | init_mirostat (n_vocab : Int) (seed : Int) (tau eta : F32) (m : Int)
  | init_mirostat_v2 (seed : Int) (tau eta : F32)
  | init_temp (t : F32)
  | init_dist (seed : Int)
  deriving DecidableEq

/-- The stage kinds of a sampler pipeline. -/
inductive StageKind where
  | Grammar | DRY | Penalties | TopK | TopP | MinP | TypicalP | XTC
  | Mirostat | Temperature | Distribution
  deriving DecidableEq, Repr

/-- The stage kind of a sampler object; both Mirostat versions are of kind
`Mirostat`. -/
def llama_sampler.kind : llama_sampler → StageKind
  | .init_grammar _ _ => .Grammar
  | .init_dry _ _ _ _ _ _ => .DRY
  | .init_penalties _ _ _ _ => .Penalties
  | .init_top_k _ => .TopK
  | .init_top_p _ _ => .TopP
  | .init_min_p _ _ => .MinP
  | .init_typical _ _ => .TypicalP
  | .init_xtc _ _ _ _ => .XTC
  | .init_mirostat _ _ _ _ _ => .Mirostat
  | .init_mirostat_v2 _ _ _ => .Mirostat
  | .init_temp _ => .Temperature
  | .init_dist _ => .Distribution

/-- Whether a sampler object is Mirostat version 1. -/
def llama_sampler.isMirostatV1 : llama_sampler → Bool
  | .init_mirostat _ _ _ _ _ => true
  | _ => false

/-- Whether a sampler object is Mirostat version 2. -/
def llama_sampler.isMirostatV2 : llama_sampler → Bool
  | .init_mirostat_v2 _ _ _ => true
  | _ => false

/-- The call `s.c_str()` read as a C string: the bytes before the first NUL. -/
def c_str (s : CppString) : CppString := s.takeWhile (fun b => b != 0)

/-- The call `llama_sampler_chain_add(smpl, s)`: append at the end of the chain. -/
def llama_sampler_chain_add (smpl : List llama_sampler) (s : llama_sampler) :
    List llama_sampler :=
  smpl ++ [s]

/-- The function `build_sampler_chain` of `jni_sampling.cpp`, statement by
statement. The chain is the list of the samplers added, in the order added. -/
def build_sampler_chain (params : GenerateParams) (vocab : llama_vocab) :
    List llama_sampler :=
  let smpl : List llama_sampler := []
  -- 1. Grammar sampler (if grammar provided)
  let smpl :=
    if !params.grammar.isEmpty then
      if vocab.grammar_compiles (c_str params.grammar) then
        llama_sampler_chain_add smpl (.init_grammar (c_str params.grammar) "root")
      else smpl
    else smpl
  -- 2. DRY sampler
  let smpl :=
    if F32.gt params.dryMultiplier F32.zero then
      llama_sampler_chain_add smpl
        (.init_dry 0 params.dryMultiplier params.dryBase params.dryAllowedLength
          params.repeatLastN 0)
    else smpl
  -- 3. Repetition penalties sampler
  let smpl :=
    if F32.ne params.repeatPenalty F32.one || F32.ne params.frequencyPenalty F32.zero
        || F32.ne params.presencePenalty F32.zero then
      llama_sampler_chain_add smpl
        (.init_penalties params.repeatLastN params.repeatPenalty
          params.frequencyPenalty params.presencePenalty)
    else smpl
  -- 4. Top-K, 5. Top-P, 6. Min-P
  let smpl := llama_sampler_chain_add smpl (.init_top_k params.topK)
  let smpl := llama_sampler_chain_add smpl (.init_top_p params.topP 1)
  let smpl := llama_sampler_chain_add smpl (.init_min_p params.minP 1)
  -- 7. Typical-P sampling (if enabled)
  let smpl :=
    if F32.lt params.typicalP F32.one then
      llama_sampler_chain_add smpl (.init_typical params.typicalP 1)
    else smpl
  -- 8. XTC sampling (if enabled)
  let smpl :=
    if F32.gt params.xtcProbability F32.zero then
      llama_sampler_chain_add smpl
        (.init_xtc params.xtcProbability params.xtcThreshold 1 1)
    else smpl
  -- 9. Mirostat sampling (if enabled)
  let smpl :=
    if params.mirostatMode = 1 then
      llama_sampler_chain_add smpl
        (.init_mirostat vocab.n_tokens params.seed params.mirostatTau
          params.mirostatEta 100)
    else if params.mirostatMode = 2 then
      llama_sampler_chain_add smpl
        (.init_mirostat_v2 params.seed params.mirostatTau params.mirostatEta)
    else smpl
  -- 10. Temperature sampling (only if not using mirostat)
  let smpl :=
    if params.mirostatMode = 0 then
      llama_sampler_chain_add smpl (.init_temp params.temperature)
    else smpl
  -- 11. Distribution sampling with seed
  let smpl := llama_sampler_chain_add smpl (.init_dist params.seed)
  smpl

/-- The stage kinds of the chain `build_sampler_chain` builds, in chain order. -/
def chain_kinds (params : GenerateParams) (vocab : llama_vocab) : List StageKind :=
  (build_sampler_chain params vocab).map llama_sampler.kind

/-- The fixed stage order of the pipeline. -/
def stage_order : List StageKind :=
  [.Grammar, .DRY, .Penalties, .TopK, .TopP, .MinP, .TypicalP, .XTC, .Mirostat,
   .Temperature, .Distribution]

/-- A configuration to evaluate the definitions on: every optional stage off. -/
def params_plain : GenerateParams where
  prompt := []
  prompt_tokens := [1, 2, 3]
  grammar := []
  temperature := .finite 1
  topK := 40
  topP := .finite 1
  minP := .finite 0
  repeatPenalty := .finite 1
  repeatLastN := 64
  frequencyPenalty := .finite 0
  presencePenalty := .finite 0
  seed := 42
  maxTokens := 2
  stopSequences := []
  typicalP := .finite 1
  xtcProbability := .finite 0
  xtcThreshold := .finite 0
  mirostatMode := 0
  mirostatTau := .finite 5
  mirostatEta := .finite 1
  dryMultiplier := .finite 0
  dryBase := .finite 2
  dryAllowedLength := 2

/-- A vocabulary to evaluate the definitions on: tokens 0..9, token 0 ends the
generation, the piece of token `t` is the single byte `96 + t`, every grammar
compiles except the one-byte text "x" (byte 120); a text is tokenized byte by byte;
BOS is token 1 and is added, EOS is token 0 and is added, there is no SEP token, the
fill-in-the-middle markers are the tokens 7, 8 and 9. -/
def vocab_demo : llama_vocab where
  n_tokens := 10
  grammar_compiles := fun g => g != [120]
  is_eog := fun t => t == 0
  token_to_piece := fun t => (1, [Fin.ofNat (96 + t.toNat)])
  tokenize := fun s => s.map (fun b => (b.val : Int))
  tokenize_plain := fun s => s.map (fun b => (b.val : Int))
  add_bos := true
  add_eos := true
  bos := 1
  eos := 0
  sep := -1
  fim_pre := 7
  fim_suf := 8
  fim_mid := 9

/-- The same configuration with `mirostatMode = 3`, a value the host may pass (the
field is a plain `int`) that selects neither Mirostat version. -/
def params_mirostat3 : GenerateParams := { params_plain with mirostatMode := 3 }

/-- The inclusion condition `build_sampler_chain` tests for each stage kind. -/
def stage_enabled (params : GenerateParams) (vocab : llama_vocab) : StageKind → Bool
  | .Grammar => !params.grammar.isEmpty && vocab.grammar_compiles (c_str params.grammar)
  | .DRY => F32.gt params.dryMultiplier F32.zero
  | .Penalties =>
      F32.ne params.repeatPenalty F32.one || F32.ne params.frequencyPenalty F32.zero
        || F32.ne params.presencePenalty F32.zero
  | .TopK => true
  | .TopP => true
  | .MinP => true
  | .TypicalP => F32.lt params.typicalP F32.one
  | .XTC => F32.gt params.xtcProbability F32.zero
  | .Mirostat => decide (params.mirostatMode = 1) || decide (params.mirostatMode = 2)
  | .Temperature => decide (params.mirostatMode = 0)
  | .Distribution => true

/-- The list holding `a` when `c` holds and nothing otherwise. -/
def optStage {α : Type} (c : Bool) (a : α) : List α := if c then [a] else []

/-! ## Batches (`jni_common.cpp`) -/

/-- One slot of a batch: the values `batch_add` writes at one index. -/
structure BatchEntry where
  token : llama_token
  pos : Int
  seq_id : List Int
  logits : Bool
  deriving DecidableEq

/-- A `llama_batch` allocated by `llama_batch_init(n_tokens_alloc, 0, n_seq_max)`.
`entries` holds the slots `0 .. n_tokens - 1`; what the arrays hold from index
`n_tokens` on is never read by the engine. -/
structure llama_batch where
  n_tokens_alloc : Nat
  n_seq_max : Nat
  entries : List BatchEntry
  deriving DecidableEq

/-- The field `batch.n_tokens`. -/
def llama_batch.n_tokens (batch : llama_batch) : Int := batch.entries.length

/-- The call `llama_batch_init(n_tokens_alloc, 0, n_seq_max)`. -/
def llama_batch_init (n_tokens_alloc n_seq_max : Nat) : llama_batch :=
  { n_tokens_alloc := n_tokens_alloc, n_seq_max := n_seq_max, entries := [] }

/-- The function `batch_add`: write the slot at index `n_tokens`, then increment
`n_tokens`. The source does not check the index; `none` stands for a write outside
the allocated arrays (undefined behaviour). -/
def batch_add (batch : llama_batch) (id : llama_token) (pos : Int) (seq_ids : List Int)
    (logits : Bool) : Option llama_batch :=
  if batch.entries.length < batch.n_tokens_alloc ∧ seq_ids.length ≤ batch.n_seq_max then
    some { batch with entries := batch.entries ++ [⟨id, pos, seq_ids, logits⟩] }
  else none

/-- The function `batch_clear`: `n_tokens = 0`. -/
def batch_clear (batch : llama_batch) : llama_batch :=
  { batch with entries := [] }

/-- The assignment `batch.logits[batch.n_tokens - 1] = true`; `none` when the index
is `-1` (empty batch): a write before the array. -/
def batch_set_last_logits (batch : llama_batch) : Option llama_batch :=
  match batch.entries.getLast? with
  | none => none
  | some e => some { batch with entries := batch.entries.dropLast ++ [{ e with logits := true }] }

/-! ## Stop check and generation loop (`jni_completion.cpp`) -/

/-- Lexicographic three-way comparison of two byte strings, as
`std::char_traits<char>::compare` on the common length followed by the comparison of
the lengths: negative, zero or positive. -/
def compare_bytes : CppString → CppString → Int
  | [], [] => 0
  | [], _ :: _ => -1
  | _ :: _, [] => 1
  | a :: as, b :: bs =>
      if a < b then -1 else if b < a then 1 else compare_bytes as bs

/-- The call `s.compare(pos, len, str)` of `std::string`, for `pos <= s.size()`:
compares the substring of `s` that starts at `pos` and has at most `len` bytes with
`str`. -/
def string_compare (s : CppString) (pos len : Nat) (str : CppString) : Int :=
  compare_bytes ((s.drop pos).take len) str

/-- The stop check of `generate_worker` (the loop over `params->stopSequences` that
sets `stopTriggered`), on the accumulated output. -/
def stop_triggered (accumulatedOutput : CppString) : List CppString → Bool
  | [] => false
  | stopSeq :: rest =>
      if accumulatedOutput.length ≥ stopSeq.length then
        if string_compare accumulatedOutput (accumulatedOutput.length - stopSeq.length)
            stopSeq.length stopSeq = 0 then
          true
        else stop_triggered accumulatedOutput rest
      else stop_triggered accumulatedOutput rest

/-- What the worker does that is visible outside it, one event per call. -/
inductive Event where
  /-- `AttachCurrentThread`, with whether it returned `JNI_OK` -/
  | attach (ok : Bool)
  /-- `llama_memory_clear(mem, true)` -/
  | memory_clear
  /-- the sampler chain `build_sampler_chain` returned -/
  | sampler_chain (chain : List llama_sampler)
  /-- `llama_batch_init` -/
  | batch_init (n_tokens_alloc n_seq_max : Nat)
  /-- `llama_decode` on the batch slots `0 .. n_tokens - 1`, with its return code -/
  | decode (batch : List BatchEntry) (ret : Int)
  /-- `llama_sampler_sample`: the token drawn, or `none` when the call threw -/
  | sample (result : Option llama_token)
  /-- the callback `onToken` with the bytes passed to it -/
  | on_token (bytes : CppString)
  /-- `llama_batch_free` -/
  | batch_free
  /-- `llama_sampler_free` -/
  | sampler_free
  /-- `DetachCurrentThread` -/
  | detach
  deriving DecidableEq

/-- The environment of one worker run. The stateful engine calls are oracles of the
trace so far, so that they may behave in any way whatever. -/
structure Engine where
  vocab : llama_vocab
  /-- whether `AttachCurrentThread` returns `JNI_OK` -/
  attach_ok : Bool
  /-- `llama_sampler_sample(smpl, ctx, -1)`; `none` when it throws `std::exception` -/
  sample : List Event → Option llama_token
  /-- the return code of `llama_decode(ctx, batch)` -/
  decode : List Event → List BatchEntry → Int

/-- How a run of the worker ends. -/
inductive Status where
  /-- the thread could not be attached to the JVM -/
  | failed_attach
  /-- Stopped(EOG) -/
  | stopped_eog
  /-- Stopped(StopSequence) -/
  | stopped_stop_sequence
  /-- Stopped(Budget): the loop condition `n_decode < maxTokens` is false -/
  | stopped_budget
  /-- Failed(DecodeError): `llama_decode` returned non-zero -/
  | failed_decode
  /-- the `catch` block of the loop ran -/
  | failed_exception
  deriving DecidableEq, Repr

/-- The chunks delivered to the caller, in order of delivery. -/
def delivered : List Event → List CppString
  | [] => []
  | .on_token bytes :: rest => bytes :: delivered rest
  | _ :: rest => delivered rest

/-- The calls of `llama_sampler_sample`, in order, with the token drawn. -/
def sample_calls : List Event → List (Option llama_token)
  | [] => []
  | .sample r :: rest => r :: sample_calls rest
  | _ :: rest => sample_calls rest

/-- The tokens drawn by the sampler, in order (a call that threw drew none). -/
def sampled_tokens : List Event → List llama_token
  | [] => []
  | .sample (some tok) :: rest => tok :: sampled_tokens rest
  | _ :: rest => sampled_tokens rest

/-- The calls of `llama_decode`, in order, with the batch and the return code. -/
def decode_calls : List Event → List (List BatchEntry × Int)
  | [] => []
  | .decode b r :: rest => (b, r) :: decode_calls rest
  | _ :: rest => decode_calls rest

/-- The loop-local variables of `generate_worker`, and the trace so far. -/
structure GenerationState where
  n_cur : Int
  n_decode : Int
  accumulatedOutput : CppString
  batch : llama_batch
  trace : List Event
  deriving DecidableEq

/-- The outcome of one pass through the body of the `while` loop. -/
inductive Step where
  /-- the end of the body is reached: the loop condition is tested again -/
  | next (st : GenerationState)
  /-- a `break` -/
  | stop (status : Status) (st : GenerationState)
  /-- a write outside the batch arrays -/
  | out_of_bounds
  deriving DecidableEq

/-- The result of running code that has a loop and unchecked array writes. -/
inductive Run (α : Type) where
  | done (a : α)
  /-- a write outside an array: undefined behaviour -/
  | out_of_bounds
  /-- the fuel given to the model of the loop did not suffice -/
  | out_of_fuel
  deriving DecidableEq

/-- The value an `int` holds after an arithmetic result `x` that may lie outside
`[-2^31, 2^31)`: the two's-complement wrap of the 32-bit targets. (In C++ the signed
overflow itself is undefined behaviour.) -/
def int32_wrap (x : Int) : Int := (x + 2147483648) % 4294967296 - 2147483648

/-- Lines 155-165 of `generate_worker`: clear the batch, add the new token at
position `n_cur`, advance the counters, decode. The increment `n_cur++` is an `int`
increment; `n_decode++` cannot overflow, since the body runs only when
`n_decode < maxTokens`. -/
def feed_token (E : Engine) (st : GenerationState) (new_token_id : llama_token) : Step :=
  match batch_add (batch_clear st.batch) new_token_id st.n_cur [0] true with
  | none => .out_of_bounds
  | some batch =>
      let ret := E.decode st.trace batch.entries
      let st : GenerationState :=
        { st with
          batch := batch
          n_cur := int32_wrap (st.n_cur + 1)
          n_decode := st.n_decode + 1
          trace := st.trace ++ [.decode batch.entries ret] }
      if ret ≠ 0 then .stop .failed_decode st else .next st

/-- The bytes `buf[0 .. n)` of a piece conversion result `(n, buf)`. -/
def piece_bytes (r : Int × CppString) : CppString := r.2.take r.1.toNat

/-- The body of the `while` loop of `generate_worker` (lines 99-171). Of the calls
inside the `try` block the sampler is the one that can throw (the grammar stage of
the chain); the first piece conversion (lines 106-113) only feeds the debug log and
leaves no trace here. -/
def loop_body (E : Engine) (params : GenerateParams) (st : GenerationState) : Step :=
  match E.sample st.trace with
  | none =>
      -- the exception is caught: break
      .stop .failed_exception { st with trace := st.trace ++ [.sample none] }
  | some new_token_id =>
      let st : GenerationState :=
        { st with trace := st.trace ++ [.sample (some new_token_id)] }
      if E.vocab.is_eog new_token_id then
        .stop .stopped_eog st
      else
        let r := E.vocab.token_to_piece new_token_id
        if r.1 ≥ 0 then
          let st : GenerationState :=
            { st with accumulatedOutput := st.accumulatedOutput ++ piece_bytes r }
          if stop_triggered st.accumulatedOutput params.stopSequences then
            .stop .stopped_stop_sequence st
          else
            feed_token E { st with trace := st.trace ++ [.on_token (piece_bytes r)] }
              new_token_id
        else
          feed_token E st new_token_id

/-- The `while (n_decode < params->maxTokens)` loop of `generate_worker`. One unit
of fuel is used per test of the loop condition. -/
def generation_loop (E : Engine) (params : GenerateParams) :
    Nat → GenerationState → Run (Status × GenerationState)
  | 0, _ => .out_of_fuel
  | fuel + 1, st =>
      if st.n_decode < params.maxTokens then
        match loop_body E params st with
        | .next st' => generation_loop E params fuel st'
        | .stop status st' => .done (status, st')
        | .out_of_bounds => .out_of_bounds
      else .done (.stopped_budget, st)

/-- The engine call `llama_tokenize(vocab, text, len, buf, n_tokens_max, true, true)`
on a buffer `buf`: the number of tokens when they fit, the tokens being written at
the start of the buffer; minus the number of tokens when they do not fit. -/
def llama_tokenize (vocab : llama_vocab) (text : CppString) (buf : List llama_token) :
    Int × List llama_token :=
  let toks := vocab.tokenize text
  if toks.length ≤ buf.length then (toks.length, toks ++ buf.drop toks.length)
  else (-(toks.length : Int), buf)

/-- The call `v.resize(n)` of `std::vector<llama_token>`. -/
def vector_resize (v : List llama_token) (n : Nat) : List llama_token :=
  v.take n ++ List.replicate (n - v.length) 0

/-- Lines 60-74 of `generate_worker`: the initial token sequence. -/
def tokens_list (vocab : llama_vocab) (params : GenerateParams) : List llama_token :=
  if !params.prompt_tokens.isEmpty then
    params.prompt_tokens
  else
    let tokens_list := vector_resize [] (params.prompt.length + 2)
    let r := llama_tokenize vocab params.prompt tokens_list
    let r :=
      if r.1 < 0 then llama_tokenize vocab params.prompt (vector_resize r.2 (-r.1).toNat)
      else r
    vector_resize r.2 r.1.toNat

/-- Lines 78-80 of `generate_worker`: add token `i` at position `i`, without
logits, for the tokens from index `i` on. -/
def prefill_add (batch : llama_batch) : List llama_token → Nat → Option llama_batch
  | [], _ => some batch
  | tok :: rest, i =>
      match batch_add batch tok i [0] false with
      | none => none
      | some batch => prefill_add batch rest (i + 1)

/-- What a finished run of the worker leaves: how it ended, the final value of the
output accumulator, and the whole trace. -/
structure WorkerResult where
  status : Status
  accumulatedOutput : CppString
  trace : List Event
  deriving DecidableEq

/-- The function `generate_worker` of `jni_completion.cpp`. -/
def generate_worker (E : Engine) (params : GenerateParams) (fuel : Nat) :
    Run WorkerResult :=
  if !E.attach_ok then
    .done ⟨.failed_attach, [], [.attach false]⟩
  else
    let trace : List Event :=
      [.attach true, .memory_clear, .sampler_chain (build_sampler_chain params E.vocab),
       .batch_init 4096 1]
    match prefill_add (llama_batch_init 4096 1) (tokens_list E.vocab params) 0 with
    | none => .out_of_bounds
    | some batch =>
        match batch_set_last_logits batch with
        | none => .out_of_bounds
        | some batch =>
            let ret := E.decode trace batch.entries
            let trace := trace ++ [.decode batch.entries ret]
            if ret ≠ 0 then
              .done ⟨.failed_decode, [], trace ++ [.batch_free, .sampler_free, .detach]⟩
            else
              match generation_loop E params fuel
                  { n_cur := batch.n_tokens, n_decode := 0, accumulatedOutput := [],
                    batch := batch, trace := trace } with
              | .done (status, st) =>
                  .done ⟨status, st.accumulatedOutput,
                    st.trace ++ [.batch_free, .sampler_free, .detach]⟩
              | .out_of_bounds => .out_of_bounds
              | .out_of_fuel => .out_of_fuel

/-- An engine to evaluate the definitions on: attaching succeeds, the k-th call of
the sampler (k = 1, 2, ...) draws token k, every decode returns 0. -/
def engine_demo : Engine where
  vocab := vocab_demo
  attach_ok := true
  sample := fun trace => some (1 + (sample_calls trace).length)
  decode := fun _ _ => 0

/-- The demo engine with a sampler that always draws token 0, the
end-of-generation token of the demo vocabulary. -/
def engine_eog : Engine := { engine_demo with sample := fun _ => some 0 }

/-- The loop-local state at loop entry after a prefill of three tokens, with an
empty trace. -/
def state_demo : GenerationState where
  n_cur := 3
  n_decode := 0
  accumulatedOutput := []
  batch := llama_batch_init 4096 1
  trace := []

/-- The demo configuration with the stop sequence "a" (byte 97). -/
def params_stop_a : GenerateParams := { params_plain with stopSequences := [[97]] }

/-- The events that close every run that got past the attach: the batch and the
sampler chain are freed, the thread is detached. -/
def cleanup : List Event := [.batch_free, .sampler_free, .detach]

/-- The events of a run before the prefill decode. -/
def preamble (E : Engine) (params : GenerateParams) : List Event :=
  [.attach true, .memory_clear, .sampler_chain (build_sampler_chain params E.vocab),
   .batch_init 4096 1]

/-- Every decode call recorded in the trace returned 0. -/
def all_decodes_ok (trace : List Event) : Prop :=
  ∀ p ∈ decode_calls trace, p.2 = 0

/-- What holds of the loop-local state each time the loop condition is tested, in a
run of `generate_worker`. -/
structure LoopInv (params : GenerateParams) (st : GenerationState) : Prop where
  n_decode_nonneg : 0 ≤ st.n_decode
  n_decode_le : st.n_decode.toNat ≤ params.maxTokens.toNat
  samples : (sample_calls st.trace).length = st.n_decode.toNat
  tokens : (sampled_tokens st.trace).length = st.n_decode.toNat
  chunks : (delivered st.trace).length ≤ (sample_calls st.trace).length
  acc : (delivered st.trace).flatten = st.accumulatedOutput
  decodes_ok : all_decodes_ok st.trace
  prefilled : decode_calls st.trace ≠ []
  alloc : 0 < st.batch.n_tokens_alloc
  seq : 1 ≤ st.batch.n_seq_max

/-- What holds of the status and the loop-local state when the loop is left. -/
structure LoopPost (E : Engine) (params : GenerateParams) (status : Status)
    (st : GenerationState) : Prop where
  samples_le : (sample_calls st.trace).length ≤ params.maxTokens.toNat
  chunks_le : (delivered st.trace).length ≤ (sample_calls st.trace).length
  budget : status = .stopped_budget →
    (sampled_tokens st.trace).length = params.maxTokens.toNat
  stop : status = .stopped_stop_sequence →
    ∃ tok, (sampled_tokens st.trace).getLast? = some tok
      ∧ st.accumulatedOutput
          = (delivered st.trace).flatten ++ piece_bytes (E.vocab.token_to_piece tok)
      ∧ stop_triggered st.accumulatedOutput params.stopSequences = true
  acc : status ≠ .stopped_stop_sequence →
    (delivered st.trace).flatten = st.accumulatedOutput
  failed : status = .failed_decode →
    ∃ T b r, st.trace = T ++ [.decode b r] ∧ r ≠ 0 ∧ all_decodes_ok T
      ∧ decode_calls T ≠ []
  ok : status ≠ .failed_decode → all_decodes_ok st.trace
  attached : status ≠ .failed_attach

/-- The demo configuration with a negative token budget. -/
def params_negative_budget : GenerateParams := { params_plain with maxTokens := -1 }

/-- The run of the demo engine under `params_negative_budget`: the prefill, then the
loop condition fails at once. -/
def result_negative_budget : WorkerResult where
  status := .stopped_budget
  accumulatedOutput := []
  trace :=
    preamble engine_demo params_negative_budget
      ++ [.decode [⟨1, 0, [0], false⟩, ⟨2, 1, [0], false⟩, ⟨3, 2, [0], true⟩] 0]
      ++ cleanup

/-- The demo configuration with the stop sequence "b" (byte 98). -/
def params_stop_b : GenerateParams := { params_plain with stopSequences := [[98]] }

/-- The run of the demo engine under `params_stop_b`: token 1 (piece "a") is
delivered and fed back, token 2 (piece "b") completes the stop sequence. -/
def result_stop_b : WorkerResult where
  status := .stopped_stop_sequence
  accumulatedOutput := [97, 98]
  trace :=
    preamble engine_demo params_stop_b
      ++ [.decode [⟨1, 0, [0], false⟩, ⟨2, 1, [0], false⟩, ⟨3, 2, [0], true⟩] 0,
          .sample (some 1), .on_token [97], .decode [⟨1, 3, [0], true⟩] 0,
          .sample (some 2)]
      ++ cleanup

/-- The demo engine with a decode that succeeds on its first call (the prefill) and
returns 1 on every later call. -/
def engine_decode_fails : Engine :=
  { engine_demo with
    decode := fun trace _ => if (decode_calls trace).length = 0 then 0 else 1 }

/-- The run of `engine_decode_fails` under `params_plain`: token 1 is delivered,
then its decode fails. -/
def result_decode_fails : WorkerResult where
  status := .failed_decode
  accumulatedOutput := [97]
  trace :=
    preamble engine_decode_fails params_plain
      ++ [.decode [⟨1, 0, [0], false⟩, ⟨2, 1, [0], false⟩, ⟨3, 2, [0], true⟩] 0,
          .sample (some 1), .on_token [97], .decode [⟨1, 3, [0], true⟩] 1]
      ++ cleanup

/-- The demo configuration with the grammar text "r" (byte 114), which the demo
vocabulary compiles. -/
def params_grammar_ok : GenerateParams := { params_plain with grammar := [114] }

/-- The demo configuration with the grammar text "x" (byte 120), which the demo
vocabulary does not compile. -/
def params_grammar_bad : GenerateParams := { params_plain with grammar := [120] }

/-! ## Memory operations (`jni_memory.cpp`) -/

/-- The engine calls on the sequence-scoped memory of a context, with their
arguments. -/
inductive MemoryOp where
  /-- `llama_memory_clear(mem, data)` -/
  | clear (data : Bool)
  /-- `llama_memory_seq_rm(mem, seq_id, p0, p1)` -/
  | seq_rm (seq_id p0 p1 : Int)
  /-- `llama_memory_seq_cp(mem, seq_id_src, seq_id_dst, p0, p1)` -/
  | seq_cp (seq_id_src seq_id_dst p0 p1 : Int)
  /-- `llama_memory_seq_keep(mem, seq_id)` -/
  | seq_keep (seq_id : Int)
  /-- `llama_memory_seq_add(mem, seq_id, p0, p1, delta)` -/
  | seq_add (seq_id p0 p1 delta : Int)
  /-- `llama_memory_seq_div(mem, seq_id, p0, p1, d)` -/
  | seq_div (seq_id p0 p1 d : Int)
  deriving DecidableEq

/-- The memory state after the engine has performed the given calls in order, for
an engine whose calls act on the state as `apply`. -/
def apply_memory_ops {σ : Type} (apply : MemoryOp → σ → σ) (ops : List MemoryOp)
    (mem : σ) : σ :=
  ops.foldl (fun m op => apply op m) mem

/-- The function `nativeRemoveKvCacheTokens`: the engine calls it makes and the value
it returns, `seq_rm_result` being what `llama_memory_seq_rm` answers. -/
def Java_com_cortex_app_LlamaEngine_nativeRemoveKvCacheTokens (contextPtr : Int) (seq_rm_result : Bool)
    (seqId pos0 pos1 : Int) : List MemoryOp × Bool :=
  if contextPtr = 0 then ([], false)
  else
    let sid := seqId
    let p0 := if pos0 < 0 then -1 else pos0
    let p1 := if pos1 < 0 then -1 else pos1
    ([.seq_rm sid p0 p1], seq_rm_result)

/-- The function `nativeCopyKvCacheSequence`: the engine calls it makes. -/
def Java_com_cortex_app_LlamaEngine_nativeCopyKvCacheSequence (contextPtr : Int) (srcSeqId dstSeqId pos0 pos1 : Int) :
    List MemoryOp :=
  if contextPtr = 0 then []
  else
    let src_sid := srcSeqId
    let dst_sid := dstSeqId
    let p0 := if pos0 < 0 then -1 else pos0
    let p1 := if pos1 < 0 then -1 else pos1
    [.seq_cp src_sid dst_sid p0 p1]

/-- The function `nativeShiftKvCachePositions`: the engine calls it makes. -/
def Java_com_cortex_app_LlamaEngine_nativeShiftKvCachePositions (contextPtr : Int) (seqId pos0 pos1 delta : Int) :
    List MemoryOp :=
  if contextPtr = 0 then []
  else
    let sid := seqId
    let p0 := if pos0 < 0 then -1 else pos0
    let p1 := if pos1 < 0 then -1 else pos1
    let d := delta
    [.seq_add sid p0 p1 d]

/-- The function `nativeDivideKvCachePositions`: the engine calls it makes. -/
def Java_com_cortex_app_LlamaEngine_nativeDivideKvCachePositions (contextPtr : Int) (seqId pos0 pos1 divisor : Int) :
    List MemoryOp :=
  if contextPtr = 0 then []
  else if divisor ≤ 1 then []
  else
    let sid := seqId
    let p0 := if pos0 < 0 then -1 else pos0
    let p1 := if pos1 < 0 then -1 else pos1
    [.seq_div sid p0 p1 divisor]

/-- The translation of a caller position as the specification words it: `-1` for a
negative position, the position itself otherwise. -/
def norm_pos (p : Int) : Int := if p < 0 then -1 else p

/-! ## One pass of the loop as a relation -/

/-- The loop-local state after lines 155-165 have fed `tok` back and the decode has
returned `ret`. -/
def fed_state (st : GenerationState) (tok : llama_token) (ret : Int) : GenerationState :=
  { st with
    batch := { st.batch with entries := [⟨tok, st.n_cur, [0], true⟩] }
    n_cur := int32_wrap (st.n_cur + 1)
    n_decode := st.n_decode + 1
    trace := st.trace ++ [.decode [⟨tok, st.n_cur, [0], true⟩] ret] }

/-- The outcome of a pass that reached the decode: the end of the body when the
return code is 0, the break with Failed(DecodeError) otherwise. -/
def decode_outcome (ret : Int) : Option Status :=
  if ret = 0 then none else some .failed_decode

/-- The five ways through the body of the loop, read off `loop_body`: `Pass E params
st o st'` says that a pass from `st` ends in `st'`, at the end of the body when `o`
is `none` and with a break of status `x` when `o` is `some x`. -/
inductive Pass (E : Engine) (params : GenerateParams) (st : GenerationState) :
    Option Status → GenerationState → Prop where
  /-- the sampler throws -/
  | exception (hs : E.sample st.trace = none) :
      Pass E params st (some .failed_exception)
        { st with trace := st.trace ++ [.sample none] }
  /-- an end-of-generation token is drawn -/
  | eog (tok : llama_token) (hs : E.sample st.trace = some tok)
      (he : E.vocab.is_eog tok = true) :
      Pass E params st (some .stopped_eog)
        { st with trace := st.trace ++ [.sample (some tok)] }
  /-- the bytes of the token complete a stop sequence -/
  | stop (tok : llama_token) (hs : E.sample st.trace = some tok)
      (he : E.vocab.is_eog tok = false) (hn : 0 ≤ (E.vocab.token_to_piece tok).1)
      (hm : stop_triggered
        (st.accumulatedOutput ++ piece_bytes (E.vocab.token_to_piece tok))
        params.stopSequences = true) :
      Pass E params st (some .stopped_stop_sequence)
        { st with
          accumulatedOutput :=
            st.accumulatedOutput ++ piece_bytes (E.vocab.token_to_piece tok)
          trace := st.trace ++ [.sample (some tok)] }
  /-- the bytes of the token are delivered and the token is fed back -/
  | emit (tok : llama_token) (ret : Int) (o : Option Status)
      (hs : E.sample st.trace = some tok)
      (he : E.vocab.is_eog tok = false) (hn : 0 ≤ (E.vocab.token_to_piece tok).1)
      (hm : stop_triggered
        (st.accumulatedOutput ++ piece_bytes (E.vocab.token_to_piece tok))
        params.stopSequences = false)
      (hret : E.decode
        (st.trace ++ [.sample (some tok)]
          ++ [.on_token (piece_bytes (E.vocab.token_to_piece tok))])
        [⟨tok, st.n_cur, [0], true⟩] = ret)
      (ho : o = decode_outcome ret) :
      Pass E params st o
        (fed_state
          { st with
            accumulatedOutput :=
              st.accumulatedOutput ++ piece_bytes (E.vocab.token_to_piece tok)
            trace := st.trace ++ [.sample (some tok)]
              ++ [.on_token (piece_bytes (E.vocab.token_to_piece tok))] }
          tok ret)
  /-- the conversion of the token fails: the token is fed back undelivered -/
  | skip (tok : llama_token) (ret : Int) (o : Option Status)
      (hs : E.sample st.trace = some tok)
      (he : E.vocab.is_eog tok = false) (hn : (E.vocab.token_to_piece tok).1 < 0)
      (hret : E.decode (st.trace ++ [.sample (some tok)])
        [⟨tok, st.n_cur, [0], true⟩] = ret)
      (ho : o = decode_outcome ret) :
      Pass E params st o
        (fed_state { st with trace := st.trace ++ [.sample (some tok)] } tok ret)

/-- The loop-local state at loop entry, after a prefill of `batch` whose decode
returned 0. -/
def loop_entry (E : Engine) (params : GenerateParams) (batch : llama_batch) :
    GenerationState :=
  { n_cur := batch.n_tokens, n_decode := 0, accumulatedOutput := [], batch := batch,
    trace := preamble E params ++ [.decode batch.entries 0] }

/-- The events the loop itself adds to the trace. -/
def Event.isLoopEvent : Event → Bool
  | .sample _ => true
  | .on_token _ => true
  | .decode _ _ => true
  | _ => false

/-- The value of the output accumulator after the events of a trace, replayed from
the trace: a pass appends the bytes of the token it drew exactly when the token is
not end-of-generation and its conversion succeeded, and it does so before any
other event of the pass. -/
def accumulated (vocab : llama_vocab) : List Event → CppString
  | [] => []
  | .sample (some tok) :: rest =>
      (if vocab.is_eog tok = false ∧ 0 ≤ (vocab.token_to_piece tok).1 then
        piece_bytes (vocab.token_to_piece tok)
      else []) ++ accumulated vocab rest
  | _ :: rest => accumulated vocab rest

/-- The ordering property of the chunks of a trace: the chunks delivered are the
pieces of a subsequence of the tokens sampled, in the order sampled; and at every
point of the trace the chunks delivered so far concatenate to an initial segment
of the accumulator. -/
structure ChunkInv (vocab : llama_vocab) (trace : List Event) : Prop where
  emitted : ∃ emitted : List llama_token,
    List.Sublist emitted (sampled_tokens trace)
      ∧ delivered trace = emitted.map (fun tok => piece_bytes (vocab.token_to_piece tok))
  at_every_point : ∀ pre, pre <+: trace →
    (delivered pre).flatten <+: accumulated vocab pre

/-! ## Infill (`jni_completion.cpp`) -/

/-- The constant `LLAMA_TOKEN_NULL` of the engine. -/
def LLAMA_TOKEN_NULL : llama_token := -1

/-- The engine call `llama_tokenize(vocab, text, len, buf, n_tokens_max, false,
false)` on a buffer `buf`, as `llama_tokenize` above. -/
def llama_tokenize_plain (vocab : llama_vocab) (text : CppString)
    (buf : List llama_token) : Int × List llama_token :=
  let toks := vocab.tokenize_plain text
  if toks.length ≤ buf.length then (toks.length, toks ++ buf.drop toks.length)
  else (-(toks.length : Int), buf)

/-- The idiom around every `llama_tokenize` call of the repository: a vector of
`text_len + 2` slots, the call, on a negative count a resize to the count asked for
and a second call, then a resize to the count returned. -/
def tokenize_vector (tokenize_into : List llama_token → Int × List llama_token)
    (text_len : Nat) : List llama_token :=
  let v := vector_resize [] (text_len + 2)
  let r := tokenize_into v
  let r := if r.1 < 0 then tokenize_into (vector_resize r.2 (-r.1).toNat) else r
  vector_resize r.2 r.1.toNat

/-- What an entry point that runs the generation worker does, one event per step;
the events of the worker are inside its result. -/
inductive HostEvent where
  /-- the tokenization of a text (the `llama_tokenize` call and its retry) -/
  | tokenize (text : CppString) (add_special parse_special : Bool)
  /-- `pthread_create` with the stack size asked for, and whether it returned 0 -/
  | thread_create (stack_size : Nat) (ok : Bool)
  /-- the run of `generate_worker` on the new thread -/
  | worker (result : WorkerResult)
  /-- `pthread_join` -/
  | thread_join
  deriving DecidableEq

/-- The host side of an entry point. -/
structure Host where
  /-- whether `pthread_create` returns 0 -/
  thread_create_ok : Bool

/-- Lines 338-350 of `infill`: the token sequence built around the tokens of the
text before and of the text after the gap. -/
def infill_prompt_tokens (vocab : llama_vocab) (pre_tokens suf_tokens : List llama_token) :
    List llama_token :=
  let prompt_tokens : List llama_token := []
  let prompt_tokens :=
    if vocab.add_bos then prompt_tokens ++ [vocab.bos] else prompt_tokens
  let prompt_tokens := prompt_tokens ++ [vocab.fim_pre]
  let prompt_tokens := prompt_tokens ++ pre_tokens
  let prompt_tokens := prompt_tokens ++ [vocab.fim_suf]
  let prompt_tokens := prompt_tokens ++ suf_tokens
  let prompt_tokens := prompt_tokens ++ [vocab.fim_mid]
  prompt_tokens

/-- Lines 352-357 of `infill`: the worker parameters. `GenerateParams params;` leaves
the scalar fields unassigned: they hold whatever `uninit` holds; the strings and the
vectors start empty, and `prompt`, `prompt_tokens` and `grammar` are assigned. -/
def infill_params (vocab : llama_vocab) (uninit : GenerateParams)
    (pre_text suf_text : CppString) : GenerateParams :=
  let pre_tokens := tokenize_vector (llama_tokenize_plain vocab pre_text) pre_text.length
  let suf_tokens := tokenize_vector (llama_tokenize_plain vocab suf_text) suf_text.length
  { uninit with
    prompt := []
    prompt_tokens := infill_prompt_tokens vocab pre_tokens suf_tokens
    grammar := []
    stopSequences := [] }

/-- The entry point `Java_com_cortex_app_LlamaEngine_infill`, on the C strings of the
two texts: the events of the call. -/
def Java_com_cortex_app_LlamaEngine_infill (contextPtr : Int) (E : Engine) (host : Host) (uninit : GenerateParams)
    (pre_text suf_text : CppString) (fuel : Nat) : Run (List HostEvent) :=
  if contextPtr = 0 then .done []
  else
    let fim_pre := E.vocab.fim_pre
    let fim_suf := E.vocab.fim_suf
    let fim_mid := E.vocab.fim_mid
    if fim_pre = LLAMA_TOKEN_NULL ∨ fim_suf = LLAMA_TOKEN_NULL ∨ fim_mid = LLAMA_TOKEN_NULL then
      .done []
    else
      let events : List HostEvent :=
        [.tokenize pre_text false false, .tokenize suf_text false false]
      let params := infill_params E.vocab uninit pre_text suf_text
      let stack_size := 8 * 1024 * 1024
      if host.thread_create_ok then
        match generate_worker E params fuel with
        | .done r =>
            .done (events ++ [.thread_create stack_size true, .worker r, .thread_join])
        | .out_of_bounds => .out_of_bounds
        | .out_of_fuel => .out_of_fuel
      else
        .done (events ++ [.thread_create stack_size false])

/-- The demo vocabulary without the fill-in-the-middle marker for the middle. -/
def vocab_no_fim_mid : llama_vocab := { vocab_demo with fim_mid := -1 }

/-- The demo engine on the vocabulary without the middle marker. -/
def engine_no_fim_mid : Engine := { engine_demo with vocab := vocab_no_fim_mid }

/-- A host on which threads can be created. -/
def host_demo : Host := { thread_create_ok := true }

/-- The run of infill on the demo data, texts "a" and "b": the worker is handed the
six tokens BOS, FIM_PRE, 97, FIM_SUF, 98, FIM_MID and runs to the budget. -/
def result_infill_demo : WorkerResult where
  status := .stopped_budget
  accumulatedOutput := [97, 98]
  trace :=
    preamble engine_demo (infill_params vocab_demo params_plain [97] [98])
      ++ [.decode [⟨1, 0, [0], false⟩, ⟨7, 1, [0], false⟩, ⟨97, 2, [0], false⟩,
            ⟨8, 3, [0], false⟩, ⟨98, 4, [0], false⟩, ⟨9, 5, [0], true⟩] 0,
          .sample (some 1), .on_token [97], .decode [⟨1, 6, [0], true⟩] 0,
          .sample (some 2), .on_token [98], .decode [⟨2, 7, [0], true⟩] 0]
      ++ cleanup

/-! ## Rerank (`jni_rerank.cpp`) -/

/-- The call `s.find(search, pos)` of `std::string` on the bytes of `s` from index
`idx` on: the first index at which `search` starts. -/
def string_find_from (search : CppString) : CppString → Nat → Option Nat
  | [], idx => if search.isEmpty then some idx else none
  | c :: rest, idx =>
      if search.isPrefixOf (c :: rest) then some idx
      else string_find_from search rest (idx + 1)

/-- The call `s.find(search, pos)` of `std::string`; `none` is `npos`. -/
def string_find (s search : CppString) (pos : Nat) : Option Nat :=
  if pos ≤ s.length then string_find_from search (s.drop pos) pos else none

/-- The loop of `string_replace_all` from position `pos`, one unit of fuel per
pass; `none` when the fuel does not suffice. -/
def string_replace_all_from (search replace : CppString) :
    Nat → CppString → Nat → Option CppString
  | 0, _, _ => none
  | fuel + 1, s, pos =>
      match string_find s search pos with
      | none => some s
      | some p =>
          -- s.erase(pos, search.length()); s.insert(pos, replace); pos += replace.length()
          string_replace_all_from search replace fuel
            (s.take p ++ replace ++ s.drop (p + search.length)) (p + replace.length)

/-- The function `string_replace_all`: the value of `s` after the call. -/
def string_replace_all (fuel : Nat) (s search replace : CppString) : Option CppString :=
  string_replace_all_from search replace fuel s 0

/-- The text "\x7bquery\x7d". -/
def placeholder_query : CppString := [123, 113, 117, 101, 114, 121, 125]

/-- The text "\x7bdocument\x7d". -/
def placeholder_document : CppString :=
  [123, 100, 111, 99, 117, 109, 101, 110, 116, 125]

/-- One embedding vector the engine hands out: its first component and the others. -/
structure Embedding where
  first : F32
  rest : List F32
  deriving DecidableEq

/-- What the rerank worker does that is visible outside it. -/
inductive RerankEvent where
  /-- `llama_batch_init` -/
  | batch_init (n_tokens_alloc n_seq_max : Nat)
  /-- `llama_encode` on the batch slots, with its return code -/
  | encode (batch : List BatchEntry) (ret : Int)
  /-- `llama_decode` on the batch slots, with its return code -/
  | decode (batch : List BatchEntry) (ret : Int)
  /-- `llama_get_embeddings_seq(ctx, seq_id)` with the vector returned, if any -/
  | get_embeddings_seq (seq_id : Int) (embd : Option Embedding)
  /-- `llama_get_embeddings_ith(ctx, i)` with the vector returned, if any -/
  | get_embeddings_ith (i : Int) (embd : Option Embedding)
  /-- `llama_batch_free` -/
  | batch_free
  deriving DecidableEq

/-- The environment of one run of the rerank worker; the stateful engine calls are
oracles of the trace so far. -/
structure RerankEngine where
  vocab : llama_vocab
  /-- `llama_model_chat_template(model, "rerank")`, `none` for a null pointer -/
  chat_template : Option CppString
  /-- `llama_model_has_encoder` -/
  has_encoder : Bool
  /-- the return code of `llama_encode(ctx, batch)` -/
  encode : List RerankEvent → List BatchEntry → Int
  /-- the return code of `llama_decode(ctx, batch)` -/
  decode : List RerankEvent → List BatchEntry → Int
  /-- `llama_get_embeddings_seq(ctx, seq_id)` -/
  embeddings_seq : List RerankEvent → Int → Option Embedding
  /-- `llama_get_embeddings_ith(ctx, i)` -/
  embeddings_ith : List RerankEvent → Int → Option Embedding

/-- Lines 35-72 of `rerank_worker`: the tokens of one (query, document) pair; `none`
when the fuel given to `string_replace_all` does not suffice. -/
def rerank_tokens (E : RerankEngine) (query document : CppString) (fuel : Nat) :
    Option (List llama_token) :=
  match E.chat_template with
  | some tmpl =>
      match string_replace_all fuel tmpl placeholder_query query with
      | none => none
      | some prompt =>
          match string_replace_all fuel prompt placeholder_document document with
          | none => none
          | some prompt =>
              some (tokenize_vector (llama_tokenize E.vocab prompt) prompt.length)
  | none =>
      -- Manual format fallback
      let q_toks := tokenize_vector (llama_tokenize_plain E.vocab query) query.length
      let d_toks :=
        tokenize_vector (llama_tokenize_plain E.vocab document) document.length
      let tokens : List llama_token := []
      let tokens := if E.vocab.add_bos then tokens ++ [E.vocab.bos] else tokens
      let tokens := tokens ++ q_toks
      let sep := E.vocab.sep
      let eos := E.vocab.eos
      let sep := if sep = LLAMA_TOKEN_NULL then eos else sep
      let tokens := if sep ≠ LLAMA_TOKEN_NULL then tokens ++ [sep] else tokens
      let tokens := tokens ++ d_toks
      let tokens :=
        if E.vocab.add_eos ∧ eos ≠ LLAMA_TOKEN_NULL then tokens ++ [eos] else tokens
      some tokens

/-- Lines 78-80 of `rerank_worker`: add the tokens from index `t` on, token `t` at
position `t`, with output requested exactly when `t == tokens.size() - 1`. -/
def rerank_add (tokens_size : Nat) (batch : llama_batch) :
    List llama_token → Nat → Option llama_batch
  | [], _ => some batch
  | tok :: rest, t =>
      match batch_add batch tok t [0] (decide (t = tokens_size - 1)) with
      | none => none
      | some batch => rerank_add tokens_size batch rest (t + 1)

/-- The variables of `rerank_worker` that change from document to document, and the
trace so far. -/
structure RerankState where
  batch : llama_batch
  scores : List F32
  trace : List RerankEvent
  deriving DecidableEq

/-- The outcome of the loop body of `rerank_worker` for one document. -/
inductive RerankStep where
  /-- the end of the body is reached -/
  | next (st : RerankState)
  /-- the `return` after a failed pass -/
  | failed (st : RerankState)
  /-- a write outside the batch arrays -/
  | out_of_bounds
  /-- the fuel given to `string_replace_all` did not suffice -/
  | out_of_fuel
  deriving DecidableEq

/-- The score `rerank_worker` stores when the engine hands out no embedding. -/
def score_missing : F32 := .finite (-999)

/-- Lines 35-114 of `rerank_worker`: the body of the loop for document `i`. -/
def rerank_document (E : RerankEngine) (query : CppString) (documents : List CppString)
    (fuel : Nat) (i : Nat) (st : RerankState) : RerankStep :=
  match rerank_tokens E query (documents.getD i []) fuel with
  | none => .out_of_fuel
  | some tokens =>
      match rerank_add tokens.length (batch_clear st.batch) tokens 0 with
      | none => .out_of_bounds
      | some batch =>
          let ret :=
            if E.has_encoder then E.encode st.trace batch.entries
            else E.decode st.trace batch.entries
          let trace :=
            st.trace ++
              [if E.has_encoder then .encode batch.entries ret
               else .decode batch.entries ret]
          if ret < 0 then
            .failed { batch := batch, scores := st.scores, trace := trace ++ [.batch_free] }
          else
            let embd := E.embeddings_seq trace 0
            let trace := trace ++ [.get_embeddings_seq 0 embd]
            let r : Option Embedding × List RerankEvent :=
              match embd with
              | some e => (some e, trace)
              | none =>
                  let e := E.embeddings_ith trace (batch.n_tokens - 1)
                  (e, trace ++ [.get_embeddings_ith (batch.n_tokens - 1) e])
            let score :=
              match r.1 with
              | none => score_missing
              | some e => e.first
            .next { batch := batch, scores := st.scores.set i score, trace := r.2 }

/-- The `for (int i = 0; i < n_docs; ++i)` loop of `rerank_worker`, with `k`
documents left from index `i` on. -/
def rerank_loop (E : RerankEngine) (query : CppString) (documents : List CppString)
    (fuel : Nat) : Nat → Nat → RerankState → RerankStep
  | 0, _, st => .next st
  | k + 1, i, st =>
      match rerank_document E query documents fuel i st with
      | .next st' => rerank_loop E query documents fuel k (i + 1) st'
      | other => other

/-- What `rerank_worker` leaves in `RerankParams`, and its trace. -/
structure RerankResult where
  success : Bool
  scores : List F32
  trace : List RerankEvent
  deriving DecidableEq

/-- The function `rerank_worker`. -/
def rerank_worker (E : RerankEngine) (query : CppString) (documents : List CppString)
    (fuel : Nat) : Run RerankResult :=
  let n_docs := documents.length
  -- params->scores.resize(n_docs)
  let scores : List F32 := List.replicate n_docs (.finite 0)
  let batch := llama_batch_init 4096 1
  match rerank_loop E query documents fuel n_docs 0
      { batch := batch, scores := scores, trace := [.batch_init 4096 1] } with
  | .next st =>
      .done { success := true, scores := st.scores, trace := st.trace ++ [.batch_free] }
  | .failed st => .done { success := false, scores := st.scores, trace := st.trace }
  | .out_of_bounds => .out_of_bounds
  | .out_of_fuel => .out_of_fuel

/-- The entry point `Java_com_cortex_app_LlamaEngine_rerank`, on the C strings of
the query and the documents: the array returned, `none` for a null array. -/
def Java_com_cortex_app_LlamaEngine_rerank (contextPtr : Int) (E : RerankEngine) (host : Host) (query : CppString)
    (documents : List CppString) (fuel : Nat) : Run (Option (List F32)) :=
  if contextPtr = 0 then .done none
  else
    let n_docs := documents.length
    if !host.thread_create_ok then .done none
    else
      match rerank_worker E query documents fuel with
      | .done r =>
          if !r.success then .done none
          else .done (some (r.scores.take n_docs))
      | .out_of_bounds => .out_of_bounds
      | .out_of_fuel => .out_of_fuel

/-- A rerank engine to evaluate the definitions on: the demo vocabulary, no rerank
template, no encoder, every pass returns 0, and the pooled embedding of sequence 0
has as first component the number of decode passes made so far. -/
def rerank_engine_demo : RerankEngine where
  vocab := vocab_demo
  chat_template := none
  has_encoder := false
  encode := fun _ _ => 0
  decode := fun _ _ => 0
  embeddings_seq := fun trace _ =>
    some ⟨.finite (trace.filter (fun e => match e with | .decode _ _ => true | _ => false)).length,
      []⟩
  embeddings_ith := fun _ _ => none

/-- The demo rerank engine when the engine hands out no embedding at all. -/
def rerank_engine_no_embeddings : RerankEngine :=
  { rerank_engine_demo with embeddings_seq := fun _ _ => none }

/-- The demo rerank engine when every decode returns 1 (no memory slot found for the
batch). -/
def rerank_engine_decode_warns : RerankEngine :=
  { rerank_engine_demo with decode := fun _ _ => 1 }

/-- The batch built from the tokens of one document alone: token `t` at position
`t` on sequence 0, with output requested at the last position only. -/
def document_batch (tokens : List llama_token) : List BatchEntry :=
  tokens.enum.map (fun p => ⟨p.2, (p.1 : Int), [0], decide (p.1 = tokens.length - 1)⟩)

/-- The return code of the engine pass over a batch: the encoder when the model has
one, the decoder otherwise. -/
def rerank_pass (E : RerankEngine) (trace : List RerankEvent) (batch : List BatchEntry) :
    Int :=
  if E.has_encoder then E.encode trace batch else E.decode trace batch

/-- The event of the engine pass over a batch. -/
def rerank_pass_event (E : RerankEngine) (batch : List BatchEntry) (ret : Int) :
    RerankEvent :=
  if E.has_encoder then .encode batch ret else .decode batch ret

/-- The score read after the pass over a batch of `n_tokens` tokens, with the trace
of the reads: the first component of the pooled embedding of sequence 0; when the
engine has none, the first component of the embedding at the last index of the
batch; when the engine has none either, the value `-999`. -/
def read_score (E : RerankEngine) (trace : List RerankEvent) (n_tokens : Nat) :
    F32 × List RerankEvent :=
  let embd_seq := E.embeddings_seq trace 0
  let trace := trace ++ [.get_embeddings_seq 0 embd_seq]
  match embd_seq with
  | some e => (e.first, trace)
  | none =>
      let embd_ith := E.embeddings_ith trace ((n_tokens : Int) - 1)
      (match embd_ith with
        | some e => e.first
        | none => score_missing,
       trace ++ [.get_embeddings_ith ((n_tokens : Int) - 1) embd_ith])

/-- The scoring of a list of documents as the specification words it: the documents
are taken one after the other in input order; each is scored from the batch built
from that document alone, by a pass that returns 0 followed by the read of the
score; the scores are listed in input order. `none` when a pass does not return 0
(or the fuel of the template substitution does not suffice). -/
def score_documents (E : RerankEngine) (query : CppString) (fuel : Nat) :
    List RerankEvent → List CppString → Option (List F32 × List RerankEvent)
  | trace, [] => some ([], trace)
  | trace, document :: rest =>
      match rerank_tokens E query document fuel with
      | none => none
      | some tokens =>
          let batch := document_batch tokens
          if rerank_pass E trace batch ≠ 0 then none
          else
            let read := read_score E (trace ++ [rerank_pass_event E batch 0]) tokens.length
            match score_documents E query fuel read.2 rest with
            | none => none
            | some (scores, trace') => some (read.1 :: scores, trace')

/-- Whether every engine pass recorded in a trace returned 0. -/
def all_passes_zero (trace : List RerankEvent) : Bool :=
  trace.all (fun e =>
    match e with
    | .decode _ ret => decide (ret = 0)
    | .encode _ ret => decide (ret = 0)
    | _ => true)

/-- The run of the rerank worker on the demo data: the query "q" and the documents
"a", "b", "c". -/
def result_rerank_demo : RerankResult where
  success := true
  scores := [.finite 1, .finite 2, .finite 3]
  trace :=
    [.batch_init 4096 1,
     .decode (document_batch [1, 113, 0, 97, 0]) 0,
     .get_embeddings_seq 0 (some ⟨.finite 1, []⟩),
     .decode (document_batch [1, 113, 0, 98, 0]) 0,
     .get_embeddings_seq 0 (some ⟨.finite 2, []⟩),
     .decode (document_batch [1, 113, 0, 99, 0]) 0,
     .get_embeddings_seq 0 (some ⟨.finite 3, []⟩),
     .batch_free]

/-- The run of the rerank worker on one document when every decode returns 1. -/
def result_rerank_decode_warns : RerankResult where
  success := true
  scores := [.finite 1]
  trace :=
    [.batch_init 4096 1,
     .decode (document_batch [1, 113, 0, 97, 0]) 1,
     .get_embeddings_seq 0 (some ⟨.finite 1, []⟩),
     .batch_free]

/-- The demo rerank engine when every decode returns -1 (invalid batch). -/
def rerank_engine_decode_fails : RerankEngine :=
  { rerank_engine_demo with decode := fun _ _ => -1 }

/-! ## The prefill batch, as the specification words it -/

/-- The prefill batch in the words of the specification: entry `i` holds token `i`
at position `i` on the single sequence id 0, and the logits flag is set at the last
index and at no other. -/
def prefill_entries (tokens : List llama_token) : List BatchEntry :=
  tokens.enum.map (fun p => ⟨p.2, (p.1 : Int), [0], decide (p.1 + 1 = tokens.length)⟩)

/-- The batch of `generate_worker` after lines 76-83, when every write stayed inside
the arrays. -/
def prefill_batch (tokens : List llama_token) : llama_batch :=
  { n_tokens_alloc := 4096, n_seq_max := 1, entries := prefill_entries tokens }

/-! ## The batches of the tokens fed back, as the specification words them -/

/-- The batches of the tokens fed back after a prompt of `n` tokens, as the worker
submits them: the position of the k-th is the value the `int` variable `n_cur` holds
after k increments from `n`. -/
def fed_batches (n : Nat) (fed : List llama_token) : List (List BatchEntry) :=
  fed.enum.map (fun p => [⟨p.2, int32_wrap ((n : Int) + (p.1 : Int)), [0], true⟩])

/-- The batches submitted to `llama_decode`, in order. -/
def decode_batches (trace : List Event) : List (List BatchEntry) :=
  (decode_calls trace).map Prod.fst

/-- The positions submitted to `llama_decode`, in order of submission. -/
def submitted_positions (trace : List Event) : List Int :=
  (decode_batches trace).flatten.map BatchEntry.pos

/-- What holds of the loop-local state after a prompt `tokens`, with `fed` the tokens
fed back so far: the batches submitted are the prefill batch and one batch per token
fed back, `n_cur` holds the prompt length plus the number of tokens fed back as an
`int` does, and `n_decode` is the number of tokens fed back. -/
structure FedInv (tokens fed : List llama_token) (st : GenerationState) : Prop where
  batches : decode_batches st.trace = prefill_entries tokens :: fed_batches tokens.length fed
  n_cur : st.n_cur = int32_wrap ((tokens.length : Int) + (fed.length : Int))
  count : st.n_decode = (fed.length : Int)
  one_slot : fed ≠ [] → st.batch.entries.length = 1

/-- The demo vocabulary with a piece conversion that reports -300 for every token:
the piece needs 300 bytes and does not fit the 256-byte buffer. -/
def vocab_long_piece : llama_vocab := { vocab_demo with token_to_piece := fun _ => (-300, []) }

/-- The demo engine over `vocab_long_piece`. -/
def engine_long_piece : Engine := { engine_demo with vocab := vocab_long_piece }

/-- The demo configuration with the empty string as its only stop sequence. -/
def params_stop_empty : GenerateParams := { params_plain with stopSequences := [[]] }

/-! ## The manual framing of a rerank pair, as the specification words it -/

/-- The separator of the manual framing in the words of the specification: SEP when
SEP is not null, otherwise EOS, and nothing when both are null. -/
def manual_separator (vocab : llama_vocab) : List llama_token :=
  if vocab.sep ≠ LLAMA_TOKEN_NULL then [vocab.sep]
  else if vocab.eos ≠ LLAMA_TOKEN_NULL then [vocab.eos]
  else []

/-- The manual framing `[BOS] Q [SEP] D [EOS]` in the words of the specification. -/
def manual_framing (vocab : llama_vocab) (Q D : List llama_token) : List llama_token :=
  (if vocab.add_bos then [vocab.bos] else [])
    ++ Q ++ manual_separator vocab ++ D
    ++ (if vocab.add_eos ∧ vocab.eos ≠ LLAMA_TOKEN_NULL then [vocab.eos] else [])

/-! ## Demo data: the XTC stage -/

/-- The demo configuration with the XTC stage enabled and the main seed `seed`. -/
def params_xtc (seed : Int) : GenerateParams :=
  { params_plain with xtcProbability := .finite 1, seed := seed }

/-! ## Demo data: infill with other values in the unassigned fields -/

/-- The run of infill on the demo data, texts "a" and "b", when the unassigned
fields hold the values of `params_negative_budget`: after the prefill the loop
condition fails at once. -/
def result_infill_negative : WorkerResult where
  status := .stopped_budget
  accumulatedOutput := []
  trace :=
    preamble engine_demo (infill_params vocab_demo params_negative_budget [97] [98])
      ++ [.decode [⟨1, 0, [0], false⟩, ⟨7, 1, [0], false⟩, ⟨97, 2, [0], false⟩,
            ⟨8, 3, [0], false⟩, ⟨98, 4, [0], false⟩, ⟨9, 5, [0], true⟩] 0]
      ++ cleanup

/-! ## Sampling from a logits array (`jni_logits.cpp`) -/

/-- The `float` nearest to an exact value, as IEEE 754 binary32 arithmetic rounds a
result: to the nearest value with a 24-bit significand (spacing `2^(e - 23)` in the
binade `[2^e, 2^(e + 1))`, and `2^-149` below `2^-126`), a tie going to the even
significand; a rounded magnitude of `2^128` or more is an infinity. -/
def F32.round (q : ℚ) : F32 :=
  if q = 0 then .finite 0
  else
    let a := |q|
    let e := max (Int.log 2 a) (-126)
    let ulp : ℚ := (2 : ℚ) ^ (e - 23)
    let m := a / ulp
    let f := ⌊m⌋
    let n : Int :=
      if m - f < 1 / 2 then f
      else if 1 / 2 < m - f then f + 1
      else if f % 2 = 0 then f else f + 1
    let v : ℚ := n * ulp
    if (2 : ℚ) ^ (128 : Int) ≤ v then (if 0 < q then .pos_inf else .neg_inf)
    else .finite (if 0 < q then v else -v)

/-- C++ `a / b` on floats: the exact quotient of two finite values rounded to the
nearest `float`. The model has no signed zero: a division by zero gives the infinity
of the sign of the numerator. -/
def F32.div (a b : F32) : F32 :=
  match a, b with
  | .nan, _ => .nan
  | _, .nan => .nan
  | .finite x, .finite y =>
      if y = 0 then (if x = 0 then .nan else if 0 < x then .pos_inf else .neg_inf)
      else F32.round (x / y)
  | .finite _, .pos_inf => .finite 0
  | .finite _, .neg_inf => .finite 0
  | .pos_inf, .finite y => if 0 ≤ y then .pos_inf else .neg_inf
  | .neg_inf, .finite y => if 0 ≤ y then .neg_inf else .pos_inf
  | .pos_inf, .pos_inf => .nan
  | .pos_inf, .neg_inf => .nan
  | .neg_inf, .pos_inf => .nan
  | .neg_inf, .neg_inf => .nan

/-- One element of the candidates vector: the fields `id` and `logit` of
`llama_token_data` (the field `p` is written 0 and never read). -/
structure llama_token_data where
  id : llama_token
  logit : F32
  deriving DecidableEq

/-- The argmax loop of `nativeSampleTokenFromLogits` (lines 252-257) over the
candidates from index 1 on, with the current values of `token` and `max_logit`. -/
def argmax_loop : List llama_token_data → llama_token → F32 → llama_token
  | [], token, _ => token
  | c :: rest, token, max_logit =>
      if F32.gt c.logit max_logit then argmax_loop rest c.id c.logit
      else argmax_loop rest token max_logit

/-- The entry point `Java_com_cortex_app_LlamaEngine_nativeSampleTokenFromLogits`;
`logits` is `none` for a null array. With a vocabulary of 0 tokens and an empty
array the read of `candidates[0]` is outside the vector. -/
def Java_com_cortex_app_LlamaEngine_nativeSampleTokenFromLogits (contextPtr : Int) (vocab : llama_vocab)
    (logits : Option (List F32)) (temperature : F32) : Run Int :=
  match logits with
  | none => .done (-1)
  | some logits =>
      if contextPtr = 0 then .done (-1)
      else
        let n_vocab := vocab.n_tokens
        let n_logits : Int := logits.length
        if n_logits ≠ n_vocab then .done (-1)
        else
          let candidates : List llama_token_data :=
            logits.enum.map (fun p => ⟨(p.1 : Int), p.2⟩)
          -- Apply temperature by scaling logits
          let candidates :=
            if F32.ne temperature F32.one && F32.gt temperature F32.zero then
              candidates.map (fun c => { c with logit := F32.div c.logit temperature })
            else candidates
          -- Find the token with highest logit as a simple argmax
          match candidates with
          | [] => .out_of_bounds
          | c0 :: rest => .done (argmax_loop rest 0 c0.logit)

/-- The demo vocabulary with four tokens. -/
def vocab_four : llama_vocab := { vocab_demo with n_tokens := 4 }

/-! ## String replacement, as the specification words it -/

/-- The result of replacing, left to right, each non-overlapping occurrence of
`search` in a string by `replace`, in the words of the specification: a scan of the
original string in which `skip` counts the bytes still to pass over of the occurrence
just replaced. For a non-empty `search`. -/
def replace_occurrences (search replace : CppString) : Nat → CppString → CppString
  | _, [] => []
  | skip + 1, _ :: t => replace_occurrences search replace skip t
  | 0, c :: t =>
      if search.isPrefixOf (c :: t) then
        replace ++ replace_occurrences search replace (search.length - 1) t
      else c :: replace_occurrences search replace 0 t

/-- Lines 36-38 of `rerank_worker`: the prompt built from the template; `none` when
the fuel given to `string_replace_all` does not suffice. -/
def rerank_prompt (fuel : Nat) (tmpl query document : CppString) : Option CppString :=
  match string_replace_all fuel tmpl placeholder_query query with
  | none => none
  | some prompt => string_replace_all fuel prompt placeholder_document document

/-- The simultaneous substitution of the two placeholders in a template, in the words
of the specification: one scan of the template, left to right, in which an occurrence
of "\x7bquery\x7d" gives the query and an occurrence of "\x7bdocument\x7d" gives the
document; the text put in is not scanned. -/
def substitute_both (query document : CppString) : Nat → CppString → CppString
  | _, [] => []
  | skip + 1, _ :: t => substitute_both query document skip t
  | 0, c :: t =>
      if placeholder_query.isPrefixOf (c :: t) then
        query ++ substitute_both query document (placeholder_query.length - 1) t
      else if placeholder_document.isPrefixOf (c :: t) then
        document ++ substitute_both query document (placeholder_document.length - 1) t
      else c :: substitute_both query document 0 t

/-- A template that joins the text before a query to its placeholder so that the
query completes the other placeholder: "\x7bdocu\x7bquery\x7d". -/
def template_straddle : CppString := [123, 100, 111, 99, 117] ++ placeholder_query

/-- The query "ment\x7d". -/
def query_straddle : CppString := [109, 101, 110, 116, 125]

/-- One piece of a rerank template read as a sequence of pieces: a stretch of text,
or one of the two placeholders. -/
inductive TemplatePiece where
  | text (bytes : CppString)
  | query
  | document
  deriving DecidableEq

/-- The bytes of a piece in the template. -/
def TemplatePiece.render : TemplatePiece → CppString
  | .text bytes => bytes
  | .query => placeholder_query
  | .document => placeholder_document

/-- The template made of a sequence of pieces. -/
def render_template (pieces : List TemplatePiece) : CppString :=
  (pieces.map TemplatePiece.render).flatten

/-- The bytes of a piece with the placeholders filled in. -/
def TemplatePiece.fill (query document : CppString) : TemplatePiece → CppString
  | .text bytes => bytes
  | .query => query
  | .document => document

/-- The template with both placeholders filled in, piece by piece. -/
def fill_template (query document : CppString) (pieces : List TemplatePiece) : CppString :=
  (pieces.map (TemplatePiece.fill query document)).flatten

/-- The text pieces hold no opening brace (byte 123): every opening brace of the
template starts a placeholder. -/
def braces_start_placeholders (pieces : List TemplatePiece) : Prop :=
  ∀ bytes, TemplatePiece.text bytes ∈ pieces → (123 : Byte) ∉ bytes

/-- The demo rerank engine with the template `template_straddle`. -/
def rerank_engine_straddle : RerankEngine :=
  { rerank_engine_demo with chat_template := some template_straddle }

/-- The demo configuration with no prompt tokens and an empty prompt text. -/
def params_empty : GenerateParams := { params_plain with prompt_tokens := [] }

/-- The demo configuration with 4097 prompt tokens. -/
def params_too_long : GenerateParams :=
  { params_plain with prompt_tokens := List.replicate 4097 5 }

/-- The four logits 0, 7, the next `float` above 7 and 0. -/
def logits_close : List F32 :=
  [.finite 0, .finite 7, .finite (14680065 / 2097152), .finite 0]

/-- The `float` nearest to 0.8. -/
def temperature_08 : F32 := .finite (13421773 / 16777216)

/-! ## Theorems: sampler chain -/

theorem chain_add_if {α : Type} (c : Bool) (l : List α) (a : α) :
    (if c = true then l ++ [a] else l) = l ++ optStage c a := by
  cases c <;> simp [optStage]

theorem filter_cons_optStage {α : Type} (p : α → Bool) (a : α) (l : List α) :
    (a :: l).filter p = optStage (p a) a ++ l.filter p := by
  cases h : p a <;> simp [optStage, List.filter, h]

theorem mem_optStage {α : Type} (c : Bool) (a b : α) :
    b ∈ optStage c a ↔ c = true ∧ b = a := by
  cases c <;> simp [optStage]

/-- The chain `build_sampler_chain` returns, as the concatenation of its eleven
stage slots. -/
theorem build_sampler_chain_eq (params : GenerateParams) (vocab : llama_vocab) :
    build_sampler_chain params vocab =
      optStage (!params.grammar.isEmpty && vocab.grammar_compiles (c_str params.grammar))
          (.init_grammar (c_str params.grammar) "root")
        ++ optStage (F32.gt params.dryMultiplier F32.zero)
          (.init_dry 0 params.dryMultiplier params.dryBase params.dryAllowedLength
            params.repeatLastN 0)
        ++ optStage (F32.ne params.repeatPenalty F32.one
              || F32.ne params.frequencyPenalty F32.zero
              || F32.ne params.presencePenalty F32.zero)
          (.init_penalties params.repeatLastN params.repeatPenalty
            params.frequencyPenalty params.presencePenalty)
        ++ [.init_top_k params.topK, .init_top_p params.topP 1,
            .init_min_p params.minP 1]
        ++ optStage (F32.lt params.typicalP F32.one) (.init_typical params.typicalP 1)
        ++ optStage (F32.gt params.xtcProbability F32.zero)
          (.init_xtc params.xtcProbability params.xtcThreshold 1 1)
        ++ optStage (decide (params.mirostatMode = 1))
          (.init_mirostat vocab.n_tokens params.seed params.mirostatTau
            params.mirostatEta 100)
        ++ optStage (decide (params.mirostatMode = 2))
          (.init_mirostat_v2 params.seed params.mirostatTau params.mirostatEta)
        ++ optStage (decide (params.mirostatMode = 0)) (.init_temp params.temperature)
        ++ [.init_dist params.seed] := by
  have hmiro : ∀ (l : List llama_sampler) (a b : llama_sampler),
      (if params.mirostatMode = 1 then l ++ [a]
        else if params.mirostatMode = 2 then l ++ [b] else l) =
      l ++ optStage (decide (params.mirostatMode = 1)) a
        ++ optStage (decide (params.mirostatMode = 2)) b := by
    intro l a b
    by_cases h1 : params.mirostatMode = 1
    · have h2 : params.mirostatMode ≠ 2 := by omega
      simp [optStage, h1]
    · by_cases h2 : params.mirostatMode = 2 <;> simp [optStage, h1, h2]
  have htemp : ∀ (l : List llama_sampler) (a : llama_sampler),
      (if params.mirostatMode = 0 then l ++ [a] else l) =
      l ++ optStage (decide (params.mirostatMode = 0)) a := by
    intro l a
    by_cases h0 : params.mirostatMode = 0 <;> simp [optStage, h0]
  unfold build_sampler_chain llama_sampler_chain_add
  simp only [hmiro, htemp, chain_add_if]
  simp only [List.append_assoc, List.singleton_append, List.cons_append, List.nil_append]
  congr 1
  cases params.grammar.isEmpty <;> cases vocab.grammar_compiles (c_str params.grammar) <;>
    simp [optStage]

/-- The kinds of the built chain are the fixed stage order with the stages whose
condition fails struck out. -/
theorem chain_kinds_eq_filter (params : GenerateParams) (vocab : llama_vocab) :
    chain_kinds params vocab = stage_order.filter (stage_enabled params vocab) := by
  have hm : optStage (decide (params.mirostatMode = 1)) StageKind.Mirostat
        ++ optStage (decide (params.mirostatMode = 2)) StageKind.Mirostat
      = optStage (decide (params.mirostatMode = 1) || decide (params.mirostatMode = 2))
          StageKind.Mirostat := by
    by_cases h1 : params.mirostatMode = 1
    · have h2 : params.mirostatMode ≠ 2 := by omega
      simp [optStage, h1]
    · by_cases h2 : params.mirostatMode = 2 <;> simp [optStage, h1, h2]
  have hmap : ∀ (c : Bool) (s : llama_sampler),
      (optStage c s).map llama_sampler.kind = optStage c s.kind := by
    intro c s
    cases c <;> simp [optStage]
  unfold chain_kinds stage_order
  rw [build_sampler_chain_eq]
  simp only [filter_cons_optStage, List.filter_nil, stage_enabled, List.map_append, hmap,
    List.map_cons, List.map_nil, llama_sampler.kind, List.append_nil]
  simp only [optStage, if_true, List.append_assoc, List.singleton_append, List.cons_append,
    List.nil_append]
  rw [← List.append_assoc (if decide (params.mirostatMode = 1) = true then _ else _)]
  simp only [optStage] at hm
  rw [hm]

theorem mem_chain_kinds (params : GenerateParams) (vocab : llama_vocab) (k : StageKind) :
    k ∈ chain_kinds params vocab ↔ stage_enabled params vocab k = true := by
  rw [chain_kinds_eq_filter, List.mem_filter]
  constructor
  · exact fun h => h.2
  · intro h
    refine ⟨?_, h⟩
    cases k <;> simp [stage_order]

/-- C1: TopK, TopP, MinP and the final Distribution stage are in every chain; DRY,
Penalties, TypicalP and XTC are in the chain exactly when their condition holds
(so a disabled stage has no sampler object of its kind in the chain at all). -/
theorem C1_stage_inclusion (params : GenerateParams) (vocab : llama_vocab) :
    (StageKind.TopK ∈ chain_kinds params vocab
      ∧ StageKind.TopP ∈ chain_kinds params vocab
      ∧ StageKind.MinP ∈ chain_kinds params vocab
      ∧ StageKind.Distribution ∈ chain_kinds params vocab)
    ∧ (StageKind.DRY ∈ chain_kinds params vocab
        ↔ F32.gt params.dryMultiplier F32.zero = true)
    ∧ (StageKind.Penalties ∈ chain_kinds params vocab
        ↔ (F32.ne params.repeatPenalty F32.one = true
            ∨ F32.ne params.frequencyPenalty F32.zero = true
            ∨ F32.ne params.presencePenalty F32.zero = true))
    ∧ (StageKind.TypicalP ∈ chain_kinds params vocab
        ↔ F32.lt params.typicalP F32.one = true)
    ∧ (StageKind.XTC ∈ chain_kinds params vocab
        ↔ F32.gt params.xtcProbability F32.zero = true) := by
  refine ⟨⟨?_, ?_, ?_, ?_⟩, ?_, ?_, ?_, ?_⟩
  all_goals rw [mem_chain_kinds]
  all_goals simp [stage_enabled, or_assoc]

/-- C2: the kinds of the built chain form a subsequence of the fixed stage order,
no kind occurs twice, and the last stage is Distribution; for every configuration,
grammar text and grammar-compilation outcome. -/
theorem C2_stage_order (params : GenerateParams) (vocab : llama_vocab) :
    List.Sublist (chain_kinds params vocab) stage_order
    ∧ (chain_kinds params vocab).Nodup
    ∧ (chain_kinds params vocab).getLast? = some StageKind.Distribution := by
  refine ⟨?_, ?_, ?_⟩
  · rw [chain_kinds_eq_filter]
    exact List.filter_sublist _
  · rw [chain_kinds_eq_filter]
    exact List.Nodup.filter _ (by decide)
  · unfold chain_kinds
    rw [build_sampler_chain_eq, List.map_append, List.getLast?_append]
    simp [llama_sampler.kind]

/-- C9, as the claim states it, fails for `mirostatMode = 3`: no Mirostat mode is
active (the mode is neither 1 nor 2 and the chain has no Mirostat stage), yet the
chain has no Temperature stage. -/
theorem C9_counterexample :
    (params_mirostat3.mirostatMode ≠ 1 ∧ params_mirostat3.mirostatMode ≠ 2)
    ∧ StageKind.Mirostat ∉ chain_kinds params_mirostat3 vocab_demo
    ∧ StageKind.Temperature ∉ chain_kinds params_mirostat3 vocab_demo := by
  simp [mem_chain_kinds, stage_enabled, params_mirostat3, params_plain]

/-- C9 (amended): the Temperature stage is in the chain exactly when
`mirostatMode = 0`; it is never in a chain that has a Mirostat stage; and the chain
has neither of the two exactly when the mode is none of 0, 1, 2. -/
theorem C9_temperature_iff_mode_zero (params : GenerateParams) (vocab : llama_vocab) :
    (StageKind.Temperature ∈ chain_kinds params vocab ↔ params.mirostatMode = 0)
    ∧ (StageKind.Temperature ∈ chain_kinds params vocab
        ∧ StageKind.Mirostat ∈ chain_kinds params vocab ↔ False)
    ∧ (StageKind.Temperature ∉ chain_kinds params vocab
        ∧ StageKind.Mirostat ∉ chain_kinds params vocab
        ↔ params.mirostatMode ≠ 0 ∧ params.mirostatMode ≠ 1
            ∧ params.mirostatMode ≠ 2) := by
  refine ⟨?_, ?_, ?_⟩
  · rw [mem_chain_kinds]
    simp [stage_enabled]
  · simp only [mem_chain_kinds, stage_enabled, Bool.or_eq_true, decide_eq_true_eq]
    constructor
    · intro h
      omega
    · exact False.elim
  · simp only [mem_chain_kinds, stage_enabled, Bool.or_eq_true, decide_eq_true_eq]
    constructor
    · intro h
      refine ⟨?_, ?_, ?_⟩ <;> omega
    · intro h
      constructor <;> omega

/-- C10: the chain has a Mirostat v1 sampler iff `mirostatMode = 1` and a Mirostat
v2 sampler iff `mirostatMode = 2`; it never has both versions; and it never has a
Mirostat stage together with the Temperature stage. -/
theorem C10_mirostat_versions (params : GenerateParams) (vocab : llama_vocab) :
    ((∃ s ∈ build_sampler_chain params vocab, s.isMirostatV1 = true)
        ↔ params.mirostatMode = 1)
    ∧ ((∃ s ∈ build_sampler_chain params vocab, s.isMirostatV2 = true)
        ↔ params.mirostatMode = 2)
    ∧ ¬ ((∃ s ∈ build_sampler_chain params vocab, s.isMirostatV1 = true)
        ∧ (∃ s ∈ build_sampler_chain params vocab, s.isMirostatV2 = true))
    ∧ ¬ (StageKind.Mirostat ∈ chain_kinds params vocab
        ∧ StageKind.Temperature ∈ chain_kinds params vocab) := by
  have h1 : (∃ s ∈ build_sampler_chain params vocab, s.isMirostatV1 = true)
      ↔ params.mirostatMode = 1 := by
    rw [build_sampler_chain_eq]
    simp only [List.mem_append, mem_optStage, List.mem_cons, List.mem_singleton,
      List.not_mem_nil, or_false]
    constructor
    · rintro ⟨s, hs, hv⟩
      rcases hs with ((((((((⟨_, rfl⟩ | ⟨_, rfl⟩) | ⟨_, rfl⟩) | (rfl | rfl | rfl))
        | ⟨_, rfl⟩) | ⟨_, rfl⟩) | ⟨h, rfl⟩) | ⟨_, rfl⟩) | ⟨_, rfl⟩) | rfl
      all_goals first
        | exact of_decide_eq_true h
        | exact absurd hv (by simp [llama_sampler.isMirostatV1])
    · intro h
      exact ⟨_, Or.inl (Or.inl (Or.inl (Or.inr ⟨decide_eq_true h, rfl⟩))), rfl⟩
  have h2 : (∃ s ∈ build_sampler_chain params vocab, s.isMirostatV2 = true)
      ↔ params.mirostatMode = 2 := by
    rw [build_sampler_chain_eq]
    simp only [List.mem_append, mem_optStage, List.mem_cons, List.mem_singleton,
      List.not_mem_nil, or_false]
    constructor
    · rintro ⟨s, hs, hv⟩
      rcases hs with ((((((((⟨_, rfl⟩ | ⟨_, rfl⟩) | ⟨_, rfl⟩) | (rfl | rfl | rfl))
        | ⟨_, rfl⟩) | ⟨_, rfl⟩) | ⟨_, rfl⟩) | ⟨h, rfl⟩) | ⟨_, rfl⟩) | rfl
      all_goals first
        | exact of_decide_eq_true h
        | exact absurd hv (by simp [llama_sampler.isMirostatV2])
    · intro h
      exact ⟨_, Or.inl (Or.inl (Or.inr ⟨decide_eq_true h, rfl⟩)), rfl⟩
  refine ⟨h1, h2, ?_, ?_⟩
  · rw [h1, h2]
    omega
  · simp only [mem_chain_kinds, stage_enabled, Bool.or_eq_true, decide_eq_true_eq]
    omega

/-! ## Theorems: stop check -/

theorem compare_bytes_eq_zero (a b : CppString) : compare_bytes a b = 0 ↔ a = b := by
  induction a generalizing b with
  | nil => cases b <;> simp [compare_bytes]
  | cons x xs ih =>
    cases b with
    | nil => simp [compare_bytes]
    | cons y ys =>
      simp only [compare_bytes, List.cons.injEq]
      by_cases hxy : x < y
      · simp only [hxy, if_true]
        constructor
        · intro h
          omega
        · rintro ⟨h, _⟩
          exact absurd hxy (by simp [h])
      · by_cases hyx : y < x
        · simp only [hxy, hyx, if_true, if_false]
          constructor
          · intro h
            omega
          · rintro ⟨h, _⟩
            exact absurd hyx (by simp [h])
        · have hEq : x = y := le_antisymm (not_lt.mp hyx) (not_lt.mp hxy)
          rw [if_neg hxy, if_neg hyx, ih]
          exact ⟨fun h => ⟨hEq, h⟩, fun h => h.2⟩

/-- The comparison the stop check performs is zero exactly when the last
`|stopSeq|` bytes of the output are `stopSeq`. -/
theorem string_compare_tail (O stopSeq : CppString) (h : stopSeq.length ≤ O.length) :
    string_compare O (O.length - stopSeq.length) stopSeq.length stopSeq = 0
      ↔ O.drop (O.length - stopSeq.length) = stopSeq := by
  unfold string_compare
  rw [compare_bytes_eq_zero, List.take_of_length_le]
  rw [List.length_drop]
  omega

/-- A stop check that matched found a stop string the output ends with. -/
theorem stop_triggered_suffix (O : CppString) (S : List CppString)
    (h : stop_triggered O S = true) : ∃ s ∈ S, s <:+ O := by
  induction S with
  | nil => simp [stop_triggered] at h
  | cons s rest ih =>
    unfold stop_triggered at h
    by_cases hlen : O.length ≥ s.length
    · rw [if_pos hlen] at h
      by_cases hcmp : string_compare O (O.length - s.length) s.length s = 0
      · refine ⟨s, List.mem_cons_self _ _, O.take (O.length - s.length), ?_⟩
        have hsplit := List.take_append_drop (O.length - s.length) O
        rw [(string_compare_tail O s hlen).mp hcmp] at hsplit
        exact hsplit
      · rw [if_neg hcmp] at h
        obtain ⟨t, ht, hsuf⟩ := ih h
        exact ⟨t, List.mem_cons_of_mem _ ht, hsuf⟩
    · rw [if_neg hlen] at h
      obtain ⟨t, ht, hsuf⟩ := ih h
      exact ⟨t, List.mem_cons_of_mem _ ht, hsuf⟩

/-- C3: the stop check reports a match iff some stop string is no longer than the
accumulated output and equals its last bytes; with no stop strings it never
matches. -/
theorem C3_stop_check (O : CppString) (S : List CppString) :
    (stop_triggered O S = true
      ↔ ∃ s ∈ S, s.length ≤ O.length ∧ O.drop (O.length - s.length) = s)
    ∧ stop_triggered O [] = false := by
  refine ⟨?_, rfl⟩
  induction S with
  | nil => simp [stop_triggered]
  | cons s rest ih =>
    simp only [stop_triggered, List.mem_cons, exists_eq_or_imp]
    by_cases hlen : s.length ≤ O.length
    · have hge : O.length ≥ s.length := hlen
      rw [if_pos hge]
      by_cases hcmp : string_compare O (O.length - s.length) s.length s = 0
      · rw [if_pos hcmp]
        exact ⟨fun _ => Or.inl ⟨hlen, (string_compare_tail O s hlen).mp hcmp⟩,
          fun _ => rfl⟩
      · rw [if_neg hcmp, ih]
        constructor
        · exact Or.inr
        · rintro (⟨_, h⟩ | h)
          · exact absurd ((string_compare_tail O s hlen).mpr h) hcmp
          · exact h
    · have hge : ¬ O.length ≥ s.length := hlen
      rw [if_neg hge, ih]
      constructor
      · exact Or.inr
      · rintro (⟨h, _⟩ | h)
        · exact absurd h hlen
        · exact h

/-! ## Theorems: one pass through the loop body -/

theorem delivered_append (a b : List Event) :
    delivered (a ++ b) = delivered a ++ delivered b := by
  induction a with
  | nil => rfl
  | cons e rest ih => cases e <;> simp [delivered, ih]

theorem sample_calls_append (a b : List Event) :
    sample_calls (a ++ b) = sample_calls a ++ sample_calls b := by
  induction a with
  | nil => rfl
  | cons e rest ih => cases e <;> simp [sample_calls, ih]

theorem sampled_tokens_append (a b : List Event) :
    sampled_tokens (a ++ b) = sampled_tokens a ++ sampled_tokens b := by
  induction a with
  | nil => rfl
  | cons e rest ih =>
    cases e with
    | sample r => cases r <;> simp [sampled_tokens, ih]
    | _ => simp [sampled_tokens, ih]

theorem sampled_tokens_length_le (a : List Event) :
    (sampled_tokens a).length ≤ (sample_calls a).length := by
  induction a with
  | nil => simp [sampled_tokens, sample_calls]
  | cons e rest ih =>
    cases e with
    | sample r => cases r <;> simp [sampled_tokens, sample_calls] <;> omega
    | _ => simpa [sampled_tokens, sample_calls] using ih

theorem decode_calls_append (a b : List Event) :
    decode_calls (a ++ b) = decode_calls a ++ decode_calls b := by
  induction a with
  | nil => rfl
  | cons e rest ih => cases e <;> simp [decode_calls, ih]

/-- C4: when the token drawn in a pass of the loop is an end-of-generation token,
the pass breaks at once as Stopped(EOG), whatever the stop sequences are, and so
does the loop whatever budget is left: the accumulator is unchanged, nothing is
delivered, no decode call is made; the only event of the pass is the sampler
call. -/
theorem C4_eog_stops_at_once (E : Engine) (params : GenerateParams)
    (st : GenerationState) (tok : llama_token)
    (hsample : E.sample st.trace = some tok)
    (heog : E.vocab.is_eog tok = true) :
    ∃ st', loop_body E params st = .stop .stopped_eog st'
      ∧ (∀ fuel, st.n_decode < params.maxTokens →
          generation_loop E params (fuel + 1) st = .done (.stopped_eog, st'))
      ∧ st'.trace = st.trace ++ [.sample (some tok)]
      ∧ st'.accumulatedOutput = st.accumulatedOutput
      ∧ delivered st'.trace = delivered st.trace
      ∧ decode_calls st'.trace = decode_calls st.trace
      ∧ st'.batch = st.batch ∧ st'.n_decode = st.n_decode ∧ st'.n_cur = st.n_cur := by
  have hbody : loop_body E params st
      = .stop .stopped_eog { st with trace := st.trace ++ [.sample (some tok)] } := by
    simp [loop_body, hsample, heog]
  refine ⟨{ st with trace := st.trace ++ [.sample (some tok)] }, hbody, ?_, rfl, rfl,
    ?_, ?_, rfl, rfl, rfl⟩
  · intro fuel hbudget
    simp [generation_loop, hbudget, hbody]
  · simp [delivered_append, delivered]
  · simp [decode_calls_append, decode_calls]

/-- C4 on the demo data: the sampler draws the end-of-generation token 0 while the
stop sequence "a" is configured and two tokens of budget are left. -/
theorem C4_eog_stops_at_once_witness :
    (engine_eog.sample state_demo.trace = some 0
      ∧ engine_eog.vocab.is_eog 0 = true)
    ∧ ∃ st', loop_body engine_eog params_stop_a state_demo = .stop .stopped_eog st'
      ∧ (∀ fuel, state_demo.n_decode < params_stop_a.maxTokens →
          generation_loop engine_eog params_stop_a (fuel + 1) state_demo
            = .done (.stopped_eog, st'))
      ∧ st'.trace = state_demo.trace ++ [.sample (some 0)]
      ∧ st'.accumulatedOutput = state_demo.accumulatedOutput
      ∧ delivered st'.trace = delivered state_demo.trace
      ∧ decode_calls st'.trace = decode_calls state_demo.trace
      ∧ st'.batch = state_demo.batch ∧ st'.n_decode = state_demo.n_decode
      ∧ st'.n_cur = state_demo.n_cur :=
  ⟨⟨rfl, rfl⟩, C4_eog_stops_at_once engine_eog params_stop_a state_demo 0 rfl rfl⟩

/-- C7: when the stop check matches after the bytes of the token drawn have been
appended to the accumulator, the pass breaks as Stopped(StopSequence), and so does
the loop; the only event of the pass is the sampler call: no decode batch is
submitted for the token (the batch and the counters are untouched) and its bytes
are not passed to the callback. -/
theorem C7_stop_match_ends_loop (E : Engine) (params : GenerateParams)
    (st : GenerationState) (tok : llama_token)
    (hsample : E.sample st.trace = some tok)
    (heog : E.vocab.is_eog tok = false)
    (hn : 0 ≤ (E.vocab.token_to_piece tok).1)
    (hmatch : stop_triggered
        (st.accumulatedOutput ++ piece_bytes (E.vocab.token_to_piece tok))
        params.stopSequences = true) :
    ∃ st', loop_body E params st = .stop .stopped_stop_sequence st'
      ∧ (∀ fuel, st.n_decode < params.maxTokens →
          generation_loop E params (fuel + 1) st = .done (.stopped_stop_sequence, st'))
      ∧ st'.accumulatedOutput
          = st.accumulatedOutput ++ piece_bytes (E.vocab.token_to_piece tok)
      ∧ st'.trace = st.trace ++ [.sample (some tok)]
      ∧ decode_calls st'.trace = decode_calls st.trace
      ∧ delivered st'.trace = delivered st.trace
      ∧ st'.batch = st.batch ∧ st'.n_decode = st.n_decode ∧ st'.n_cur = st.n_cur := by
  have hbody : loop_body E params st
      = .stop .stopped_stop_sequence
          { st with
            accumulatedOutput :=
              st.accumulatedOutput ++ piece_bytes (E.vocab.token_to_piece tok)
            trace := st.trace ++ [.sample (some tok)] } := by
    simp [loop_body, hsample, heog, hn, hmatch]
  refine ⟨_, hbody, ?_, rfl, rfl, ?_, ?_, rfl, rfl, rfl⟩
  · intro fuel hbudget
    simp [generation_loop, hbudget, hbody]
  · simp [decode_calls_append, decode_calls]
  · simp [delivered_append, delivered]

/-- C7 on the demo data: the first token drawn has the piece "a", which is the
configured stop sequence. -/
theorem C7_stop_match_ends_loop_witness :
    (engine_demo.sample state_demo.trace = some 1
      ∧ engine_demo.vocab.is_eog 1 = false
      ∧ 0 ≤ (engine_demo.vocab.token_to_piece 1).1
      ∧ stop_triggered
          (state_demo.accumulatedOutput
            ++ piece_bytes (engine_demo.vocab.token_to_piece 1))
          params_stop_a.stopSequences = true)
    ∧ ∃ st', loop_body engine_demo params_stop_a state_demo
          = .stop .stopped_stop_sequence st'
      ∧ (∀ fuel, state_demo.n_decode < params_stop_a.maxTokens →
          generation_loop engine_demo params_stop_a (fuel + 1) state_demo
            = .done (.stopped_stop_sequence, st'))
      ∧ st'.accumulatedOutput
          = state_demo.accumulatedOutput
            ++ piece_bytes (engine_demo.vocab.token_to_piece 1)
      ∧ st'.trace = state_demo.trace ++ [.sample (some 1)]
      ∧ decode_calls st'.trace = decode_calls state_demo.trace
      ∧ delivered st'.trace = delivered state_demo.trace
      ∧ st'.batch = state_demo.batch ∧ st'.n_decode = state_demo.n_decode
      ∧ st'.n_cur = state_demo.n_cur :=
  ⟨⟨rfl, rfl, by decide, by decide⟩,
    C7_stop_match_ends_loop engine_demo params_stop_a state_demo 1 rfl rfl
      (by decide) (by decide)⟩

/-! ## Theorems: the whole loop -/

theorem all_decodes_ok_append_of_no_decode (a b : List Event)
    (ha : all_decodes_ok a) (hb : decode_calls b = []) : all_decodes_ok (a ++ b) := by
  intro p hp
  rw [decode_calls_append, hb, List.append_nil] at hp
  exact ha p hp

theorem all_decodes_ok_append_decode (a : List Event) (b : List BatchEntry)
    (ha : all_decodes_ok a) : all_decodes_ok (a ++ [.decode b 0]) := by
  intro p hp
  rw [decode_calls_append] at hp
  simp only [decode_calls, List.mem_append, List.mem_singleton] at hp
  rcases hp with hp | hp
  · exact ha p hp
  · rw [hp]

/-- With room for one token, feeding a token back never writes out of bounds: it
submits the one-entry batch and breaks exactly when the return code is not 0. -/
theorem feed_token_eq (E : Engine) (st : GenerationState) (tok : llama_token)
    (halloc : 0 < st.batch.n_tokens_alloc) (hseq : 1 ≤ st.batch.n_seq_max) :
    feed_token E st tok =
      if E.decode st.trace [⟨tok, st.n_cur, [0], true⟩] ≠ 0 then
        .stop .failed_decode
          { st with
            batch := { st.batch with entries := [⟨tok, st.n_cur, [0], true⟩] }
            n_cur := int32_wrap (st.n_cur + 1)
            n_decode := st.n_decode + 1
            trace := st.trace ++
              [.decode [⟨tok, st.n_cur, [0], true⟩]
                (E.decode st.trace [⟨tok, st.n_cur, [0], true⟩])] }
      else
        .next
          { st with
            batch := { st.batch with entries := [⟨tok, st.n_cur, [0], true⟩] }
            n_cur := int32_wrap (st.n_cur + 1)
            n_decode := st.n_decode + 1
            trace := st.trace ++
              [.decode [⟨tok, st.n_cur, [0], true⟩]
                (E.decode st.trace [⟨tok, st.n_cur, [0], true⟩])] } := by
  unfold feed_token batch_add batch_clear
  simp [halloc, hseq]

/-- The second half of a pass (lines 155-165), from a state in which the token of
the pass has been sampled: either the invariant holds again, or the loop is left
with status Failed(DecodeError) and the exit condition holds. -/
theorem feed_token_spec (E : Engine) (params : GenerateParams) (st : GenerationState)
    (tok : llama_token)
    (h0 : 0 ≤ st.n_decode) (hlt : st.n_decode < params.maxTokens)
    (hsamples : (sample_calls st.trace).length = st.n_decode.toNat + 1)
    (htokens : (sampled_tokens st.trace).length = st.n_decode.toNat + 1)
    (hchunks : (delivered st.trace).length ≤ (sample_calls st.trace).length)
    (hacc : (delivered st.trace).flatten = st.accumulatedOutput)
    (hok : all_decodes_ok st.trace) (hpre : decode_calls st.trace ≠ [])
    (halloc : 0 < st.batch.n_tokens_alloc) (hseq : 1 ≤ st.batch.n_seq_max) :
    (∃ st', feed_token E st tok = .next st' ∧ LoopInv params st'
        ∧ st'.n_decode = st.n_decode + 1)
    ∨ (∃ st', feed_token E st tok = .stop .failed_decode st'
        ∧ LoopPost E params .failed_decode st') := by
  rw [feed_token_eq E st tok halloc hseq]
  by_cases hret : E.decode st.trace [⟨tok, st.n_cur, [0], true⟩] = 0
  · left
    refine ⟨_, by rw [if_neg (not_not.mpr hret)], ?_, rfl⟩
    rw [hret]
    constructor
    · show 0 ≤ st.n_decode + 1
      omega
    · show (st.n_decode + 1).toNat ≤ params.maxTokens.toNat
      omega
    · show (sample_calls (st.trace ++ _)).length = (st.n_decode + 1).toNat
      rw [sample_calls_append]
      simp only [sample_calls, List.append_nil]
      omega
    · show (sampled_tokens (st.trace ++ _)).length = (st.n_decode + 1).toNat
      rw [sampled_tokens_append]
      simp only [sampled_tokens, List.append_nil]
      omega
    · show (delivered (st.trace ++ _)).length ≤ (sample_calls (st.trace ++ _)).length
      rw [sample_calls_append, delivered_append]
      simpa [sample_calls, delivered] using hchunks
    · show (delivered (st.trace ++ _)).flatten = st.accumulatedOutput
      rw [delivered_append]
      simpa [delivered] using hacc
    · exact all_decodes_ok_append_decode _ _ hok
    · show decode_calls (st.trace ++ _) ≠ []
      rw [decode_calls_append]
      simp [hpre]
    · exact halloc
    · exact hseq
  · right
    refine ⟨_, by rw [if_pos hret], ?_⟩
    constructor
    · show (sample_calls (st.trace ++ _)).length ≤ params.maxTokens.toNat
      rw [sample_calls_append]
      simp only [sample_calls, List.append_nil]
      omega
    · show (delivered (st.trace ++ _)).length ≤ (sample_calls (st.trace ++ _)).length
      rw [sample_calls_append, delivered_append]
      simpa [sample_calls, delivered] using hchunks
    · intro h
      exact absurd h (by decide)
    · intro h
      exact absurd h (by decide)
    · intro _
      show (delivered (st.trace ++ _)).flatten = st.accumulatedOutput
      rw [delivered_append]
      simpa [delivered] using hacc
    · intro _
      exact ⟨st.trace, _, _, rfl, hret, hok, hpre⟩
    · intro h
      exact absurd rfl h
    · decide

/-- One pass through the loop body from a state that satisfies the invariant, with
budget left: the pass never writes out of bounds; when it reaches the end of the
body the invariant holds again, and when it breaks the exit condition holds. -/
theorem loop_body_spec (E : Engine) (params : GenerateParams) (st : GenerationState)
    (hinv : LoopInv params st) (hlt : st.n_decode < params.maxTokens) :
    (∃ st', loop_body E params st = .next st' ∧ LoopInv params st'
        ∧ st'.n_decode = st.n_decode + 1)
    ∨ (∃ status st', loop_body E params st = .stop status st'
        ∧ LoopPost E params status st') := by
  have h0 := hinv.n_decode_nonneg
  have hs := hinv.samples
  unfold loop_body
  cases hsample : E.sample st.trace with
  | none =>
    right
    refine ⟨_, _, rfl, ?_⟩
    constructor
    · show (sample_calls (st.trace ++ _)).length ≤ params.maxTokens.toNat
      rw [sample_calls_append]
      simp only [sample_calls, List.length_append, List.length_singleton]
      omega
    · show (delivered (st.trace ++ _)).length ≤ (sample_calls (st.trace ++ _)).length
      rw [sample_calls_append, delivered_append]
      have := hinv.chunks
      simp only [sample_calls, delivered, List.append_nil, List.length_append,
        List.length_singleton]
      omega
    · intro h
      exact absurd h (by decide)
    · intro h
      exact absurd h (by decide)
    · intro _
      show (delivered (st.trace ++ _)).flatten = st.accumulatedOutput
      rw [delivered_append]
      simpa [delivered] using hinv.acc
    · intro h
      exact absurd h (by decide)
    · intro _
      exact all_decodes_ok_append_of_no_decode _ _ hinv.decodes_ok rfl
    · decide
  | some tok =>
    have hsamples1 : (sample_calls (st.trace ++ [Event.sample (some tok)])).length
        = st.n_decode.toNat + 1 := by
      rw [sample_calls_append]
      simp only [sample_calls, List.length_append, List.length_singleton]
      omega
    have htokens1 : (sampled_tokens (st.trace ++ [Event.sample (some tok)])).length
        = st.n_decode.toNat + 1 := by
      have := hinv.tokens
      rw [sampled_tokens_append]
      simp only [sampled_tokens, List.length_append, List.length_singleton]
      omega
    have hchunks1 : (delivered (st.trace ++ [Event.sample (some tok)])).length
        ≤ (sample_calls (st.trace ++ [Event.sample (some tok)])).length := by
      rw [sample_calls_append, delivered_append]
      have := hinv.chunks
      simp only [sample_calls, delivered, List.append_nil, List.length_append,
        List.length_singleton]
      omega
    have hacc1 : (delivered (st.trace ++ [Event.sample (some tok)])).flatten
        = st.accumulatedOutput := by
      rw [delivered_append]
      simpa [delivered] using hinv.acc
    have hok1 : all_decodes_ok (st.trace ++ [Event.sample (some tok)]) :=
      all_decodes_ok_append_of_no_decode _ _ hinv.decodes_ok rfl
    have hpre1 : decode_calls (st.trace ++ [Event.sample (some tok)]) ≠ [] := by
      rw [decode_calls_append]
      simp [hinv.prefilled]
    simp only
    by_cases heog : E.vocab.is_eog tok = true
    · right
      rw [if_pos heog]
      refine ⟨_, _, rfl, ?_⟩
      constructor
      · show (sample_calls (st.trace ++ _)).length ≤ params.maxTokens.toNat
        rw [hsamples1]
        omega
      · exact hchunks1
      · intro h
        exact absurd h (by decide)
      · intro h
        exact absurd h (by decide)
      · intro _
        exact hacc1
      · intro h
        exact absurd h (by decide)
      · intro _
        exact hok1
      · decide
    · rw [if_neg heog]
      by_cases hn : (E.vocab.token_to_piece tok).1 ≥ 0
      · rw [if_pos hn]
        by_cases hstop : stop_triggered
            (st.accumulatedOutput ++ piece_bytes (E.vocab.token_to_piece tok))
            params.stopSequences = true
        · right
          rw [if_pos hstop]
          refine ⟨_, _, rfl, ?_⟩
          constructor
          · show (sample_calls (st.trace ++ _)).length ≤ params.maxTokens.toNat
            rw [hsamples1]
            omega
          · exact hchunks1
          · intro h
            exact absurd h (by decide)
          · intro _
            refine ⟨tok, ?_, ?_, hstop⟩
            · show (sampled_tokens (st.trace ++ _)).getLast? = _
              rw [sampled_tokens_append]
              simp [sampled_tokens]
            · show st.accumulatedOutput ++ _ = (delivered (st.trace ++ _)).flatten ++ _
              rw [hacc1]
          · intro h
            exact absurd rfl h
          · intro h
            exact absurd h (by decide)
          · intro _
            exact hok1
          · decide
        · rw [if_neg hstop]
          have := feed_token_spec E params
            { st with
              accumulatedOutput :=
                st.accumulatedOutput ++ piece_bytes (E.vocab.token_to_piece tok)
              trace := st.trace ++ [Event.sample (some tok)]
                ++ [Event.on_token (piece_bytes (E.vocab.token_to_piece tok))] }
            tok h0 hlt
            (by
              show (sample_calls (_ ++ _)).length = st.n_decode.toNat + 1
              rw [sample_calls_append, List.length_append, hsamples1]
              simp [sample_calls])
            (by
              show (sampled_tokens (_ ++ _)).length = st.n_decode.toNat + 1
              rw [sampled_tokens_append, List.length_append, htokens1]
              simp [sampled_tokens])
            (by
              show (delivered (_ ++ _)).length ≤ (sample_calls (_ ++ _)).length
              have hd : delivered (st.trace ++ [Event.sample (some tok)])
                  = delivered st.trace := by
                rw [delivered_append]
                simp [delivered]
              have h2 := hinv.chunks
              rw [sample_calls_append, delivered_append, List.length_append,
                List.length_append, hsamples1, hd]
              simp only [sample_calls, delivered, List.length_singleton, List.length_nil]
              omega)
            (by
              show (delivered (_ ++ _)).flatten = _
              rw [delivered_append, List.flatten_append, hacc1]
              simp [delivered])
            (all_decodes_ok_append_of_no_decode _ _ hok1 rfl)
            (by
              show decode_calls (_ ++ _) ≠ []
              rw [decode_calls_append]
              simp [hpre1])
            hinv.alloc hinv.seq
          rcases this with ⟨st', h1, h2, h3⟩ | ⟨st', h1, h2⟩
          · exact Or.inl ⟨st', h1, h2, h3⟩
          · exact Or.inr ⟨_, st', h1, h2⟩
      · rw [if_neg hn]
        have := feed_token_spec E params
          { st with trace := st.trace ++ [Event.sample (some tok)] }
          tok h0 hlt hsamples1 htokens1 hchunks1 hacc1 hok1 hpre1 hinv.alloc hinv.seq
        rcases this with ⟨st', h1, h2, h3⟩ | ⟨st', h1, h2⟩
        · exact Or.inl ⟨st', h1, h2, h3⟩
        · exact Or.inr ⟨_, st', h1, h2⟩

/-- When the loop is left from a state that satisfies the invariant, the exit
condition holds. -/
theorem generation_loop_post (E : Engine) (params : GenerateParams) :
    ∀ (fuel : Nat) (st : GenerationState) (status : Status) (st' : GenerationState),
      LoopInv params st → generation_loop E params fuel st = .done (status, st') →
      LoopPost E params status st' := by
  intro fuel
  induction fuel with
  | zero =>
    intro st status st' _ h
    simp [generation_loop] at h
  | succ fuel ih =>
    intro st status st' hinv h
    unfold generation_loop at h
    by_cases hlt : st.n_decode < params.maxTokens
    · rw [if_pos hlt] at h
      rcases loop_body_spec E params st hinv hlt with
        ⟨st1, hb, hinv1, -⟩ | ⟨s1, st1, hb, hpost⟩
      · rw [hb] at h
        exact ih st1 status st' hinv1 h
      · rw [hb] at h
        simp only [Run.done.injEq, Prod.mk.injEq] at h
        rw [← h.1, ← h.2]
        exact hpost
    · rw [if_neg hlt] at h
      simp only [Run.done.injEq, Prod.mk.injEq] at h
      rw [← h.1, ← h.2]
      have h0 := hinv.n_decode_nonneg
      have hle := hinv.n_decode_le
      have hs := hinv.samples
      have ht := hinv.tokens
      constructor
      · omega
      · exact hinv.chunks
      · intro _
        omega
      · intro h'
        exact absurd h' (by decide)
      · intro _
        exact hinv.acc
      · intro h'
        exact absurd h' (by decide)
      · intro _
        exact hinv.decodes_ok
      · decide

/-- From a state that satisfies the invariant the loop is left after at most
`maxTokens - n_decode` passes: one more unit of fuel than that is enough. -/
theorem generation_loop_terminates (E : Engine) (params : GenerateParams) :
    ∀ (fuel : Nat) (st : GenerationState), LoopInv params st →
      (params.maxTokens - st.n_decode).toNat < fuel →
      ∃ status st', generation_loop E params fuel st = .done (status, st') := by
  intro fuel
  induction fuel with
  | zero =>
    intro st _ h
    omega
  | succ fuel ih =>
    intro st hinv hfuel
    unfold generation_loop
    by_cases hlt : st.n_decode < params.maxTokens
    · rw [if_pos hlt]
      rcases loop_body_spec E params st hinv hlt with
        ⟨st1, hb, hinv1, hn⟩ | ⟨s1, st1, hb, -⟩
      · rw [hb]
        exact ih st1 hinv1 (by omega)
      · rw [hb]
        exact ⟨s1, st1, rfl⟩
    · rw [if_neg hlt]
      exact ⟨_, _, rfl⟩

/-- More fuel does not change the result of a loop that was left. -/
theorem generation_loop_fuel_mono (E : Engine) (params : GenerateParams) :
    ∀ (fuel k : Nat) (st : GenerationState) (x : Status × GenerationState),
      generation_loop E params fuel st = .done x →
      generation_loop E params (fuel + k) st = .done x := by
  intro fuel
  induction fuel with
  | zero =>
    intro k st x h
    simp [generation_loop] at h
  | succ fuel ih =>
    intro k st x h
    rw [Nat.add_right_comm]
    unfold generation_loop at h ⊢
    by_cases hlt : st.n_decode < params.maxTokens
    · rw [if_pos hlt] at h ⊢
      cases hb : loop_body E params st with
      | next st1 =>
        rw [hb] at h
        exact ih k st1 x h
      | stop s1 st1 =>
        rw [hb] at h
        exact h
      | out_of_bounds =>
        rw [hb] at h
        simp at h
    · rw [if_neg hlt] at h ⊢
      exact h

/-! ## Theorems: the worker -/

theorem batch_add_some (batch b : llama_batch) (id : llama_token) (pos : Int)
    (seq_ids : List Int) (logits : Bool) (h : batch_add batch id pos seq_ids logits = some b) :
    b.n_tokens_alloc = batch.n_tokens_alloc ∧ b.n_seq_max = batch.n_seq_max
      ∧ b.entries = batch.entries ++ [⟨id, pos, seq_ids, logits⟩] := by
  unfold batch_add at h
  split at h
  · simp only [Option.some.injEq] at h
    rw [← h]
    exact ⟨rfl, rfl, rfl⟩
  · simp at h

/-- A prefill that stays inside the batch keeps the allocation sizes and adds one
slot per token. -/
theorem prefill_add_some (toks : List llama_token) :
    ∀ (batch b : llama_batch) (i : Nat), prefill_add batch toks i = some b →
      b.n_tokens_alloc = batch.n_tokens_alloc ∧ b.n_seq_max = batch.n_seq_max
        ∧ b.entries.length = batch.entries.length + toks.length := by
  induction toks with
  | nil =>
    intro batch b i h
    simp only [prefill_add, Option.some.injEq] at h
    rw [← h]
    simp
  | cons tok rest ih =>
    intro batch b i h
    unfold prefill_add at h
    cases hadd : batch_add batch tok i [0] false with
    | none => simp [hadd] at h
    | some b1 =>
      simp only [hadd] at h
      obtain ⟨h1, h2, h3⟩ := batch_add_some _ _ _ _ _ _ hadd
      obtain ⟨h4, h5, h6⟩ := ih b1 b (i + 1) h
      refine ⟨by rw [h4, h1], by rw [h5, h2], ?_⟩
      have hlen1 : b1.entries.length = batch.entries.length + 1 := by
        rw [h3, List.length_append, List.length_singleton]
      rw [h6, hlen1, List.length_cons]
      omega

/-- The prefill stays inside the batch when the tokens fit the free slots. -/
theorem prefill_add_fits (toks : List llama_token) :
    ∀ (batch : llama_batch) (i : Nat),
      batch.entries.length + toks.length ≤ batch.n_tokens_alloc → 1 ≤ batch.n_seq_max →
      ∃ b, prefill_add batch toks i = some b := by
  induction toks with
  | nil =>
    intro batch i _ _
    exact ⟨batch, rfl⟩
  | cons tok rest ih =>
    intro batch i hfit hseq
    simp only [List.length_cons] at hfit
    have hadd : ∃ b1, batch_add batch tok i [0] false = some b1 := by
      unfold batch_add
      rw [if_pos ⟨by omega, by simpa using hseq⟩]
      exact ⟨_, rfl⟩
    obtain ⟨b1, hb1⟩ := hadd
    obtain ⟨h1, h2, h3⟩ := batch_add_some _ _ _ _ _ _ hb1
    obtain ⟨b, hb⟩ := ih b1 (i + 1)
      (by
        rw [h1, h3]
        simp only [List.length_append, List.length_singleton]
        omega)
      (by rw [h2]; exact hseq)
    refine ⟨b, ?_⟩
    unfold prefill_add
    simp only [hb1]
    exact hb

theorem batch_set_last_logits_some (batch b : llama_batch)
    (h : batch_set_last_logits batch = some b) :
    b.n_tokens_alloc = batch.n_tokens_alloc ∧ b.n_seq_max = batch.n_seq_max := by
  unfold batch_set_last_logits at h
  split at h
  · simp at h
  · simp only [Option.some.injEq] at h
    rw [← h]
    exact ⟨rfl, rfl⟩

theorem batch_set_last_logits_fits (batch : llama_batch) (h : batch.entries ≠ []) :
    ∃ b, batch_set_last_logits batch = some b := by
  unfold batch_set_last_logits
  cases hlast : batch.entries.getLast? with
  | none => exact absurd (List.getLast?_eq_none_iff.mp hlast) h
  | some e => exact ⟨_, rfl⟩

/-- The invariant holds at loop entry: after a prefill decode that returned 0,
with the counters and the accumulator as `generate_worker` initialises them. -/
theorem loopInv_at_entry (E : Engine) (params : GenerateParams) (batch : llama_batch)
    (halloc : 0 < batch.n_tokens_alloc) (hseq : 1 ≤ batch.n_seq_max) :
    LoopInv params
      { n_cur := batch.n_tokens, n_decode := 0, accumulatedOutput := [], batch := batch,
        trace := preamble E params ++ [.decode batch.entries 0] } := by
  constructor
  · exact le_refl _
  · show (0 : Int).toNat ≤ _
    simp
  · simp [preamble, sample_calls]
  · simp [preamble, sampled_tokens]
  · simp [preamble, sample_calls, delivered]
  · simp [preamble, delivered]
  · intro p hp
    simp only [preamble, decode_calls, List.cons_append, List.nil_append,
      List.mem_singleton] at hp
    rw [hp]
  · simp [preamble, decode_calls]
  · exact halloc
  · exact hseq

/-- The shapes a finished run of the worker can have. -/
theorem generate_worker_done (E : Engine) (params : GenerateParams) (fuel : Nat)
    (r : WorkerResult) (h : generate_worker E params fuel = .done r) :
    r = ⟨.failed_attach, [], [.attach false]⟩
    ∨ (∃ b ret, ret ≠ 0
        ∧ r = ⟨.failed_decode, [], preamble E params ++ .decode b ret :: cleanup⟩)
    ∨ (∃ st, LoopPost E params r.status st
        ∧ r.accumulatedOutput = st.accumulatedOutput ∧ r.trace = st.trace ++ cleanup) := by
  unfold generate_worker at h
  split at h
  · left
    simp only [Run.done.injEq] at h
    exact h.symm
  · right
    cases hpre : prefill_add (llama_batch_init 4096 1) (tokens_list E.vocab params) 0 with
    | none => simp [hpre] at h
    | some b0 =>
      simp only [hpre] at h
      cases hset : batch_set_last_logits b0 with
      | none => simp [hset] at h
      | some b1 =>
        simp only [hset] at h
        obtain ⟨h1, h2, -⟩ := prefill_add_some _ _ _ _ hpre
        obtain ⟨h3, h4⟩ := batch_set_last_logits_some _ _ hset
        split at h
        · left
          rename_i hret
          simp only [Run.done.injEq] at h
          refine ⟨b1.entries, _, hret, ?_⟩
          rw [← h]
          simp [preamble, cleanup]
        · right
          rename_i hret
          have hret0 : E.decode [.attach true, .memory_clear,
              .sampler_chain (build_sampler_chain params E.vocab), .batch_init 4096 1]
              b1.entries = 0 := not_not.mp hret
          rw [hret0] at h
          have hinv := loopInv_at_entry E params b1
            (by rw [h3, h1]; decide) (by rw [h4, h2]; decide)
          cases hloop : generation_loop E params fuel
              { n_cur := b1.n_tokens, n_decode := 0, accumulatedOutput := [], batch := b1,
                trace := preamble E params ++ [.decode b1.entries 0] } with
          | done x =>
            obtain ⟨status, st⟩ := x
            have hpost := generation_loop_post E params fuel _ status st hinv hloop
            simp only [preamble] at hloop
            rw [hloop] at h
            simp only [Run.done.injEq] at h
            refine ⟨st, ?_, ?_, ?_⟩
            · rw [← h]
              exact hpost
            · rw [← h]
            · rw [← h]
              rfl
          | out_of_bounds =>
            simp only [preamble] at hloop
            rw [hloop] at h
            simp at h
          | out_of_fuel =>
            simp only [preamble] at hloop
            rw [hloop] at h
            simp at h

/-- For an initial token sequence of 1 to 4096 tokens the worker finishes, and with
the same result for every amount of fuel above `max(maxTokens, 0)`. -/
theorem generate_worker_total (E : Engine) (params : GenerateParams)
    (hlen : 1 ≤ (tokens_list E.vocab params).length)
    (hfit : (tokens_list E.vocab params).length ≤ 4096) :
    ∃ r, ∀ fuel, params.maxTokens.toNat < fuel →
      generate_worker E params fuel = .done r := by
  unfold generate_worker
  by_cases hatt : (!E.attach_ok) = true
  · simp only [hatt, if_true]
    exact ⟨_, fun _ _ => rfl⟩
  · simp only [hatt, if_false]
    obtain ⟨b0, hpre⟩ := prefill_add_fits (tokens_list E.vocab params)
      (llama_batch_init 4096 1) 0 (by simpa [llama_batch_init] using hfit)
      (by simp [llama_batch_init])
    obtain ⟨h1, h2, h5⟩ := prefill_add_some _ _ _ _ hpre
    obtain ⟨b1, hset⟩ := batch_set_last_logits_fits b0 (by
      intro hnil
      rw [hnil] at h5
      simp only [llama_batch_init, List.length_nil] at h5
      omega)
    obtain ⟨h3, h4⟩ := batch_set_last_logits_some _ _ hset
    simp only [hpre, hset]
    by_cases hret : E.decode [.attach true, .memory_clear,
        .sampler_chain (build_sampler_chain params E.vocab), .batch_init 4096 1]
        b1.entries = 0
    · have hinv := loopInv_at_entry E params b1
        (by rw [h3, h1]; decide) (by rw [h4, h2]; decide)
      obtain ⟨status, st, hloop⟩ := generation_loop_terminates E params
        (params.maxTokens.toNat + 1) _ hinv (by
          show (params.maxTokens - 0).toNat < _
          simp)
      refine ⟨⟨status, st.accumulatedOutput, st.trace ++ [.batch_free, .sampler_free,
        .detach]⟩, ?_⟩
      intro fuel hfuel
      have hmono := generation_loop_fuel_mono E params _
        (fuel - (params.maxTokens.toNat + 1)) _ _ hloop
      have hf : params.maxTokens.toNat + 1 + (fuel - (params.maxTokens.toNat + 1)) = fuel := by
        omega
      rw [hf] at hmono
      simp only [preamble] at hmono
      simp only [hret, ne_eq, not_true_eq_false, if_false]
      rw [hmono]
      simp
    · simp only [ne_eq, hret, not_false_eq_true, if_true]
      exact ⟨_, fun _ _ => rfl⟩

/-! ## Theorems: budget, stop text, decode failure -/

/-- C5, as the claim states it, fails for a negative budget: with `maxTokens = -1`
the loop ends because the budget is exhausted, and 0 tokens were sampled, not
`maxTokens`. -/
theorem C5_counterexample :
    generate_worker engine_demo params_negative_budget 1 = .done result_negative_budget
    ∧ result_negative_budget.status = .stopped_budget
    ∧ (sampled_tokens result_negative_budget.trace).length = 0
    ∧ ((sampled_tokens result_negative_budget.trace).length : Int)
        ≠ params_negative_budget.maxTokens := by
  refine ⟨rfl, rfl, rfl, ?_⟩
  decide

/-- C5 (amended): for every budget `maxTokens` and every behaviour of the engine and
the sampler, a run on an initial sequence of 1 to 4096 tokens finishes within
`max(maxTokens, 0)` passes of the loop (one more unit of fuel is enough, and more
fuel gives the same result); the sampler is called at most `max(maxTokens, 0)`
times, at most `max(maxTokens, 0)` tokens are sampled and at most as many chunks
delivered; and when the run ends on the budget, exactly `max(maxTokens, 0)` tokens
were sampled. -/
theorem C5_budget_bound (E : Engine) (params : GenerateParams)
    (hlen : 1 ≤ (tokens_list E.vocab params).length)
    (hfit : (tokens_list E.vocab params).length ≤ 4096) :
    ∃ r, (∀ fuel, params.maxTokens.toNat < fuel →
          generate_worker E params fuel = .done r)
      ∧ (sample_calls r.trace).length ≤ params.maxTokens.toNat
      ∧ (sampled_tokens r.trace).length ≤ params.maxTokens.toNat
      ∧ (delivered r.trace).length ≤ params.maxTokens.toNat
      ∧ (r.status = .stopped_budget →
          (sampled_tokens r.trace).length = params.maxTokens.toNat) := by
  obtain ⟨r, hr⟩ := generate_worker_total E params hlen hfit
  refine ⟨r, hr, ?_⟩
  have hrun := hr (params.maxTokens.toNat + 1) (Nat.lt_succ_self _)
  have hcl_s : sample_calls cleanup = [] := rfl
  have hcl_t : sampled_tokens cleanup = [] := rfl
  have hcl_d : delivered cleanup = [] := rfl
  rcases generate_worker_done E params _ r hrun with h | ⟨b, ret, _, h⟩ | ⟨st, hpost, _, htr⟩
  · rw [h]
    refine ⟨?_, ?_, ?_, ?_⟩
    · simp [sample_calls]
    · simp [sampled_tokens]
    · simp [delivered]
    · intro hs
      exact absurd hs (by decide)
  · rw [h]
    refine ⟨?_, ?_, ?_, ?_⟩
    · simp [preamble, cleanup, sample_calls]
    · simp [preamble, cleanup, sampled_tokens]
    · simp [preamble, cleanup, delivered]
    · intro hs
      exact absurd hs (by simp)
  · have h1 := hpost.samples_le
    have h2 := hpost.chunks_le
    have h3 := sampled_tokens_length_le st.trace
    rw [htr, sample_calls_append, sampled_tokens_append, delivered_append, hcl_s, hcl_t,
      hcl_d, List.append_nil, List.append_nil, List.append_nil]
    refine ⟨h1, ?_, ?_, hpost.budget⟩ <;> omega

/-- C5 (amended) on the demo data: a prompt of three tokens and a budget of two. -/
theorem C5_budget_bound_witness :
    (1 ≤ (tokens_list engine_demo.vocab params_plain).length
      ∧ (tokens_list engine_demo.vocab params_plain).length ≤ 4096)
    ∧ ∃ r, (∀ fuel, params_plain.maxTokens.toNat < fuel →
          generate_worker engine_demo params_plain fuel = .done r)
      ∧ (sample_calls r.trace).length ≤ params_plain.maxTokens.toNat
      ∧ (sampled_tokens r.trace).length ≤ params_plain.maxTokens.toNat
      ∧ (delivered r.trace).length ≤ params_plain.maxTokens.toNat
      ∧ (r.status = .stopped_budget →
          (sampled_tokens r.trace).length = params_plain.maxTokens.toNat) :=
  ⟨⟨by decide, by decide⟩,
    C5_budget_bound engine_demo params_plain (by decide) (by decide)⟩

/-- C6, as the claim states it, fails: with the stop sequence "b" and the pieces "a"
then "b", generation halts on the stop sequence with the accumulator "ab", but the
chunks delivered concatenate to "a": they differ from the accumulator and do not
end with the stop string. -/
theorem C6_counterexample :
    generate_worker engine_demo params_stop_b 3 = .done result_stop_b
    ∧ result_stop_b.status = .stopped_stop_sequence
    ∧ result_stop_b.accumulatedOutput = [97, 98]
    ∧ (delivered result_stop_b.trace).flatten = [97]
    ∧ (delivered result_stop_b.trace).flatten ≠ result_stop_b.accumulatedOutput
    ∧ ¬ ([98] <:+ (delivered result_stop_b.trace).flatten) := by
  refine ⟨rfl, rfl, rfl, rfl, ?_, ?_⟩
  · decide
  · decide

/-- C6 (amended): when generation halts on a stop sequence, the accumulator ends
with a configured stop string, and it equals the concatenation of the chunks
delivered followed by the bytes of the last token sampled: the bytes of the token
that completed the match are withheld from the caller, everything before them has
been delivered untrimmed. -/
theorem C6_stop_text_last_piece_withheld (E : Engine) (params : GenerateParams)
    (fuel : Nat) (r : WorkerResult)
    (hrun : generate_worker E params fuel = .done r)
    (hstop : r.status = .stopped_stop_sequence) :
    ∃ tok s, (sampled_tokens r.trace).getLast? = some tok
      ∧ r.accumulatedOutput
          = (delivered r.trace).flatten ++ piece_bytes (E.vocab.token_to_piece tok)
      ∧ s ∈ params.stopSequences
      ∧ s <:+ r.accumulatedOutput := by
  rcases generate_worker_done E params fuel r hrun with h | ⟨b, ret, _, h⟩ | ⟨st, hpost, hacc, htr⟩
  · rw [h] at hstop
    exact absurd hstop (by decide)
  · rw [h] at hstop
    exact absurd hstop (by simp)
  · obtain ⟨tok, hlast, heq, htrig⟩ := hpost.stop hstop
    obtain ⟨s, hs, hsuf⟩ :=
      stop_triggered_suffix st.accumulatedOutput params.stopSequences htrig
    refine ⟨tok, s, ?_, ?_, hs, ?_⟩
    · rw [htr, sampled_tokens_append]
      show (sampled_tokens st.trace ++ []).getLast? = some tok
      rw [List.append_nil]
      exact hlast
    · rw [hacc, htr, delivered_append]
      show st.accumulatedOutput = (delivered st.trace ++ []).flatten ++ _
      rw [List.append_nil]
      exact heq
    · rw [hacc]
      exact hsuf

/-- C6 (amended) on the demo data: the stop sequence "b" and the pieces "a", "b". -/
theorem C6_stop_text_last_piece_withheld_witness :
    (generate_worker engine_demo params_stop_b 3 = .done result_stop_b
      ∧ result_stop_b.status = .stopped_stop_sequence)
    ∧ ∃ tok s, (sampled_tokens result_stop_b.trace).getLast? = some tok
      ∧ result_stop_b.accumulatedOutput
          = (delivered result_stop_b.trace).flatten
            ++ piece_bytes (engine_demo.vocab.token_to_piece tok)
      ∧ s ∈ params_stop_b.stopSequences
      ∧ s <:+ result_stop_b.accumulatedOutput :=
  ⟨⟨rfl, rfl⟩,
    C6_stop_text_last_piece_withheld engine_demo params_stop_b 3 result_stop_b rfl rfl⟩

theorem mem_decode_calls (trace : List Event) (b : List BatchEntry) (ret : Int)
    (h : Event.decode b ret ∈ trace) : (b, ret) ∈ decode_calls trace := by
  induction trace with
  | nil => simp at h
  | cons e rest ih =>
    rcases List.mem_cons.mp h with heq | hmem
    · rw [← heq]
      simp [decode_calls]
    · cases e <;> simp [decode_calls, ih hmem]

theorem failed_decode_not_mem (trace : List Event) (b : List BatchEntry) (ret : Int)
    (hok : all_decodes_ok trace) (hret : ret ≠ 0) : Event.decode b ret ∉ trace :=
  fun h => hret (hok (b, ret) (mem_decode_calls trace b ret h))

/-- An element that occurs neither before nor after a given position of a list can
only be found at that position. -/
theorem split_unique {α : Type} (T C pre post : List α) (x y : α)
    (h : pre ++ x :: post = T ++ y :: C) (hT : x ∉ T) (hC : x ∉ C) :
    pre = T ∧ x = y ∧ post = C := by
  induction pre generalizing T with
  | nil =>
    cases T with
    | nil =>
      simp only [List.nil_append, List.cons.injEq] at h
      exact ⟨rfl, h.1, h.2⟩
    | cons t T' =>
      simp only [List.nil_append, List.cons_append, List.cons.injEq] at h
      exact absurd (h.1 ▸ List.mem_cons_self _ _) hT
  | cons p pre' ih =>
    cases T with
    | nil =>
      simp only [List.nil_append, List.cons_append, List.cons.injEq] at h
      have : x ∈ C := by
        rw [← h.2]
        simp
      exact absurd this hC
    | cons t T' =>
      simp only [List.cons_append, List.cons.injEq] at h
      obtain ⟨h1, h2, h3⟩ := ih T' h.2 (fun hx => hT (List.mem_cons_of_mem _ hx))
      exact ⟨by rw [h.1, h1], h2, h3⟩

/-- C8: in a finished run, a decode call that returned non-zero is the last thing the
worker does before it releases its resources: the run is Failed(DecodeError), and
after the failing call there is no sampler call, no chunk delivered and no decode
call, only the cleanup. The chunks delivered before the failure are exactly the
chunks of the run. When the failing call is the first decode call of the run (the
prefill), no token was sampled and no chunk delivered at all. -/
theorem C8_decode_failure_aborts (E : Engine) (params : GenerateParams) (fuel : Nat)
    (r : WorkerResult) (hrun : generate_worker E params fuel = .done r)
    (pre post : List Event) (b : List BatchEntry) (ret : Int)
    (hsplit : r.trace = pre ++ .decode b ret :: post) (hret : ret ≠ 0) :
    r.status = .failed_decode
    ∧ post = cleanup
    ∧ sample_calls post = [] ∧ delivered post = [] ∧ decode_calls post = []
    ∧ delivered r.trace = delivered pre
    ∧ (decode_calls pre = [] → sample_calls r.trace = [] ∧ delivered r.trace = []) := by
  have hcl : Event.decode b ret ∉ cleanup := by simp [cleanup]
  have hmem : Event.decode b ret ∈ r.trace := by
    rw [hsplit]
    simp
  have finish : ∀ T b' ret', r.trace = T ++ .decode b' ret' :: cleanup →
      Event.decode b ret ∉ T →
      post = cleanup ∧ sample_calls post = [] ∧ delivered post = []
        ∧ decode_calls post = [] ∧ delivered r.trace = delivered pre ∧ pre = T := by
    intro T b' ret' htr hT
    rw [hsplit] at htr
    obtain ⟨h1, -, h3⟩ := split_unique T cleanup pre post _ _ htr hT hcl
    refine ⟨h3, ?_, ?_, ?_, ?_, h1⟩
    · rw [h3]; rfl
    · rw [h3]; rfl
    · rw [h3]; rfl
    · rw [hsplit, delivered_append, h3]
      simp [delivered, cleanup]
  rcases generate_worker_done E params fuel r hrun with
    h | ⟨b', ret', _, h⟩ | ⟨st, hpost, _, htr⟩
  · rw [h] at hmem
    simp at hmem
  · have hT : Event.decode b ret ∉ preamble E params := by simp [preamble]
    obtain ⟨h1, h2, h3, h4, h5, h6⟩ := finish (preamble E params) b' ret' (by rw [h]) hT
    refine ⟨by rw [h], h1, h2, h3, h4, h5, ?_⟩
    intro _
    rw [h]
    constructor
    · simp [preamble, cleanup, sample_calls]
    · simp [preamble, cleanup, delivered]
  · by_cases hfail : r.status = .failed_decode
    · obtain ⟨T, b', ret', hst, _, hok, hpre⟩ := hpost.failed hfail
      have hT := failed_decode_not_mem T b ret hok hret
      obtain ⟨h1, h2, h3, h4, h5, h6⟩ := finish T b' ret' (by
        rw [htr, hst, List.append_assoc]
        rfl) hT
      refine ⟨hfail, h1, h2, h3, h4, h5, ?_⟩
      intro hnone
      rw [h6] at hnone
      exact absurd hnone hpre
    · have hok := hpost.ok hfail
      rw [htr] at hmem
      rcases List.mem_append.mp hmem with hm | hm
      · exact absurd hm (failed_decode_not_mem st.trace b ret hok hret)
      · exact absurd hm hcl

/-- C8 on the demo data: the decode of the first token fed back returns 1, after
one chunk has been delivered. -/
theorem C8_decode_failure_aborts_witness :
    (generate_worker engine_decode_fails params_plain 3 = .done result_decode_fails
      ∧ result_decode_fails.trace =
          (preamble engine_decode_fails params_plain
            ++ [.decode [⟨1, 0, [0], false⟩, ⟨2, 1, [0], false⟩, ⟨3, 2, [0], true⟩] 0,
                .sample (some 1), .on_token [97]])
          ++ .decode [⟨1, 3, [0], true⟩] 1 :: cleanup
      ∧ (1 : Int) ≠ 0)
    ∧ result_decode_fails.status = .failed_decode
    ∧ cleanup = cleanup
    ∧ sample_calls cleanup = [] ∧ delivered cleanup = [] ∧ decode_calls cleanup = []
    ∧ delivered result_decode_fails.trace
        = delivered (preamble engine_decode_fails params_plain
            ++ [.decode [⟨1, 0, [0], false⟩, ⟨2, 1, [0], false⟩, ⟨3, 2, [0], true⟩] 0,
                .sample (some 1), .on_token [97]])
    ∧ (decode_calls (preamble engine_decode_fails params_plain
            ++ [.decode [⟨1, 0, [0], false⟩, ⟨2, 1, [0], false⟩, ⟨3, 2, [0], true⟩] 0,
                .sample (some 1), .on_token [97]]) = [] →
        sample_calls result_decode_fails.trace = []
          ∧ delivered result_decode_fails.trace = []) :=
  ⟨⟨rfl, rfl, by decide⟩,
    C8_decode_failure_aborts engine_decode_fails params_plain 3 result_decode_fails rfl
      _ _ _ _ rfl (by decide)⟩


/-! ## Theorems: grammar stage -/

/-- C11: the Grammar stage is in the chain iff the grammar text is non-empty and
compiles, and it is then the first sampler of the chain; when the text is non-empty
and does not compile, the chain returned is the one the same configuration with an
empty grammar text gives. -/
theorem C11_grammar_stage (params : GenerateParams) (vocab : llama_vocab) :
    (StageKind.Grammar ∈ chain_kinds params vocab
      ↔ params.grammar ≠ [] ∧ vocab.grammar_compiles (c_str params.grammar) = true)
    ∧ (StageKind.Grammar ∈ chain_kinds params vocab →
        (build_sampler_chain params vocab).head?
            = some (.init_grammar (c_str params.grammar) "root")
          ∧ (chain_kinds params vocab).head? = some StageKind.Grammar)
    ∧ (params.grammar ≠ [] → vocab.grammar_compiles (c_str params.grammar) = false →
        build_sampler_chain params vocab
          = build_sampler_chain { params with grammar := [] } vocab) := by
  have hiff : StageKind.Grammar ∈ chain_kinds params vocab
      ↔ params.grammar ≠ [] ∧ vocab.grammar_compiles (c_str params.grammar) = true := by
    rw [mem_chain_kinds]
    cases hg : params.grammar <;> simp [stage_enabled, hg]
  refine ⟨hiff, ?_, ?_⟩
  · intro hmem
    obtain ⟨hne, hc⟩ := hiff.mp hmem
    have hen : (!params.grammar.isEmpty && vocab.grammar_compiles (c_str params.grammar))
        = true := by
      cases hg : params.grammar with
      | nil => exact absurd hg hne
      | cons a l => simpa [hg] using hc
    unfold chain_kinds
    rw [build_sampler_chain_eq, hen]
    simp [optStage, llama_sampler.kind]
  · intro hne hc
    rw [build_sampler_chain_eq, build_sampler_chain_eq, hc]
    simp [optStage]

/-- C11 on the demo data: the grammar "r" compiles, the grammar "x" does not. -/
theorem C11_grammar_stage_witness :
    (StageKind.Grammar ∈ chain_kinds params_grammar_ok vocab_demo
      ∧ (build_sampler_chain params_grammar_ok vocab_demo).head?
          = some (.init_grammar (c_str params_grammar_ok.grammar) "root")
      ∧ (chain_kinds params_grammar_ok vocab_demo).head? = some StageKind.Grammar)
    ∧ (params_grammar_bad.grammar ≠ []
      ∧ vocab_demo.grammar_compiles (c_str params_grammar_bad.grammar) = false
      ∧ build_sampler_chain params_grammar_bad vocab_demo
          = build_sampler_chain { params_grammar_bad with grammar := [] } vocab_demo) :=
  have hmem : StageKind.Grammar ∈ chain_kinds params_grammar_ok vocab_demo :=
    (C11_grammar_stage params_grammar_ok vocab_demo).1.mpr ⟨by decide, by decide⟩
  ⟨⟨hmem, (C11_grammar_stage params_grammar_ok vocab_demo).2.1 hmem⟩,
    ⟨by decide, by decide,
      (C11_grammar_stage params_grammar_bad vocab_demo).2.2 (by decide) (by decide)⟩⟩

/-! ## Theorems: memory operations -/

/-- C16: `nativeDivideKvCachePositions` with a divisor `<= 1` makes no engine call, so
the memory state is unchanged whatever the engine does on a call; on a context, with
a divisor `> 1`, it makes exactly one call, the rescale of the translated range by
that divisor. -/
theorem C16_divide_guard (contextPtr seqId pos0 pos1 divisor : Int) :
    (divisor ≤ 1 →
      Java_com_cortex_app_LlamaEngine_nativeDivideKvCachePositions contextPtr seqId pos0 pos1 divisor = []
      ∧ ∀ (σ : Type) (apply : MemoryOp → σ → σ) (mem : σ),
          apply_memory_ops apply
            (Java_com_cortex_app_LlamaEngine_nativeDivideKvCachePositions contextPtr seqId pos0 pos1 divisor) mem = mem)
    ∧ (contextPtr ≠ 0 → 1 < divisor →
      Java_com_cortex_app_LlamaEngine_nativeDivideKvCachePositions contextPtr seqId pos0 pos1 divisor
          = [.seq_div seqId (if pos0 < 0 then -1 else pos0)
              (if pos1 < 0 then -1 else pos1) divisor]
      ∧ (Java_com_cortex_app_LlamaEngine_nativeDivideKvCachePositions contextPtr seqId pos0 pos1 divisor).length = 1) := by
  constructor
  · intro hd
    have h : Java_com_cortex_app_LlamaEngine_nativeDivideKvCachePositions contextPtr seqId pos0 pos1 divisor = [] := by
      unfold Java_com_cortex_app_LlamaEngine_nativeDivideKvCachePositions
      by_cases hctx : contextPtr = 0
      · rw [if_pos hctx]
      · rw [if_neg hctx, if_pos hd]
    refine ⟨h, ?_⟩
    intro σ apply mem
    rw [h]
    rfl
  · intro hctx hd
    have h : Java_com_cortex_app_LlamaEngine_nativeDivideKvCachePositions contextPtr seqId pos0 pos1 divisor
        = [.seq_div seqId (if pos0 < 0 then -1 else pos0)
            (if pos1 < 0 then -1 else pos1) divisor] := by
      unfold Java_com_cortex_app_LlamaEngine_nativeDivideKvCachePositions
      rw [if_neg hctx, if_neg (by omega)]
    refine ⟨h, ?_⟩
    rw [h]
    rfl

/-- C16 on concrete calls: divisor 1 and divisor 4 on the range (-7, 100) of
sequence 0. -/
theorem C16_divide_guard_witness :
    ((1 : Int) ≤ 1
      ∧ Java_com_cortex_app_LlamaEngine_nativeDivideKvCachePositions 1 0 (-7) 100 1 = []
      ∧ ∀ (σ : Type) (apply : MemoryOp → σ → σ) (mem : σ),
          apply_memory_ops apply (Java_com_cortex_app_LlamaEngine_nativeDivideKvCachePositions 1 0 (-7) 100 1) mem = mem)
    ∧ ((1 : Int) ≠ 0 ∧ (1 : Int) < 4
      ∧ Java_com_cortex_app_LlamaEngine_nativeDivideKvCachePositions 1 0 (-7) 100 4
          = [.seq_div 0 (if (-7 : Int) < 0 then -1 else -7)
              (if (100 : Int) < 0 then -1 else 100) 4]
      ∧ (Java_com_cortex_app_LlamaEngine_nativeDivideKvCachePositions 1 0 (-7) 100 4).length = 1) :=
  ⟨⟨by decide, (C16_divide_guard 1 0 (-7) 100 1).1 (by decide)⟩,
    ⟨by decide, by decide, (C16_divide_guard 1 0 (-7) 100 4).2 (by decide) (by decide)⟩⟩

/-- C17: on a context (and, for the divide, with a divisor `> 1`), the remove, copy,
shift and divide operations each hand the engine the range
`(norm_pos pos0, norm_pos pos1)`; `norm_pos` sends every negative position to `-1`
(so any two negative values give the same engine call), leaves every non-negative
position unchanged, and is idempotent. -/
theorem C17_range_translation (contextPtr seqId dstSeqId pos0 pos1 delta divisor : Int)
    (seq_rm_result : Bool) (hctx : contextPtr ≠ 0) (hdiv : 1 < divisor) :
    (Java_com_cortex_app_LlamaEngine_nativeRemoveKvCacheTokens contextPtr seq_rm_result seqId pos0 pos1).1
        = [.seq_rm seqId (norm_pos pos0) (norm_pos pos1)]
    ∧ Java_com_cortex_app_LlamaEngine_nativeCopyKvCacheSequence contextPtr seqId dstSeqId pos0 pos1
        = [.seq_cp seqId dstSeqId (norm_pos pos0) (norm_pos pos1)]
    ∧ Java_com_cortex_app_LlamaEngine_nativeShiftKvCachePositions contextPtr seqId pos0 pos1 delta
        = [.seq_add seqId (norm_pos pos0) (norm_pos pos1) delta]
    ∧ Java_com_cortex_app_LlamaEngine_nativeDivideKvCachePositions contextPtr seqId pos0 pos1 divisor
        = [.seq_div seqId (norm_pos pos0) (norm_pos pos1) divisor]
    ∧ (∀ p : Int, p < 0 → norm_pos p = -1)
    ∧ (∀ p q : Int, p < 0 → q < 0 → norm_pos p = norm_pos q)
    ∧ (∀ p : Int, 0 ≤ p → norm_pos p = p)
    ∧ (∀ p : Int, norm_pos (norm_pos p) = norm_pos p) := by
  refine ⟨?_, ?_, ?_, ?_, ?_, ?_, ?_, ?_⟩
  · simp [Java_com_cortex_app_LlamaEngine_nativeRemoveKvCacheTokens, norm_pos, hctx]
  · simp [Java_com_cortex_app_LlamaEngine_nativeCopyKvCacheSequence, norm_pos, hctx]
  · simp [Java_com_cortex_app_LlamaEngine_nativeShiftKvCachePositions, norm_pos, hctx]
  · have hd : ¬ divisor ≤ 1 := by omega
    simp [Java_com_cortex_app_LlamaEngine_nativeDivideKvCachePositions, norm_pos, hctx, hd]
  · intro p hp
    simp [norm_pos, hp]
  · intro p q hp hq
    simp [norm_pos, hp, hq]
  · intro p hp
    have : ¬ p < 0 := by omega
    simp [norm_pos, this]
  · intro p
    unfold norm_pos
    split
    · simp
    · rename_i h
      simp [h]

/-- C17 on concrete calls: the range (-7, 100) of sequence 0 on context 1. -/
theorem C17_range_translation_witness :
    ((1 : Int) ≠ 0 ∧ (1 : Int) < 4)
    ∧ (Java_com_cortex_app_LlamaEngine_nativeRemoveKvCacheTokens 1 true 0 (-7) 100).1
        = [.seq_rm 0 (norm_pos (-7)) (norm_pos 100)]
    ∧ Java_com_cortex_app_LlamaEngine_nativeCopyKvCacheSequence 1 0 2 (-7) 100
        = [.seq_cp 0 2 (norm_pos (-7)) (norm_pos 100)]
    ∧ Java_com_cortex_app_LlamaEngine_nativeShiftKvCachePositions 1 0 (-7) 100 5
        = [.seq_add 0 (norm_pos (-7)) (norm_pos 100) 5]
    ∧ Java_com_cortex_app_LlamaEngine_nativeDivideKvCachePositions 1 0 (-7) 100 4
        = [.seq_div 0 (norm_pos (-7)) (norm_pos 100) 4]
    ∧ (∀ p : Int, p < 0 → norm_pos p = -1)
    ∧ (∀ p q : Int, p < 0 → q < 0 → norm_pos p = norm_pos q)
    ∧ (∀ p : Int, 0 ≤ p → norm_pos p = p)
    ∧ (∀ p : Int, norm_pos (norm_pos p) = norm_pos p) :=
  ⟨⟨by decide, by decide⟩,
    C17_range_translation 1 0 2 (-7) 100 5 4 true (by decide) (by decide)⟩


/-! ## Theorems: passes, and induction over the loop -/

/-- What `feed_token` returns when it does not write out of bounds. -/
theorem feed_token_pass (E : Engine) (st : GenerationState) (tok : llama_token) :
    (∀ st', feed_token E st tok = .next st' →
      E.decode st.trace [⟨tok, st.n_cur, [0], true⟩] = 0
        ∧ st' = fed_state st tok 0)
    ∧ (∀ x st', feed_token E st tok = .stop x st' →
      E.decode st.trace [⟨tok, st.n_cur, [0], true⟩] ≠ 0 ∧ x = .failed_decode
        ∧ st' = fed_state st tok (E.decode st.trace [⟨tok, st.n_cur, [0], true⟩])) := by
  unfold feed_token
  cases hadd : batch_add (batch_clear st.batch) tok st.n_cur [0] true with
  | none => simp
  | some b =>
    obtain ⟨-, -, h3⟩ := batch_add_some _ _ _ _ _ _ hadd
    have hb : b = { st.batch with entries := [⟨tok, st.n_cur, [0], true⟩] } := by
      unfold batch_add at hadd
      split at hadd
      · simp only [Option.some.injEq] at hadd
        rw [← hadd]
        simp [batch_clear]
      · simp at hadd
    have he : b.entries = [⟨tok, st.n_cur, [0], true⟩] := by rw [hb]
    simp only [he]
    by_cases hret : E.decode st.trace [⟨tok, st.n_cur, [0], true⟩] = 0
    · constructor
      · intro st' h
        simp only [hret, ne_eq, not_true_eq_false, if_false, Step.next.injEq] at h
        refine ⟨hret, ?_⟩
        rw [← h, hb]
        rfl
      · intro x st' h
        simp [hret] at h
    · constructor
      · intro st' h
        simp [hret] at h
      · intro x st' h
        simp only [ne_eq, hret, not_false_eq_true, if_true, Step.stop.injEq] at h
        refine ⟨hret, h.1.symm, ?_⟩
        rw [← h.2, hb]
        rfl

/-- Every pass that `loop_body` computes is one of the five passes of `Pass`. -/
theorem loop_body_pass (E : Engine) (params : GenerateParams) (st : GenerationState) :
    (∀ st', loop_body E params st = .next st' → Pass E params st none st')
    ∧ (∀ x st', loop_body E params st = .stop x st' → Pass E params st (some x) st') := by
  unfold loop_body
  cases hs : E.sample st.trace with
  | none =>
    constructor
    · intro st' h
      simp at h
    · intro x st' h
      simp only [Step.stop.injEq] at h
      rw [← h.1, ← h.2]
      exact Pass.exception hs
  | some tok =>
    simp only
    by_cases he : E.vocab.is_eog tok = true
    · rw [if_pos he]
      constructor
      · intro st' h
        simp at h
      · intro x st' h
        simp only [Step.stop.injEq] at h
        rw [← h.1, ← h.2]
        exact Pass.eog tok hs he
    · rw [if_neg he]
      have he' : E.vocab.is_eog tok = false := by simpa using he
      by_cases hn : (E.vocab.token_to_piece tok).1 ≥ 0
      · rw [if_pos hn]
        by_cases hm : stop_triggered
            (st.accumulatedOutput ++ piece_bytes (E.vocab.token_to_piece tok))
            params.stopSequences = true
        · rw [if_pos hm]
          constructor
          · intro st' h
            simp at h
          · intro x st' h
            simp only [Step.stop.injEq] at h
            rw [← h.1, ← h.2]
            exact Pass.stop tok hs he' hn hm
        · rw [if_neg hm]
          have hm' : stop_triggered
              (st.accumulatedOutput ++ piece_bytes (E.vocab.token_to_piece tok))
              params.stopSequences = false := by simpa using hm
          obtain ⟨h1, h2⟩ := feed_token_pass E
            { st with
              accumulatedOutput :=
                st.accumulatedOutput ++ piece_bytes (E.vocab.token_to_piece tok)
              trace := st.trace ++ [Event.sample (some tok)]
                ++ [Event.on_token (piece_bytes (E.vocab.token_to_piece tok))] } tok
          constructor
          · intro st' h
            obtain ⟨hret, hst⟩ := h1 st' h
            rw [hst]
            exact Pass.emit tok 0 none hs he' hn hm' hret (by simp [decode_outcome])
          · intro x st' h
            obtain ⟨hret, hx, hst⟩ := h2 x st' h
            rw [hst, hx]
            exact Pass.emit tok _ _ hs he' hn hm' rfl (by
              unfold decode_outcome
              rw [if_neg hret])
      · rw [if_neg hn]
        have hn' : (E.vocab.token_to_piece tok).1 < 0 := by omega
        obtain ⟨h1, h2⟩ := feed_token_pass E
          { st with trace := st.trace ++ [Event.sample (some tok)] } tok
        constructor
        · intro st' h
          obtain ⟨hret, hst⟩ := h1 st' h
          rw [hst]
          exact Pass.skip tok 0 none hs he' hn' hret (by simp [decode_outcome])
        · intro x st' h
          obtain ⟨hret, hx, hst⟩ := h2 x st' h
          rw [hst, hx]
          exact Pass.skip tok _ _ hs he' hn' rfl (by
            unfold decode_outcome
            rw [if_neg hret])

/-- Induction over the loop: a property that holds at loop entry and that every
pass reaching the end of the body preserves gives, when the loop is left, what the
breaking passes and the failing loop condition give. -/
theorem generation_loop_induct (E : Engine) (params : GenerateParams)
    (Inv : GenerationState → Prop) (Post : Status → GenerationState → Prop)
    (hpass : ∀ st st', Inv st → st.n_decode < params.maxTokens →
      Pass E params st none st' → Inv st')
    (hbreak : ∀ st x st', Inv st → st.n_decode < params.maxTokens →
      Pass E params st (some x) st' → Post x st')
    (hbudget : ∀ st, Inv st → ¬ st.n_decode < params.maxTokens →
      Post .stopped_budget st) :
    ∀ (fuel : Nat) (st : GenerationState) (x : Status) (st' : GenerationState),
      Inv st → generation_loop E params fuel st = .done (x, st') → Post x st' := by
  intro fuel
  induction fuel with
  | zero =>
    intro st x st' _ h
    simp [generation_loop] at h
  | succ fuel ih =>
    intro st x st' hinv h
    unfold generation_loop at h
    by_cases hlt : st.n_decode < params.maxTokens
    · rw [if_pos hlt] at h
      cases hb : loop_body E params st with
      | next st1 =>
        rw [hb] at h
        exact ih st1 x st' (hpass st st1 hinv hlt ((loop_body_pass E params st).1 st1 hb)) h
      | stop x1 st1 =>
        rw [hb] at h
        simp only [Run.done.injEq, Prod.mk.injEq] at h
        rw [← h.1, ← h.2]
        exact hbreak st x1 st1 hinv hlt ((loop_body_pass E params st).2 x1 st1 hb)
      | out_of_bounds =>
        rw [hb] at h
        simp at h
    · rw [if_neg hlt] at h
      simp only [Run.done.injEq, Prod.mk.injEq] at h
      rw [← h.1, ← h.2]
      exact hbudget st hinv hlt

/-- The three shapes of a finished run, with the loop run of the third shape. -/
theorem generate_worker_run (E : Engine) (params : GenerateParams) (fuel : Nat)
    (r : WorkerResult) (h : generate_worker E params fuel = .done r) :
    (E.attach_ok = false ∧ r = ⟨.failed_attach, [], [.attach false]⟩)
    ∨ (E.attach_ok = true ∧ ∃ b ret, ret ≠ 0
        ∧ r = ⟨.failed_decode, [], preamble E params ++ .decode b ret :: cleanup⟩)
    ∨ (E.attach_ok = true ∧ ∃ batch st,
        generation_loop E params fuel (loop_entry E params batch) = .done (r.status, st)
        ∧ r.accumulatedOutput = st.accumulatedOutput
        ∧ r.trace = st.trace ++ cleanup) := by
  unfold generate_worker at h
  cases hatt : E.attach_ok with
  | false =>
    left
    simp only [hatt, Bool.not_false, if_true, Run.done.injEq] at h
    exact ⟨rfl, h.symm⟩
  | true =>
    right
    simp only [hatt, Bool.not_true, Bool.false_eq_true, if_false] at h
    cases hpre : prefill_add (llama_batch_init 4096 1) (tokens_list E.vocab params) 0 with
    | none => simp [hpre] at h
    | some b0 =>
      simp only [hpre] at h
      cases hset : batch_set_last_logits b0 with
      | none => simp [hset] at h
      | some b1 =>
        simp only [hset] at h
        split at h
        · left
          rename_i hret
          simp only [Run.done.injEq] at h
          refine ⟨rfl, b1.entries, _, hret, ?_⟩
          rw [← h]
          simp [preamble, cleanup]
        · right
          rename_i hret
          have hret0 : E.decode [.attach true, .memory_clear,
              .sampler_chain (build_sampler_chain params E.vocab), .batch_init 4096 1]
              b1.entries = 0 := not_not.mp hret
          rw [hret0] at h
          cases hloop : generation_loop E params fuel (loop_entry E params b1) with
          | done x =>
            obtain ⟨status, st⟩ := x
            have hloop' := hloop
            simp only [loop_entry, preamble] at hloop'
            rw [hloop'] at h
            simp only [Run.done.injEq] at h
            refine ⟨rfl, b1, st, ?_, ?_, ?_⟩
            · rw [← h]
              exact hloop
            · rw [← h]
            · rw [← h]
              rfl
          | out_of_bounds =>
            simp only [loop_entry, preamble] at hloop
            rw [hloop] at h
            simp at h
          | out_of_fuel =>
            simp only [loop_entry, preamble] at hloop
            rw [hloop] at h
            simp at h


/-! ## Theorems: the shape of the trace -/

/-- A pass only appends to the trace, and what it appends are loop events. -/
theorem pass_trace (E : Engine) (params : GenerateParams) (st st' : GenerationState)
    (o : Option Status) (h : Pass E params st o st') :
    ∃ ext, st'.trace = st.trace ++ ext ∧ ∀ e ∈ ext, e.isLoopEvent = true := by
  cases h with
  | exception hs => exact ⟨[.sample none], rfl, by simp [Event.isLoopEvent]⟩
  | eog tok hs he => exact ⟨[.sample (some tok)], rfl, by simp [Event.isLoopEvent]⟩
  | stop tok hs he hn hm =>
    exact ⟨[.sample (some tok)], rfl, by simp [Event.isLoopEvent]⟩
  | emit tok ret o hs he hn hm hret ho =>
    refine ⟨[.sample (some tok), .on_token (piece_bytes (E.vocab.token_to_piece tok)),
      .decode [⟨tok, st.n_cur, [0], true⟩] ret], ?_, by simp [Event.isLoopEvent]⟩
    simp [fed_state]
  | skip tok ret o hs he hn hret ho =>
    refine ⟨[.sample (some tok), .decode [⟨tok, st.n_cur, [0], true⟩] ret], ?_,
      by simp [Event.isLoopEvent]⟩
    simp [fed_state]

/-- The loop only appends loop events to the trace. -/
theorem generation_loop_trace (E : Engine) (params : GenerateParams) (fuel : Nat)
    (st : GenerationState) (x : Status) (st' : GenerationState)
    (h : generation_loop E params fuel st = .done (x, st')) :
    ∃ ext, st'.trace = st.trace ++ ext ∧ ∀ e ∈ ext, e.isLoopEvent = true := by
  refine generation_loop_induct E params
    (fun s => ∃ ext, s.trace = st.trace ++ ext ∧ ∀ e ∈ ext, e.isLoopEvent = true)
    (fun _ s => ∃ ext, s.trace = st.trace ++ ext ∧ ∀ e ∈ ext, e.isLoopEvent = true)
    ?_ ?_ ?_ fuel st x st' ⟨[], by simp, by simp⟩ h
  · rintro s s' ⟨ext, hext, hall⟩ _ hp
    obtain ⟨ext', hext', hall'⟩ := pass_trace E params s s' none hp
    refine ⟨ext ++ ext', by rw [hext', hext, List.append_assoc], ?_⟩
    intro e he
    rcases List.mem_append.mp he with h1 | h1
    · exact hall e h1
    · exact hall' e h1
  · rintro s y s' ⟨ext, hext, hall⟩ _ hp
    obtain ⟨ext', hext', hall'⟩ := pass_trace E params s s' (some y) hp
    refine ⟨ext ++ ext', by rw [hext', hext, List.append_assoc], ?_⟩
    intro e he
    rcases List.mem_append.mp he with h1 | h1
    · exact hall e h1
    · exact hall' e h1
  · intro s hs _
    exact hs

/-- The trace of a finished run that attached: the preamble, the prefill decode,
loop events, the cleanup. -/
theorem generate_worker_trace (E : Engine) (params : GenerateParams) (fuel : Nat)
    (r : WorkerResult) (h : generate_worker E params fuel = .done r)
    (hatt : E.attach_ok = true) :
    ∃ b ret ext, r.trace = preamble E params ++ .decode b ret :: (ext ++ cleanup)
      ∧ ∀ e ∈ ext, e.isLoopEvent = true := by
  rcases generate_worker_run E params fuel r h with
    ⟨hno, -⟩ | ⟨-, b, ret, -, hr⟩ | ⟨-, batch, st, hloop, -, htr⟩
  · rw [hatt] at hno
    exact absurd hno (by decide)
  · refine ⟨b, ret, [], ?_, by simp⟩
    rw [hr]
    rfl
  · obtain ⟨ext, hext, hall⟩ := generation_loop_trace E params fuel _ _ _ hloop
    refine ⟨batch.entries, 0, ext, ?_, hall⟩
    rw [htr, hext]
    simp [loop_entry]

/-- C18: in every finished run, whatever the prompt, the configuration and the
behaviour of the engine, the memory clear comes before every decode call: the part
of the trace before any decode call starts with the attach and the clear; and a
run that attached starts with the attach, the clear, the building of the sampler
chain, the allocation of the batch and the prefill decode, in this order. -/
theorem C18_memory_cleared_first (E : Engine) (params : GenerateParams) (fuel : Nat)
    (r : WorkerResult) (hrun : generate_worker E params fuel = .done r) :
    (∀ pre b ret post, r.trace = pre ++ .decode b ret :: post →
      ∃ pre', pre = .attach true :: .memory_clear :: pre')
    ∧ (E.attach_ok = true → ∃ b ret rest,
        r.trace = [.attach true, .memory_clear,
          .sampler_chain (build_sampler_chain params E.vocab), .batch_init 4096 1,
          .decode b ret] ++ rest) := by
  constructor
  · intro pre b ret post hsplit
    cases hatt : E.attach_ok with
    | false =>
      rcases generate_worker_run E params fuel r hrun with
        ⟨-, hr⟩ | ⟨hyes, -⟩ | ⟨hyes, -⟩
      · rw [hr] at hsplit
        have hmem : Event.decode b ret ∈ [Event.attach false] := by
          have hs : [Event.attach false] = pre ++ Event.decode b ret :: post := hsplit
          rw [hs]
          simp
        simp at hmem
      · rw [hatt] at hyes
        exact absurd hyes (by decide)
      · rw [hatt] at hyes
        exact absurd hyes (by decide)
    | true =>
      obtain ⟨b0, ret0, ext, htr, -⟩ := generate_worker_trace E params fuel r hrun hatt
      rw [hsplit] at htr
      rcases List.append_eq_append_iff.mp htr with ⟨a', h1, h2⟩ | ⟨c', h1, -⟩
      · cases a' with
        | nil =>
          rw [List.append_nil] at h1
          exact ⟨_, by rw [← h1]; rfl⟩
        | cons a a'' =>
          simp only [List.cons_append, List.cons.injEq] at h2
          have hmem : Event.decode b ret ∈ preamble E params := by
            rw [h1, ← h2.1]
            simp
          simp [preamble] at hmem
      · exact ⟨_, by rw [h1]; rfl⟩
  · intro hatt
    obtain ⟨b0, ret0, ext, htr, -⟩ := generate_worker_trace E params fuel r hrun hatt
    exact ⟨b0, ret0, ext ++ cleanup, by rw [htr]; rfl⟩

/-- C18 on the demo data: the run whose second decode fails. -/
theorem C18_memory_cleared_first_witness :
    generate_worker engine_decode_fails params_plain 3 = .done result_decode_fails
    ∧ (∀ pre b ret post, result_decode_fails.trace = pre ++ .decode b ret :: post →
      ∃ pre', pre = .attach true :: .memory_clear :: pre')
    ∧ (engine_decode_fails.attach_ok = true → ∃ b ret rest,
        result_decode_fails.trace = [.attach true, .memory_clear,
          .sampler_chain (build_sampler_chain params_plain engine_decode_fails.vocab),
          .batch_init 4096 1, .decode b ret] ++ rest) :=
  ⟨rfl, C18_memory_cleared_first engine_decode_fails params_plain 3 result_decode_fails rfl⟩

/-- C19: in every finished run that attached, whatever the exit path, the trace ends
with the release of the batch, the release of the sampler chain and the detach, in
this order, and none of the three occurs before: each happens exactly once, the
release of the batch is followed by the release of the chain and the detach only,
the release of the chain by the detach only, so no decode call and no sampler call
follows the release. -/
theorem C19_released_exactly_once (E : Engine) (params : GenerateParams) (fuel : Nat)
    (r : WorkerResult) (hrun : generate_worker E params fuel = .done r)
    (hatt : E.attach_ok = true) :
    (∃ body, r.trace = body ++ [.batch_free, .sampler_free, .detach]
      ∧ Event.batch_free ∉ body ∧ Event.sampler_free ∉ body ∧ Event.detach ∉ body)
    ∧ r.trace.count .batch_free = 1 ∧ r.trace.count .sampler_free = 1
    ∧ r.trace.count .detach = 1
    ∧ (∀ pre post, r.trace = pre ++ .batch_free :: post →
        post = [.sampler_free, .detach])
    ∧ (∀ pre post, r.trace = pre ++ .sampler_free :: post → post = [.detach])
    ∧ (∀ pre post, r.trace = pre ++ .detach :: post → post = []) := by
  obtain ⟨b0, ret0, ext, htr, hall⟩ := generate_worker_trace E params fuel r hrun hatt
  have hbody : ∀ e, e.isLoopEvent = false → e ∉ preamble E params →
      e ∉ preamble E params ++ .decode b0 ret0 :: ext := by
    intro e he hpre hmem
    rcases List.mem_append.mp hmem with h1 | h1
    · exact hpre h1
    · rcases List.mem_cons.mp h1 with h2 | h2
      · rw [h2] at he
        simp [Event.isLoopEvent] at he
      · have := hall e h2
        rw [he] at this
        exact absurd this (by decide)
  have h1 := hbody .batch_free rfl (by simp [preamble])
  have h2 := hbody .sampler_free rfl (by simp [preamble])
  have h3 := hbody .detach rfl (by simp [preamble])
  have hform : r.trace = (preamble E params ++ .decode b0 ret0 :: ext)
      ++ [.batch_free, .sampler_free, .detach] := by
    rw [htr]
    simp [cleanup]
  refine ⟨⟨_, hform, h1, h2, h3⟩, ?_, ?_, ?_, ?_, ?_, ?_⟩
  · rw [hform, List.count_append, List.count_eq_zero_of_not_mem h1]
    rfl
  · rw [hform, List.count_append, List.count_eq_zero_of_not_mem h2]
    rfl
  · rw [hform, List.count_append, List.count_eq_zero_of_not_mem h3]
    rfl
  · intro pre post hsplit
    rw [hform] at hsplit
    exact (split_unique _ [.sampler_free, .detach] pre post _ _ hsplit.symm h1
      (by simp)).2.2
  · intro pre post hsplit
    rw [hform] at hsplit
    have hform' : pre ++ Event.sampler_free :: post
        = (preamble E params ++ .decode b0 ret0 :: ext ++ [.batch_free])
          ++ .sampler_free :: [.detach] := by
      rw [← hsplit]
      simp
    exact (split_unique _ [.detach] pre post _ _ hform'
      (by
        intro hmem
        rcases List.mem_append.mp hmem with h | h
        · exact h2 h
        · simp at h)
      (by simp)).2.2
  · intro pre post hsplit
    rw [hform] at hsplit
    have hform' : pre ++ Event.detach :: post
        = (preamble E params ++ .decode b0 ret0 :: ext ++ [.batch_free, .sampler_free])
          ++ .detach :: [] := by
      rw [← hsplit]
      simp
    exact (split_unique _ [] pre post _ _ hform'
      (by
        intro hmem
        rcases List.mem_append.mp hmem with h | h
        · exact h3 h
        · simp at h)
      (by simp)).2.2

/-- C19 on the demo data: the run that ends on a stop sequence. -/
theorem C19_released_exactly_once_witness :
    (generate_worker engine_demo params_stop_b 3 = .done result_stop_b
      ∧ engine_demo.attach_ok = true)
    ∧ (∃ body, result_stop_b.trace = body ++ [.batch_free, .sampler_free, .detach]
      ∧ Event.batch_free ∉ body ∧ Event.sampler_free ∉ body ∧ Event.detach ∉ body)
    ∧ result_stop_b.trace.count .batch_free = 1
    ∧ result_stop_b.trace.count .sampler_free = 1
    ∧ result_stop_b.trace.count .detach = 1
    ∧ (∀ pre post, result_stop_b.trace = pre ++ .batch_free :: post →
        post = [.sampler_free, .detach])
    ∧ (∀ pre post, result_stop_b.trace = pre ++ .sampler_free :: post → post = [.detach])
    ∧ (∀ pre post, result_stop_b.trace = pre ++ .detach :: post → post = []) :=
  ⟨⟨rfl, rfl⟩, C19_released_exactly_once engine_demo params_stop_b 3 result_stop_b rfl rfl⟩


/-! ## Theorems: order of the chunks -/

theorem accumulated_append (vocab : llama_vocab) (a b : List Event) :
    accumulated vocab (a ++ b) = accumulated vocab a ++ accumulated vocab b := by
  induction a with
  | nil => rfl
  | cons e rest ih =>
    cases e with
    | sample r => cases r <;> simp [accumulated, ih]
    | _ => simp [accumulated, ih]

/-- A trace in which nothing is delivered satisfies the ordering property. -/
theorem chunkInv_of_quiet (vocab : llama_vocab) (trace : List Event)
    (h : delivered trace = []) : ChunkInv vocab trace := by
  constructor
  · exact ⟨[], List.nil_sublist _, by rw [h]; rfl⟩
  · rintro pre ⟨t, ht⟩
    have hd : delivered pre = [] := by
      have := delivered_append pre t
      rw [ht, h] at this
      exact (List.append_eq_nil.mp this.symm).1
    rw [hd]
    exact List.nil_prefix

/-- Adding one event keeps "at every point" when the property holds at the new
end. -/
theorem at_every_point_concat (vocab : llama_vocab) (trace : List Event) (e : Event)
    (h : ∀ pre, pre <+: trace → (delivered pre).flatten <+: accumulated vocab pre)
    (hend : (delivered (trace ++ [e])).flatten <+: accumulated vocab (trace ++ [e])) :
    ∀ pre, pre <+: trace ++ [e] → (delivered pre).flatten <+: accumulated vocab pre := by
  intro pre hpre
  rcases List.prefix_concat_iff.mp hpre with h1 | h1
  · rw [h1]
    exact hend
  · exact h pre h1

/-- Adding events that deliver nothing keeps the subsequence of emitted tokens. -/
theorem emitted_append_quiet (vocab : llama_vocab) (trace ext : List Event)
    (h : ∃ emitted : List llama_token, List.Sublist emitted (sampled_tokens trace)
      ∧ delivered trace = emitted.map (fun tok => piece_bytes (vocab.token_to_piece tok)))
    (hq : delivered ext = []) :
    ∃ emitted : List llama_token, List.Sublist emitted (sampled_tokens (trace ++ ext))
      ∧ delivered (trace ++ ext)
          = emitted.map (fun tok => piece_bytes (vocab.token_to_piece tok)) := by
  obtain ⟨em, hsub, hd⟩ := h
  refine ⟨em, ?_, ?_⟩
  · rw [sampled_tokens_append]
    exact hsub.trans (List.sublist_append_left _ _)
  · rw [delivered_append, hq, List.append_nil]
    exact hd

/-- A quiet event at the end keeps the ordering property. -/
theorem chunkInv_concat_quiet (vocab : llama_vocab) (trace : List Event) (e : Event)
    (h : ChunkInv vocab trace) (hd : delivered [e] = [])
    (ha : accumulated vocab [e] = []) : ChunkInv vocab (trace ++ [e]) := by
  constructor
  · exact emitted_append_quiet vocab trace [e] h.emitted hd
  · apply at_every_point_concat vocab trace e h.at_every_point
    rw [delivered_append, accumulated_append, hd, ha, List.append_nil, List.append_nil]
    exact h.at_every_point trace (List.prefix_refl _)

/-- The ordering property along the loop: it holds when the loop is left, the
accumulator is the one replayed from the trace, and unless the loop is left on a
stop sequence the chunks concatenate to the accumulator. -/
theorem generation_loop_chunks (E : Engine) (params : GenerateParams) (fuel : Nat)
    (st : GenerationState) (x : Status) (st' : GenerationState)
    (hinv : ChunkInv E.vocab st.trace)
    (hacc : st.accumulatedOutput = accumulated E.vocab st.trace)
    (heq : (delivered st.trace).flatten = accumulated E.vocab st.trace)
    (h : generation_loop E params fuel st = .done (x, st')) :
    ChunkInv E.vocab st'.trace
      ∧ st'.accumulatedOutput = accumulated E.vocab st'.trace
      ∧ (x ≠ .stopped_stop_sequence →
          (delivered st'.trace).flatten = accumulated E.vocab st'.trace) := by
  have step : ∀ (s s' : GenerationState) (o : Option Status),
      (ChunkInv E.vocab s.trace ∧ s.accumulatedOutput = accumulated E.vocab s.trace
        ∧ (delivered s.trace).flatten = accumulated E.vocab s.trace) →
      Pass E params s o s' →
      ChunkInv E.vocab s'.trace ∧ s'.accumulatedOutput = accumulated E.vocab s'.trace
        ∧ (o ≠ some .stopped_stop_sequence →
            (delivered s'.trace).flatten = accumulated E.vocab s'.trace) := by
    rintro s s' o ⟨hc, ha, he⟩ hp
    cases hp with
    | exception hs =>
      have hA : accumulated E.vocab (s.trace ++ [Event.sample none])
          = accumulated E.vocab s.trace := by
        rw [accumulated_append]
        simp [accumulated]
      have hD : delivered (s.trace ++ [Event.sample none]) = delivered s.trace := by
        rw [delivered_append]
        simp [delivered]
      refine ⟨chunkInv_concat_quiet _ _ _ hc rfl rfl, ?_, ?_⟩
      · show s.accumulatedOutput = _
        rw [hA]
        exact ha
      · intro _
        show (delivered (s.trace ++ _)).flatten = _
        rw [hA, hD]
        exact he
    | eog tok hs heog =>
      have hA1 : accumulated E.vocab [Event.sample (some tok)] = [] := by
        simp [accumulated, heog]
      have hA : accumulated E.vocab (s.trace ++ [Event.sample (some tok)])
          = accumulated E.vocab s.trace := by
        rw [accumulated_append, hA1, List.append_nil]
      have hD : delivered (s.trace ++ [Event.sample (some tok)]) = delivered s.trace := by
        rw [delivered_append]
        simp [delivered]
      refine ⟨chunkInv_concat_quiet _ _ _ hc rfl hA1, ?_, ?_⟩
      · show s.accumulatedOutput = _
        rw [hA]
        exact ha
      · intro _
        show (delivered (s.trace ++ _)).flatten = _
        rw [hA, hD]
        exact he
    | stop tok hs heog hn hm =>
      have hA : accumulated E.vocab (s.trace ++ [Event.sample (some tok)])
          = accumulated E.vocab s.trace ++ piece_bytes (E.vocab.token_to_piece tok) := by
        rw [accumulated_append]
        simp [accumulated, heog, hn]
      have hD : delivered (s.trace ++ [Event.sample (some tok)]) = delivered s.trace := by
        rw [delivered_append]
        simp [delivered]
      refine ⟨⟨emitted_append_quiet _ _ _ hc.emitted rfl, ?_⟩, ?_, ?_⟩
      · apply at_every_point_concat _ _ _ hc.at_every_point
        rw [hA, hD, he]
        exact List.prefix_append _ _
      · show s.accumulatedOutput ++ _ = _
        rw [hA, ha]
      · intro hne
        exact absurd rfl hne
    | emit tok ret o hs heog hn hm hret ho =>
      have hA1 : accumulated E.vocab (s.trace ++ [Event.sample (some tok)])
          = accumulated E.vocab s.trace ++ piece_bytes (E.vocab.token_to_piece tok) := by
        rw [accumulated_append]
        simp [accumulated, heog, hn]
      have hD1 : delivered (s.trace ++ [Event.sample (some tok)]) = delivered s.trace := by
        rw [delivered_append]
        simp [delivered]
      have hA2 : accumulated E.vocab (s.trace ++ [Event.sample (some tok)]
            ++ [Event.on_token (piece_bytes (E.vocab.token_to_piece tok))])
          = accumulated E.vocab s.trace ++ piece_bytes (E.vocab.token_to_piece tok) := by
        rw [accumulated_append, hA1]
        simp [accumulated]
      have hD2 : delivered (s.trace ++ [Event.sample (some tok)]
            ++ [Event.on_token (piece_bytes (E.vocab.token_to_piece tok))])
          = delivered s.trace ++ [piece_bytes (E.vocab.token_to_piece tok)] := by
        rw [delivered_append, hD1]
        simp [delivered]
      have hA3 : accumulated E.vocab (s.trace ++ [Event.sample (some tok)]
            ++ [Event.on_token (piece_bytes (E.vocab.token_to_piece tok))]
            ++ [Event.decode [⟨tok, s.n_cur, [0], true⟩] ret])
          = accumulated E.vocab s.trace ++ piece_bytes (E.vocab.token_to_piece tok) := by
        rw [accumulated_append, hA2]
        simp [accumulated]
      have hD3 : delivered (s.trace ++ [Event.sample (some tok)]
            ++ [Event.on_token (piece_bytes (E.vocab.token_to_piece tok))]
            ++ [Event.decode [⟨tok, s.n_cur, [0], true⟩] ret])
          = delivered s.trace ++ [piece_bytes (E.vocab.token_to_piece tok)] := by
        rw [delivered_append, hD2]
        simp [delivered]
      have hflat : (delivered s.trace ++ [piece_bytes (E.vocab.token_to_piece tok)]).flatten
          = accumulated E.vocab s.trace ++ piece_bytes (E.vocab.token_to_piece tok) := by
        rw [List.flatten_append, he]
        simp
      refine ⟨⟨?_, ?_⟩, ?_, ?_⟩
      · obtain ⟨em, hsub, hd⟩ := hc.emitted
        refine ⟨em ++ [tok], ?_, ?_⟩
        · show List.Sublist _ (sampled_tokens (s.trace ++ [Event.sample (some tok)]
            ++ [Event.on_token (piece_bytes (E.vocab.token_to_piece tok))]
            ++ [Event.decode [⟨tok, s.n_cur, [0], true⟩] ret]))
          rw [sampled_tokens_append, sampled_tokens_append, sampled_tokens_append]
          simp only [sampled_tokens, List.append_nil]
          exact List.Sublist.append hsub (List.Sublist.refl _)
        · show delivered (s.trace ++ [Event.sample (some tok)]
            ++ [Event.on_token (piece_bytes (E.vocab.token_to_piece tok))]
            ++ [Event.decode [⟨tok, s.n_cur, [0], true⟩] ret]) = _
          rw [hD3, hd]
          simp
      · show ∀ pre, pre <+: (s.trace ++ [Event.sample (some tok)]
            ++ [Event.on_token (piece_bytes (E.vocab.token_to_piece tok))]
            ++ [Event.decode [⟨tok, s.n_cur, [0], true⟩] ret]) → _
        apply at_every_point_concat
        · apply at_every_point_concat
          · apply at_every_point_concat _ _ _ hc.at_every_point
            rw [hA1, hD1, he]
            exact List.prefix_append _ _
          · rw [hA2, hD2, hflat]
        · rw [hA3, hD3, hflat]
      · show s.accumulatedOutput ++ _ = accumulated E.vocab (s.trace
            ++ [Event.sample (some tok)]
            ++ [Event.on_token (piece_bytes (E.vocab.token_to_piece tok))]
            ++ [Event.decode [⟨tok, s.n_cur, [0], true⟩] ret])
        rw [hA3, ha]
      · intro _
        show (delivered (s.trace ++ [Event.sample (some tok)]
            ++ [Event.on_token (piece_bytes (E.vocab.token_to_piece tok))]
            ++ [Event.decode [⟨tok, s.n_cur, [0], true⟩] ret])).flatten = accumulated E.vocab
              (s.trace ++ [Event.sample (some tok)]
            ++ [Event.on_token (piece_bytes (E.vocab.token_to_piece tok))]
            ++ [Event.decode [⟨tok, s.n_cur, [0], true⟩] ret])
        rw [hA3, hD3, hflat]
    | skip tok ret o hs heog hn hret ho =>
      have hA1' : accumulated E.vocab [Event.sample (some tok)] = [] := by
        have : ¬ 0 ≤ (E.vocab.token_to_piece tok).1 := by omega
        simp [accumulated, this]
      have hc1 : ChunkInv E.vocab (s.trace ++ [Event.sample (some tok)]) :=
        chunkInv_concat_quiet _ _ _ hc rfl hA1'
      have hc2 : ChunkInv E.vocab (s.trace ++ [Event.sample (some tok)]
          ++ [Event.decode [⟨tok, s.n_cur, [0], true⟩] ret]) :=
        chunkInv_concat_quiet _ _ _ hc1 rfl rfl
      have hA : accumulated E.vocab (s.trace ++ [Event.sample (some tok)]
            ++ [Event.decode [⟨tok, s.n_cur, [0], true⟩] ret])
          = accumulated E.vocab s.trace := by
        rw [accumulated_append, accumulated_append, hA1']
        simp [accumulated]
      have hD : delivered (s.trace ++ [Event.sample (some tok)]
            ++ [Event.decode [⟨tok, s.n_cur, [0], true⟩] ret])
          = delivered s.trace := by
        rw [delivered_append, delivered_append]
        simp [delivered]
      refine ⟨hc2, ?_, ?_⟩
      · show s.accumulatedOutput = accumulated E.vocab (s.trace
            ++ [Event.sample (some tok)]
            ++ [Event.decode [⟨tok, s.n_cur, [0], true⟩] ret])
        rw [hA]
        exact ha
      · intro _
        show (delivered (s.trace ++ [Event.sample (some tok)]
            ++ [Event.decode [⟨tok, s.n_cur, [0], true⟩] ret])).flatten
          = accumulated E.vocab (s.trace ++ [Event.sample (some tok)]
            ++ [Event.decode [⟨tok, s.n_cur, [0], true⟩] ret])
        rw [hA, hD]
        exact he
  refine generation_loop_induct E params
    (fun s => ChunkInv E.vocab s.trace ∧ s.accumulatedOutput = accumulated E.vocab s.trace
      ∧ (delivered s.trace).flatten = accumulated E.vocab s.trace)
    (fun y s => ChunkInv E.vocab s.trace
      ∧ s.accumulatedOutput = accumulated E.vocab s.trace
      ∧ (y ≠ .stopped_stop_sequence →
          (delivered s.trace).flatten = accumulated E.vocab s.trace))
    ?_ ?_ ?_ fuel st x st' ⟨hinv, hacc, heq⟩ h
  · intro s s' hs _ hp
    obtain ⟨h1, h2, h3⟩ := step s s' none hs hp
    exact ⟨h1, h2, h3 (by simp)⟩
  · intro s y s' hs _ hp
    obtain ⟨h1, h2, h3⟩ := step s s' (some y) hs hp
    exact ⟨h1, h2, fun hne => h3 (by simpa using hne)⟩
  · intro s hs _
    exact ⟨hs.1, hs.2.1, fun _ => hs.2.2⟩


/-- C20: in every finished run the chunks delivered are, in the order delivered, the
byte pieces of a subsequence of the tokens sampled, taken in the order sampled; at
every point of the run (every initial segment of the trace) the chunks delivered so
far concatenate to an initial segment of the accumulator, the final accumulator
being the one replayed from the whole trace; and when the loop ends by EOG, by
budget or by a decode failure the chunks concatenate to the accumulator. -/
theorem C20_chunks_in_generation_order (E : Engine) (params : GenerateParams)
    (fuel : Nat) (r : WorkerResult) (hrun : generate_worker E params fuel = .done r) :
    (∃ emitted : List llama_token, List.Sublist emitted (sampled_tokens r.trace)
      ∧ delivered r.trace
          = emitted.map (fun tok => piece_bytes (E.vocab.token_to_piece tok)))
    ∧ r.accumulatedOutput = accumulated E.vocab r.trace
    ∧ (∀ pre, pre <+: r.trace → (delivered pre).flatten <+: accumulated E.vocab pre)
    ∧ (r.status = .stopped_eog ∨ r.status = .stopped_budget ∨ r.status = .failed_decode →
        (delivered r.trace).flatten = r.accumulatedOutput) := by
  rcases generate_worker_run E params fuel r hrun with
    ⟨-, hr⟩ | ⟨-, b, ret, -, hr⟩ | ⟨-, batch, st, hloop, hacc, htr⟩
  · have hq : delivered r.trace = [] := by rw [hr]; rfl
    have hc := chunkInv_of_quiet E.vocab r.trace hq
    refine ⟨hc.emitted, by rw [hr]; rfl, hc.at_every_point, ?_⟩
    intro _
    rw [hq, hr]
    rfl
  · have hq : delivered r.trace = [] := by
      rw [hr]
      simp [preamble, cleanup, delivered]
    have hc := chunkInv_of_quiet E.vocab r.trace hq
    refine ⟨hc.emitted, ?_, hc.at_every_point, ?_⟩
    · rw [hr]
      simp [preamble, cleanup, accumulated]
    · intro _
      rw [hq, hr]
      rfl
  · have hentry_d : delivered (loop_entry E params batch).trace = [] := by
      simp [loop_entry, preamble, delivered]
    have hentry_a : accumulated E.vocab (loop_entry E params batch).trace = [] := by
      simp [loop_entry, preamble, accumulated]
    obtain ⟨hc, ha, he⟩ := generation_loop_chunks E params fuel _ _ _
      (chunkInv_of_quiet E.vocab _ hentry_d)
      (by rw [hentry_a]; rfl) (by rw [hentry_d, hentry_a]; rfl) hloop
    have hform : r.trace
        = st.trace ++ [Event.batch_free] ++ [Event.sampler_free] ++ [Event.detach] := by
      rw [htr]
      simp [cleanup]
    have hc' : ChunkInv E.vocab r.trace := by
      rw [hform]
      exact chunkInv_concat_quiet _ _ _
        (chunkInv_concat_quiet _ _ _ (chunkInv_concat_quiet _ _ _ hc rfl rfl) rfl rfl)
        rfl rfl
    have hA : accumulated E.vocab r.trace = accumulated E.vocab st.trace := by
      rw [htr, accumulated_append]
      simp [cleanup, accumulated]
    have hD : delivered r.trace = delivered st.trace := by
      rw [htr, delivered_append]
      simp [cleanup, delivered]
    refine ⟨hc'.emitted, by rw [hacc, hA]; exact ha, hc'.at_every_point, ?_⟩
    intro hs
    rw [hD, hacc, ha]
    apply he
    rcases hs with h | h | h <;> rw [h] <;> decide

/-- C20 on the demo data: the run that ends on a stop sequence. -/
theorem C20_chunks_in_generation_order_witness :
    generate_worker engine_demo params_stop_b 3 = .done result_stop_b
    ∧ (∃ emitted : List llama_token,
        List.Sublist emitted (sampled_tokens result_stop_b.trace)
        ∧ delivered result_stop_b.trace
            = emitted.map (fun tok => piece_bytes (engine_demo.vocab.token_to_piece tok)))
    ∧ result_stop_b.accumulatedOutput = accumulated engine_demo.vocab result_stop_b.trace
    ∧ (∀ pre, pre <+: result_stop_b.trace →
        (delivered pre).flatten <+: accumulated engine_demo.vocab pre)
    ∧ (result_stop_b.status = .stopped_eog ∨ result_stop_b.status = .stopped_budget
        ∨ result_stop_b.status = .failed_decode →
        (delivered result_stop_b.trace).flatten = result_stop_b.accumulatedOutput) :=
  ⟨rfl, C20_chunks_in_generation_order engine_demo params_stop_b 3 result_stop_b rfl⟩


/-! ## Theorems: infill -/

/-- The tokenize idiom returns the tokens of the text, whether the first call fits
the vector or not. -/
theorem tokenize_vector_eq (toks : List llama_token) (text_len : Nat) :
    tokenize_vector
      (fun buf => if toks.length ≤ buf.length then
          ((toks.length : Int), toks ++ buf.drop toks.length)
        else (-(toks.length : Int), buf)) text_len = toks := by
  have hres : ∀ (l : List llama_token), vector_resize (toks ++ l) toks.length = toks := by
    intro l
    simp [vector_resize]
  have hlen : ∀ (v : List llama_token) (n : Nat), (vector_resize v n).length = n := by
    intro v n
    simp only [vector_resize, List.length_append, List.length_take, List.length_replicate]
    omega
  unfold tokenize_vector
  by_cases hfit : toks.length ≤ (vector_resize [] (text_len + 2)).length
  · simp only [hfit, if_true]
    have hnn : ¬ ((toks.length : Int) < 0) := by omega
    simp only [hnn, if_false, Int.toNat_ofNat]
    exact hres _
  · simp only [hfit, if_false]
    have hneg : (-(toks.length : Int)) < 0 := by
      rw [hlen] at hfit
      omega
    simp only [hneg, if_true, neg_neg, Int.toNat_ofNat]
    have hfit2 : toks.length
        ≤ (vector_resize (vector_resize [] (text_len + 2)) toks.length).length := by
      rw [hlen]
    simp only [hfit2, if_true, Int.toNat_ofNat]
    exact hres _

theorem tokenize_vector_plain (vocab : llama_vocab) (text : CppString) :
    tokenize_vector (llama_tokenize_plain vocab text) text.length
      = vocab.tokenize_plain text :=
  tokenize_vector_eq (vocab.tokenize_plain text) text.length

/-- C14: when one of the three fill-in-the-middle markers is the null token, infill
returns with no event at all: no text is tokenized, no thread is created, the worker
does not run (so the memory is not cleared, nothing is decoded and the callback is
never invoked). -/
theorem C14_infill_without_markers (contextPtr : Int) (E : Engine) (host : Host)
    (uninit : GenerateParams) (pre_text suf_text : CppString) (fuel : Nat)
    (h : E.vocab.fim_pre = LLAMA_TOKEN_NULL ∨ E.vocab.fim_suf = LLAMA_TOKEN_NULL
      ∨ E.vocab.fim_mid = LLAMA_TOKEN_NULL) :
    Java_com_cortex_app_LlamaEngine_infill contextPtr E host uninit pre_text suf_text fuel = .done [] := by
  unfold Java_com_cortex_app_LlamaEngine_infill
  by_cases hctx : contextPtr = 0
  · rw [if_pos hctx]
  · rw [if_neg hctx]
    simp only
    rw [if_pos h]

/-- C14 on the demo data: the vocabulary without the middle marker. -/
theorem C14_infill_without_markers_witness :
    (engine_no_fim_mid.vocab.fim_pre = LLAMA_TOKEN_NULL
      ∨ engine_no_fim_mid.vocab.fim_suf = LLAMA_TOKEN_NULL
      ∨ engine_no_fim_mid.vocab.fim_mid = LLAMA_TOKEN_NULL)
    ∧ Java_com_cortex_app_LlamaEngine_infill 1 engine_no_fim_mid host_demo params_plain [97] [98] 3 = .done [] :=
  ⟨Or.inr (Or.inr rfl),
    C14_infill_without_markers 1 engine_no_fim_mid host_demo params_plain [97] [98] 3
      (Or.inr (Or.inr rfl))⟩

/-- C15: the worker parameters infill builds hold, as pre-built token sequence, BOS
when the vocabulary adds it, then FIM_PRE, the tokens P of the text before the gap,
FIM_SUF, the tokens S of the text after the gap, FIM_MID; its length is
`|P| + |S| + 3`, plus 1 with BOS; it is not empty, so the worker takes it as its
initial token sequence and does not tokenize the (empty) text prompt; and this is
the configuration the worker runs with when infill starts it. -/
theorem C15_infill_token_sequence (E : Engine) (host : Host) (uninit : GenerateParams)
    (pre_text suf_text : CppString) (contextPtr : Int) (fuel : Nat) :
    (infill_params E.vocab uninit pre_text suf_text).prompt_tokens
        = (if E.vocab.add_bos then [E.vocab.bos] else [])
          ++ [E.vocab.fim_pre] ++ E.vocab.tokenize_plain pre_text
          ++ [E.vocab.fim_suf] ++ E.vocab.tokenize_plain suf_text
          ++ [E.vocab.fim_mid]
    ∧ (infill_params E.vocab uninit pre_text suf_text).prompt_tokens.length
        = (E.vocab.tokenize_plain pre_text).length
          + (E.vocab.tokenize_plain suf_text).length + 3
          + (if E.vocab.add_bos then 1 else 0)
    ∧ (infill_params E.vocab uninit pre_text suf_text).prompt_tokens ≠ []
    ∧ (infill_params E.vocab uninit pre_text suf_text).prompt = []
    ∧ tokens_list E.vocab (infill_params E.vocab uninit pre_text suf_text)
        = (infill_params E.vocab uninit pre_text suf_text).prompt_tokens
    ∧ (∀ events, Java_com_cortex_app_LlamaEngine_infill contextPtr E host uninit pre_text suf_text fuel = .done events →
        ∀ r, HostEvent.worker r ∈ events →
          generate_worker E (infill_params E.vocab uninit pre_text suf_text) fuel
            = .done r) := by
  have hseq : (infill_params E.vocab uninit pre_text suf_text).prompt_tokens
      = (if E.vocab.add_bos then [E.vocab.bos] else [])
        ++ [E.vocab.fim_pre] ++ E.vocab.tokenize_plain pre_text
        ++ [E.vocab.fim_suf] ++ E.vocab.tokenize_plain suf_text
        ++ [E.vocab.fim_mid] := by
    simp only [infill_params, infill_prompt_tokens, tokenize_vector_plain]
    cases E.vocab.add_bos <;> simp
  have hne : (infill_params E.vocab uninit pre_text suf_text).prompt_tokens ≠ [] := by
    rw [hseq]
    simp
  refine ⟨hseq, ?_, hne, rfl, ?_, ?_⟩
  · rw [hseq]
    cases E.vocab.add_bos <;> simp <;> omega
  · unfold tokens_list
    have : (!(infill_params E.vocab uninit pre_text suf_text).prompt_tokens.isEmpty)
        = true := by
      cases hp : (infill_params E.vocab uninit pre_text suf_text).prompt_tokens with
      | nil => exact absurd hp hne
      | cons a l => rfl
    rw [if_pos this]
  · intro events hev r hmem
    unfold Java_com_cortex_app_LlamaEngine_infill at hev
    by_cases hctx : contextPtr = 0
    · rw [if_pos hctx] at hev
      simp only [Run.done.injEq] at hev
      rw [← hev] at hmem
      simp at hmem
    · rw [if_neg hctx] at hev
      simp only at hev
      split at hev
      · simp only [Run.done.injEq] at hev
        rw [← hev] at hmem
        simp at hmem
      · split at hev
        · cases hw : generate_worker E (infill_params E.vocab uninit pre_text suf_text)
            fuel with
          | done r' =>
            rw [hw] at hev
            simp only [Run.done.injEq] at hev
            rw [← hev] at hmem
            simp at hmem
            rw [hmem]
          | out_of_bounds =>
            rw [hw] at hev
            simp at hev
          | out_of_fuel =>
            rw [hw] at hev
            simp at hev
        · simp only [Run.done.injEq] at hev
          rw [← hev] at hmem
          simp at hmem


/-! ## Theorems: rerank -/

/-- The slots `rerank_add` writes. -/
theorem rerank_add_entries (n : Nat) (tokens : List llama_token) :
    ∀ (batch b : llama_batch) (t : Nat), rerank_add n batch tokens t = some b →
      b.entries = batch.entries
        ++ (tokens.enumFrom t).map
            (fun p => (⟨p.2, (p.1 : Int), [0], decide (p.1 = n - 1)⟩ : BatchEntry)) := by
  induction tokens with
  | nil =>
    intro batch b t h
    simp only [rerank_add, Option.some.injEq] at h
    rw [← h]
    simp
  | cons tok rest ih =>
    intro batch b t h
    unfold rerank_add at h
    cases hadd : batch_add batch tok t [0] (decide (t = n - 1)) with
    | none => simp [hadd] at h
    | some b1 =>
      simp only [hadd] at h
      obtain ⟨-, -, h3⟩ := batch_add_some _ _ _ _ _ _ hadd
      rw [ih b1 b (t + 1) h, h3]
      simp

/-- A document pass that reaches the end of the body: the batch is the one built
from the document alone, the pass did not return a negative code, and the score
read is stored at the index of the document. -/
theorem rerank_document_next (E : RerankEngine) (query : CppString)
    (documents : List CppString) (fuel i : Nat) (st st1 : RerankState)
    (h : rerank_document E query documents fuel i st = .next st1) :
    ∃ tokens, rerank_tokens E query (documents.getD i []) fuel = some tokens
      ∧ ¬ rerank_pass E st.trace (document_batch tokens) < 0
      ∧ st1.scores = st.scores.set i
          (read_score E (st.trace ++ [rerank_pass_event E (document_batch tokens)
            (rerank_pass E st.trace (document_batch tokens))]) tokens.length).1
      ∧ st1.trace
          = (read_score E (st.trace ++ [rerank_pass_event E (document_batch tokens)
              (rerank_pass E st.trace (document_batch tokens))]) tokens.length).2 := by
  unfold rerank_document at h
  cases htok : rerank_tokens E query (documents.getD i []) fuel with
  | none =>
    rw [htok] at h
    exact absurd h (by simp)
  | some tokens =>
    rw [htok] at h
    simp only at h
    cases hadd : rerank_add tokens.length (batch_clear st.batch) tokens 0 with
    | none =>
      rw [hadd] at h
      exact absurd h (by simp)
    | some batch =>
      rw [hadd] at h
      simp only at h
      have hent : batch.entries = document_batch tokens := by
        rw [rerank_add_entries _ _ _ _ _ hadd]
        simp [batch_clear, document_batch, List.enum]
      have hn : batch.n_tokens = (tokens.length : Int) := by
        unfold llama_batch.n_tokens
        rw [hent]
        simp [document_batch]
      rw [hent, hn] at h
      refine ⟨tokens, rfl, ?_⟩
      have hT : st.trace ++ [rerank_pass_event E (document_batch tokens)
            (rerank_pass E st.trace (document_batch tokens))]
          = st.trace ++ [if E.has_encoder then
              RerankEvent.encode (document_batch tokens)
                (if E.has_encoder then E.encode st.trace (document_batch tokens)
                  else E.decode st.trace (document_batch tokens))
            else RerankEvent.decode (document_batch tokens)
                (if E.has_encoder then E.encode st.trace (document_batch tokens)
                  else E.decode st.trace (document_batch tokens))] := rfl
      rw [hT]
      by_cases hret : rerank_pass E st.trace (document_batch tokens) < 0
      · exfalso
        have hret' : (if E.has_encoder then E.encode st.trace (document_batch tokens)
            else E.decode st.trace (document_batch tokens)) < 0 := hret
        rw [if_pos hret'] at h
        exact absurd h (by simp)
      · refine ⟨hret, ?_⟩
        have hret' : ¬ (if E.has_encoder then E.encode st.trace (document_batch tokens)
            else E.decode st.trace (document_batch tokens)) < 0 := hret
        rw [if_neg hret'] at h
        simp only [RerankStep.next.injEq] at h
        rw [← h]
        generalize st.trace ++ [if E.has_encoder then
              RerankEvent.encode (document_batch tokens)
                (if E.has_encoder then E.encode st.trace (document_batch tokens)
                  else E.decode st.trace (document_batch tokens))
            else RerankEvent.decode (document_batch tokens)
                (if E.has_encoder then E.encode st.trace (document_batch tokens)
                  else E.decode st.trace (document_batch tokens))] = T
        unfold read_score
        cases hseq : E.embeddings_seq T 0 with
        | some e => exact ⟨rfl, rfl⟩
        | none =>
          simp only
          cases hith : E.embeddings_ith (T ++ [RerankEvent.get_embeddings_seq 0 none])
              ((tokens.length : Int) - 1) with
          | some e => simp
          | none => simp


theorem all_passes_zero_mem (trace : List RerankEvent) (h : all_passes_zero trace = true)
    (b : List BatchEntry) (ret : Int)
    (hmem : RerankEvent.decode b ret ∈ trace ∨ RerankEvent.encode b ret ∈ trace) :
    ret = 0 := by
  unfold all_passes_zero at h
  rw [List.all_eq_true] at h
  rcases hmem with hm | hm
  · simpa using h _ hm
  · simpa using h _ hm

theorem all_passes_zero_append (a b : List RerankEvent)
    (h : all_passes_zero (a ++ b) = true) : all_passes_zero a = true := by
  unfold all_passes_zero at h ⊢
  rw [List.all_append, Bool.and_eq_true] at h
  exact h.1

/-- Reading the score only appends to the trace. -/
theorem read_score_trace (E : RerankEngine) (trace : List RerankEvent) (n : Nat) :
    ∃ ext, (read_score E trace n).2 = trace ++ ext := by
  unfold read_score
  cases E.embeddings_seq trace 0 with
  | some e => exact ⟨_, rfl⟩
  | none => exact ⟨_, by simp only; rw [List.append_assoc]⟩

/-- The loop over the documents only appends to the trace. -/
theorem rerank_loop_trace (E : RerankEngine) (query : CppString)
    (documents : List CppString) (fuel : Nat) :
    ∀ (k i : Nat) (st st' : RerankState),
      rerank_loop E query documents fuel k i st = .next st' →
      ∃ ext, st'.trace = st.trace ++ ext := by
  intro k
  induction k with
  | zero =>
    intro i st st' h
    simp only [rerank_loop, RerankStep.next.injEq] at h
    exact ⟨[], by rw [h, List.append_nil]⟩
  | succ k ih =>
    intro i st st' h
    unfold rerank_loop at h
    cases hdoc : rerank_document E query documents fuel i st with
    | next st1 =>
      rw [hdoc] at h
      obtain ⟨tokens, -, -, -, htr⟩ := rerank_document_next E query documents fuel i st st1 hdoc
      obtain ⟨ext1, hext1⟩ := read_score_trace E
        (st.trace ++ [rerank_pass_event E (document_batch tokens)
          (rerank_pass E st.trace (document_batch tokens))]) tokens.length
      obtain ⟨ext2, hext2⟩ := ih (i + 1) st1 st' h
      exact ⟨_, by rw [hext2, htr, hext1, List.append_assoc, List.append_assoc]⟩
    | failed st1 =>
      rw [hdoc] at h
      exact absurd h (by simp)
    | out_of_bounds =>
      rw [hdoc] at h
      exact absurd h (by simp)
    | out_of_fuel =>
      rw [hdoc] at h
      exact absurd h (by simp)

/-- The loop of `rerank_worker` from document index `|done|` on computes what
`score_documents` computes on the documents left, and stores the scores at their
indices, when every pass returned 0. -/
theorem rerank_loop_scores (E : RerankEngine) (query : CppString)
    (documents : List CppString) (fuel : Nat) :
    ∀ (rest done : List CppString) (S : List F32) (st st' : RerankState),
      documents = done ++ rest →
      st.scores = S ++ List.replicate rest.length (F32.finite 0) →
      S.length = done.length →
      rerank_loop E query documents fuel rest.length done.length st = .next st' →
      all_passes_zero st'.trace = true →
      ∃ scores', score_documents E query fuel st.trace rest = some (scores', st'.trace)
        ∧ st'.scores = S ++ scores' ∧ scores'.length = rest.length := by
  intro rest
  induction rest with
  | nil =>
    intro done S st st' _ hsc _ h _
    simp only [List.length_nil, rerank_loop, RerankStep.next.injEq] at h
    refine ⟨[], ?_, ?_, rfl⟩
    · rw [← h]
      rfl
    · rw [← h, hsc]
      simp
  | cons d rest' ih =>
    intro done S st st' hdocs hsc hlen h hzero
    simp only [List.length_cons] at h hsc
    unfold rerank_loop at h
    cases hdoc : rerank_document E query documents fuel done.length st with
    | next st1 =>
      rw [hdoc] at h
      simp only at h
      obtain ⟨tokens, htok, hret, hsc1, htr1⟩ :=
        rerank_document_next E query documents fuel done.length st st1 hdoc
      have hget : documents.getD done.length [] = d := by
        rw [hdocs, List.getD_append_right _ _ _ _ (Nat.le_refl _), Nat.sub_self]
        rfl
      rw [hget] at htok
      obtain ⟨ext1, hext1⟩ := read_score_trace E
        (st.trace ++ [rerank_pass_event E (document_batch tokens)
          (rerank_pass E st.trace (document_batch tokens))]) tokens.length
      obtain ⟨ext2, hext2⟩ := rerank_loop_trace E query documents fuel _ _ _ _ h
      have hzero0 : rerank_pass E st.trace (document_batch tokens) = 0 := by
        apply all_passes_zero_mem st'.trace hzero (document_batch tokens)
        rw [hext2, htr1, hext1]
        unfold rerank_pass_event
        cases E.has_encoder
        · left
          simp
        · right
          simp
      rw [hzero0] at hsc1 htr1
      have hsc1' : st1.scores
          = (S ++ [(read_score E (st.trace ++ [rerank_pass_event E (document_batch tokens) 0])
              tokens.length).1]) ++ List.replicate rest'.length (F32.finite 0) := by
        rw [hsc1, hsc, List.set_append_right _ _ (by omega)]
        have : done.length - S.length = 0 := by omega
        rw [this, List.replicate_succ]
        simp
      obtain ⟨scores'', hspec, hsc', hlen'⟩ := ih (done ++ [d])
        (S ++ [(read_score E (st.trace ++ [rerank_pass_event E (document_batch tokens) 0])
          tokens.length).1]) st1 st'
        (by rw [hdocs]; simp) hsc1' (by simp [hlen])
        (by simpa using h) hzero
      refine ⟨(read_score E (st.trace ++ [rerank_pass_event E (document_batch tokens) 0])
        tokens.length).1 :: scores'', ?_, ?_, ?_⟩
      · unfold score_documents
        rw [htok]
        simp only [hzero0, ne_eq, not_true_eq_false, if_false]
        rw [← htr1, hspec]
      · rw [hsc']
        simp
      · simp [hlen']
    | failed st1 =>
      rw [hdoc] at h
      exact absurd h (by simp)
    | out_of_bounds =>
      rw [hdoc] at h
      exact absurd h (by simp)
    | out_of_fuel =>
      rw [hdoc] at h
      exact absurd h (by simp)


/-- C12, as the claim states it, fails when the engine hands out no embedding: rerank
succeeds and returns one score for the one document, the value `-999`, although the
engine produced no embedding of which it could be the first component. -/
theorem C12_counterexample :
    Java_com_cortex_app_LlamaEngine_rerank 1 rerank_engine_no_embeddings host_demo [113] [[97]] 1
        = .done (some [score_missing])
    ∧ (∀ trace seq_id, rerank_engine_no_embeddings.embeddings_seq trace seq_id = none)
    ∧ (∀ trace i, rerank_engine_no_embeddings.embeddings_ith trace i = none) :=
  ⟨rfl, fun _ _ => rfl, fun _ _ => rfl⟩

/-- C12 (amended): when the rerank worker succeeds and every pass returned 0, its
scores are those of `score_documents`: one score per document, in input order, the
score of a document being read after the pass over the batch built from that
document alone (tokens at positions 0..len-1, output requested at the last one) as
the first component of the pooled embedding of sequence 0, else of the embedding at
the last batch index, else the value `-999`; the trace is the batch allocation, the
passes and reads of the documents in index order, and the release of the batch; and
the entry point returns exactly these scores. -/
theorem C12_rerank_scores_in_order (E : RerankEngine) (query : CppString)
    (documents : List CppString) (fuel : Nat) (r : RerankResult)
    (hrun : rerank_worker E query documents fuel = .done r)
    (hsucc : r.success = true) (hzero : all_passes_zero r.trace = true) :
    r.scores.length = documents.length
    ∧ (∃ trace', score_documents E query fuel [.batch_init 4096 1] documents
          = some (r.scores, trace')
        ∧ r.trace = trace' ++ [.batch_free])
    ∧ (∀ (contextPtr : Int) (host : Host), contextPtr ≠ 0 → host.thread_create_ok = true →
        Java_com_cortex_app_LlamaEngine_rerank contextPtr E host query documents fuel = .done (some r.scores)) := by
  have hloop : ∃ st, rerank_loop E query documents fuel documents.length 0
        { batch := llama_batch_init 4096 1,
          scores := List.replicate documents.length (F32.finite 0),
          trace := [.batch_init 4096 1] } = .next st
      ∧ r = { success := true, scores := st.scores, trace := st.trace ++ [.batch_free] } := by
    unfold rerank_worker at hrun
    simp only at hrun
    cases hl : rerank_loop E query documents fuel documents.length 0
        { batch := llama_batch_init 4096 1,
          scores := List.replicate documents.length (F32.finite 0),
          trace := [.batch_init 4096 1] } with
    | next st =>
      rw [hl] at hrun
      simp only [Run.done.injEq] at hrun
      exact ⟨st, rfl, hrun.symm⟩
    | failed st =>
      rw [hl] at hrun
      simp only [Run.done.injEq] at hrun
      rw [← hrun] at hsucc
      exact absurd hsucc (by simp)
    | out_of_bounds =>
      rw [hl] at hrun
      exact absurd hrun (by simp)
    | out_of_fuel =>
      rw [hl] at hrun
      exact absurd hrun (by simp)
  obtain ⟨st, hl, hr⟩ := hloop
  have hz : all_passes_zero st.trace = true := by
    rw [hr] at hzero
    exact all_passes_zero_append _ _ hzero
  obtain ⟨scores', hspec, hsc, hlen⟩ := rerank_loop_scores E query documents fuel
    documents [] [] _ st (by simp) (by simp) rfl hl hz
  have hscores : r.scores = scores' := by
    rw [hr]
    simpa using hsc
  have hlen' : r.scores.length = documents.length := by rw [hscores, hlen]
  refine ⟨hlen', ⟨st.trace, ?_, by rw [hr]⟩, ?_⟩
  · rw [hscores]
    exact hspec
  · intro contextPtr host hctx hhost
    unfold Java_com_cortex_app_LlamaEngine_rerank
    rw [if_neg hctx]
    simp only [hhost, Bool.not_true, Bool.false_eq_true, if_false, hrun, hsucc]
    rw [List.take_of_length_le (by omega)]

/-- C12 (amended) on the demo data: the query "q" and the documents "a", "b", "c";
the engine scores a document with the number of passes made so far. -/
theorem C12_rerank_scores_in_order_witness :
    (rerank_worker rerank_engine_demo [113] [[97], [98], [99]] 1 = .done result_rerank_demo
      ∧ result_rerank_demo.success = true
      ∧ all_passes_zero result_rerank_demo.trace = true)
    ∧ result_rerank_demo.scores.length = [[97], [98], [(99 : Byte)]].length
    ∧ (∃ trace', score_documents rerank_engine_demo [113] 1 [.batch_init 4096 1]
            [[97], [98], [99]]
          = some (result_rerank_demo.scores, trace')
        ∧ result_rerank_demo.trace = trace' ++ [.batch_free])
    ∧ (∀ (contextPtr : Int) (host : Host), contextPtr ≠ 0 → host.thread_create_ok = true →
        Java_com_cortex_app_LlamaEngine_rerank contextPtr rerank_engine_demo host [113] [[97], [98], [99]] 1
          = .done (some result_rerank_demo.scores)) :=
  ⟨⟨rfl, rfl, rfl⟩,
    C12_rerank_scores_in_order rerank_engine_demo [113] [[97], [98], [99]] 1
      result_rerank_demo rfl rfl rfl⟩

/-- C13, evaluated where the code departs from it: the decode pass of the only
document returns 1, a non-zero code; the worker does not abort, it reads a score,
reports success, and the entry point returns a score array. With the code -1 the
worker frees the batch and the entry point returns no array. -/
theorem C13_nonzero_pass_not_aborted :
    rerank_engine_decode_warns.decode [.batch_init 4096 1]
        (document_batch [1, 113, 0, 97, 0]) = 1
    ∧ rerank_worker rerank_engine_decode_warns [113] [[97]] 1
        = .done result_rerank_decode_warns
    ∧ result_rerank_decode_warns.success = true
    ∧ Java_com_cortex_app_LlamaEngine_rerank 1 rerank_engine_decode_warns host_demo [113] [[97]] 1
        = .done (some [.finite 1])
    ∧ rerank_worker rerank_engine_decode_fails [113] [[97]] 1
        = .done { success := false, scores := [.finite 0],
                  trace := [.batch_init 4096 1,
                    .decode (document_batch [1, 113, 0, 97, 0]) (-1), .batch_free] }
    ∧ Java_com_cortex_app_LlamaEngine_rerank 1 rerank_engine_decode_fails host_demo [113] [[97]] 1 = .done none :=
  ⟨rfl, rfl, rfl, rfl, rfl, rfl⟩

/-- C15 on the demo data: the texts "a" and "b". -/
theorem C15_infill_token_sequence_witness :
    Java_com_cortex_app_LlamaEngine_infill 1 engine_demo host_demo params_plain [97] [98] 3
        = .done [.tokenize [97] false false, .tokenize [98] false false,
            .thread_create (8 * 1024 * 1024) true, .worker result_infill_demo,
            .thread_join]
    ∧ (infill_params engine_demo.vocab params_plain [97] [98]).prompt_tokens
        = [1, 7, 97, 8, 98, 9]
    ∧ generate_worker engine_demo (infill_params engine_demo.vocab params_plain [97] [98]) 3
        = .done result_infill_demo :=
  ⟨rfl, rfl,
    (C15_infill_token_sequence engine_demo host_demo params_plain [97] [98] 1 3).2.2.2.2.2
      [.tokenize [97] false false, .tokenize [98] false false,
        .thread_create (8 * 1024 * 1024) true, .worker result_infill_demo, .thread_join]
      rfl result_infill_demo
      (List.Mem.tail _ (List.Mem.tail _ (List.Mem.tail _ (List.Mem.head _))))⟩


/-! ## Theorems: the prefill -/

/-- The slots `prefill_add` writes. -/
theorem prefill_add_entries (toks : List llama_token) :
    ∀ (batch b : llama_batch) (i : Nat), prefill_add batch toks i = some b →
      b.entries = batch.entries
        ++ (toks.enumFrom i).map
            (fun p => (⟨p.2, (p.1 : Int), [0], false⟩ : BatchEntry)) := by
  induction toks with
  | nil =>
    intro batch b i h
    simp only [prefill_add, Option.some.injEq] at h
    rw [← h]
    simp
  | cons tok rest ih =>
    intro batch b i h
    unfold prefill_add at h
    cases hadd : batch_add batch tok i [0] false with
    | none => simp [hadd] at h
    | some b1 =>
      simp only [hadd] at h
      obtain ⟨-, -, h3⟩ := batch_add_some _ _ _ _ _ _ hadd
      rw [ih b1 b (i + 1) h, h3]
      simp

/-- A prefill that stayed inside the arrays had room for every token. -/
theorem prefill_add_room (toks : List llama_token) :
    ∀ (batch b : llama_batch) (i : Nat), prefill_add batch toks i = some b →
      toks ≠ [] → batch.entries.length + toks.length ≤ batch.n_tokens_alloc := by
  induction toks with
  | nil => intro batch b i _ h; exact absurd rfl h
  | cons tok rest ih =>
    intro batch b i h _
    unfold prefill_add at h
    cases hadd : batch_add batch tok i [0] false with
    | none => simp [hadd] at h
    | some b1 =>
      simp only [hadd] at h
      obtain ⟨h1, -, h3⟩ := batch_add_some _ _ _ _ _ _ hadd
      have hlt : batch.entries.length < batch.n_tokens_alloc := by
        unfold batch_add at hadd
        split at hadd
        · rename_i hc; exact hc.1
        · simp at hadd
      have hlen1 : b1.entries.length = batch.entries.length + 1 := by
        rw [h3, List.length_append, List.length_singleton]
      by_cases hrest : rest = []
      · subst hrest
        simp only [List.length_cons, List.length_nil]
        omega
      · have := ih b1 b (i + 1) h hrest
        rw [h1, hlen1] at this
        simp only [List.length_cons]
        omega

/-- The prefill writes outside the batch exactly when the tokens do not fit. -/
theorem prefill_add_none_iff (toks : List llama_token) :
    prefill_add (llama_batch_init 4096 1) toks 0 = none ↔ 4096 < toks.length := by
  constructor
  · intro h
    by_contra hle
    obtain ⟨b, hb⟩ := prefill_add_fits toks (llama_batch_init 4096 1) 0
      (by simp only [llama_batch_init, List.length_nil]; omega) (by simp [llama_batch_init])
    rw [hb] at h
    exact absurd h (by simp)
  · intro h
    cases hp : prefill_add (llama_batch_init 4096 1) toks 0 with
    | none => rfl
    | some b =>
      have hne : toks ≠ [] := by
        intro h0
        rw [h0] at h
        simp at h
      have := prefill_add_room toks _ b 0 hp hne
      simp only [llama_batch_init, List.length_nil] at this
      omega


/-- The slots of the prefill batch of a sequence with a last token. -/
theorem prefill_entries_concat (init : List llama_token) (x : llama_token) :
    prefill_entries (init ++ [x])
      = (init.enumFrom 0).map (fun p => (⟨p.2, (p.1 : Int), [0], false⟩ : BatchEntry))
        ++ [⟨x, (init.length : Int), [0], true⟩] := by
  unfold prefill_entries
  rw [List.enum, List.enumFrom_append, List.map_append]
  congr 1
  · apply List.map_congr_left
    intro p hp
    have hlt : p.1 < init.length := List.fst_lt_of_mem_enum hp
    have hne : ¬ p.1 = init.length := by omega
    simp [hne]
  · simp

/-- After lines 76-83 the batch of a non-empty prefill that stayed inside the arrays
is the prefill batch. -/
theorem prefill_set_logits (toks : List llama_token) (hne : toks ≠ []) (b : llama_batch)
    (hp : prefill_add (llama_batch_init 4096 1) toks 0 = some b) :
    batch_set_last_logits b = some (prefill_batch toks) := by
  obtain ⟨h1, h2, -⟩ := prefill_add_some toks _ b 0 hp
  have h3 := prefill_add_entries toks _ b 0 hp
  obtain ⟨init, x, rfl⟩ : ∃ init x, toks = init ++ [x] :=
    ⟨_, _, (List.dropLast_append_getLast hne).symm⟩
  simp only [llama_batch_init, List.nil_append, List.enumFrom_append, List.map_append,
    List.enumFrom_singleton, List.map_cons, List.map_nil, Nat.zero_add] at h1 h2 h3
  obtain ⟨a, m, es⟩ := b
  simp only at h1 h2 h3
  subst h1 h2 h3
  unfold batch_set_last_logits prefill_batch
  rw [prefill_entries_concat]
  simp

/-- An empty prefill makes the logits assignment of line 83 target index -1. -/
theorem prefill_empty_logits :
    ∃ b, prefill_add (llama_batch_init 4096 1) [] 0 = some b
      ∧ b.n_tokens - 1 = -1 ∧ batch_set_last_logits b = none :=
  ⟨llama_batch_init 4096 1, rfl, rfl, rfl⟩


theorem prefill_entries_length (toks : List llama_token) :
    (prefill_entries toks).length = toks.length := by
  simp [prefill_entries, List.enum]

/-- The worker from the prefill decode on, for an initial sequence that fits. -/
theorem generate_worker_eq (E : Engine) (params : GenerateParams) (fuel : Nat)
    (hatt : E.attach_ok = true)
    (hlen : 1 ≤ (tokens_list E.vocab params).length)
    (hfit : (tokens_list E.vocab params).length ≤ 4096) :
    generate_worker E params fuel =
      if E.decode (preamble E params) (prefill_entries (tokens_list E.vocab params)) ≠ 0 then
        .done ⟨.failed_decode, [],
          preamble E params
            ++ .decode (prefill_entries (tokens_list E.vocab params))
                (E.decode (preamble E params)
                  (prefill_entries (tokens_list E.vocab params))) :: cleanup⟩
      else
        match generation_loop E params fuel
            (loop_entry E params (prefill_batch (tokens_list E.vocab params))) with
        | .done (status, st) => .done ⟨status, st.accumulatedOutput, st.trace ++ cleanup⟩
        | .out_of_bounds => .out_of_bounds
        | .out_of_fuel => .out_of_fuel := by
  obtain ⟨b, hb⟩ := prefill_add_fits (tokens_list E.vocab params) (llama_batch_init 4096 1) 0
    (by simp only [llama_batch_init, List.length_nil]; omega) (by simp [llama_batch_init])
  have hne : tokens_list E.vocab params ≠ [] := by
    intro h0
    rw [h0] at hlen
    simp at hlen
  have hset := prefill_set_logits _ hne b hb
  unfold generate_worker
  simp only [hatt, hb, hset, Bool.not_true, Bool.false_eq_true, if_false]
  by_cases hret : E.decode (preamble E params)
      (prefill_entries (tokens_list E.vocab params)) = 0
  · have hret2 : E.decode
        [.attach true, .memory_clear, .sampler_chain (build_sampler_chain params E.vocab),
          .batch_init 4096 1] (prefill_batch (tokens_list E.vocab params)).entries = 0 := hret
    simp only [hret2, hret, ne_eq, not_true_eq_false, if_false]
    rfl
  · have hret2 : ¬ E.decode
        [.attach true, .memory_clear, .sampler_chain (build_sampler_chain params E.vocab),
          .batch_init 4096 1] (prefill_batch (tokens_list E.vocab params)).entries = 0 := hret
    simp only [hret2, hret, ne_eq, not_false_eq_true, if_true]
    rfl

/-- The worker writes outside the batch when the initial sequence is empty or has
more than 4096 tokens. -/
theorem generate_worker_out_of_bounds (E : Engine) (params : GenerateParams) (fuel : Nat)
    (hatt : E.attach_ok = true)
    (h : (tokens_list E.vocab params).length = 0
      ∨ 4096 < (tokens_list E.vocab params).length) :
    generate_worker E params fuel = .out_of_bounds := by
  unfold generate_worker
  simp only [hatt, Bool.not_true, Bool.false_eq_true, if_false]
  rcases h with h | h
  · have h0 : tokens_list E.vocab params = [] := List.length_eq_zero.mp h
    rw [h0]
    rfl
  · rw [(prefill_add_none_iff _).mpr h]


/-- The shape of the trace of a finished run whose initial sequence fits: the
preamble, the decode of the prefill batch, then the rest. -/
theorem generate_worker_prefill_trace (E : Engine) (params : GenerateParams) (fuel : Nat)
    (r : WorkerResult) (hatt : E.attach_ok = true)
    (hlen : 1 ≤ (tokens_list E.vocab params).length)
    (hfit : (tokens_list E.vocab params).length ≤ 4096)
    (h : generate_worker E params fuel = .done r) :
    ∃ ret ext, r.trace = preamble E params
        ++ .decode (prefill_entries (tokens_list E.vocab params)) ret :: (ext ++ cleanup)
      ∧ (ret ≠ 0 → ext = [])
      ∧ (ret = 0 → ∃ st, generation_loop E params fuel
            (loop_entry E params (prefill_batch (tokens_list E.vocab params)))
              = .done (r.status, st)
          ∧ st.trace = (loop_entry E params
              (prefill_batch (tokens_list E.vocab params))).trace ++ ext
          ∧ r.accumulatedOutput = st.accumulatedOutput) := by
  rw [generate_worker_eq E params fuel hatt hlen hfit] at h
  by_cases hret : E.decode (preamble E params)
      (prefill_entries (tokens_list E.vocab params)) = 0
  · simp only [hret, ne_eq, not_true_eq_false, if_false] at h
    cases hloop : generation_loop E params fuel
        (loop_entry E params (prefill_batch (tokens_list E.vocab params))) with
    | out_of_bounds => rw [hloop] at h; exact absurd h (by simp)
    | out_of_fuel => rw [hloop] at h; exact absurd h (by simp)
    | done p =>
      obtain ⟨x, st⟩ := p
      rw [hloop] at h
      simp only [Run.done.injEq] at h
      obtain ⟨ext, hext, -⟩ := generation_loop_trace E params fuel _ x st hloop
      refine ⟨0, ext, ?_, fun h0 => absurd rfl h0, fun _ => ⟨st, ?_, hext, ?_⟩⟩
      · rw [← h]
        simp only
        rw [hext]
        simp [loop_entry, prefill_batch]
      · rw [← h]
      · rw [← h]
  · simp only [hret, ne_eq, not_false_eq_true, if_true, Run.done.injEq] at h
    refine ⟨_, [], ?_, fun _ => rfl, fun h0 => absurd h0 hret⟩
    rw [← h]
    simp

/-- C21: for every initial token sequence of n tokens with 1 <= n <= 4096 the
worker returns, the first engine call of the run is the decode of one batch that
holds the whole prefill, that batch has exactly n entries, and entry i holds token i
at position i on the single sequence id 0 with the logits flag set exactly when
i = n - 1. -/
theorem C21_prefill_batch (E : Engine) (params : GenerateParams)
    (hatt : E.attach_ok = true)
    (hlen : 1 ≤ (tokens_list E.vocab params).length)
    (hfit : (tokens_list E.vocab params).length ≤ 4096) :
    (∃ r, ∀ fuel, params.maxTokens.toNat < fuel → generate_worker E params fuel = .done r)
    ∧ (∀ fuel r, generate_worker E params fuel = .done r →
        ∃ ret rest, r.trace = preamble E params
          ++ .decode (prefill_entries (tokens_list E.vocab params)) ret :: rest)
    ∧ decode_calls (preamble E params) = []
    ∧ (prefill_entries (tokens_list E.vocab params)).length
        = (tokens_list E.vocab params).length
    ∧ ∀ (i : Nat) (hi : i < (tokens_list E.vocab params).length),
        (prefill_entries (tokens_list E.vocab params))[i]?
          = some ⟨(tokens_list E.vocab params)[i], (i : Int), [0],
              decide (i = (tokens_list E.vocab params).length - 1)⟩ := by
  refine ⟨generate_worker_total E params hlen hfit, ?_, rfl, prefill_entries_length _, ?_⟩
  · intro fuel r h
    obtain ⟨ret, ext, htr, -, -⟩ :=
      generate_worker_prefill_trace E params fuel r hatt hlen hfit h
    exact ⟨ret, ext ++ cleanup, htr⟩
  · intro i hi
    unfold prefill_entries
    rw [List.getElem?_map, List.getElem?_enum, List.getElem?_eq_getElem hi]
    have hiff : (i + 1 = (tokens_list E.vocab params).length)
        ↔ (i = (tokens_list E.vocab params).length - 1) := by omega
    simp [hiff]

theorem C21_prefill_batch_witness :
    (engine_demo.attach_ok = true
      ∧ tokens_list engine_demo.vocab params_plain = [1, 2, 3]
      ∧ prefill_entries [1, 2, 3]
          = [⟨1, 0, [0], false⟩, ⟨2, 1, [0], false⟩, ⟨3, 2, [0], true⟩])
    ∧ (∃ r, ∀ fuel, params_plain.maxTokens.toNat < fuel →
      generate_worker engine_demo params_plain fuel = .done r)
    ∧ (∀ fuel r, generate_worker engine_demo params_plain fuel = .done r →
        ∃ ret rest, r.trace = preamble engine_demo params_plain
          ++ .decode (prefill_entries (tokens_list engine_demo.vocab params_plain)) ret
            :: rest)
    ∧ decode_calls (preamble engine_demo params_plain) = []
    ∧ (prefill_entries (tokens_list engine_demo.vocab params_plain)).length
        = (tokens_list engine_demo.vocab params_plain).length
    ∧ ∀ (i : Nat) (hi : i < (tokens_list engine_demo.vocab params_plain).length),
        (prefill_entries (tokens_list engine_demo.vocab params_plain))[i]?
          = some ⟨(tokens_list engine_demo.vocab params_plain)[i], (i : Int), [0],
              decide (i = (tokens_list engine_demo.vocab params_plain).length - 1)⟩ :=
  ⟨⟨rfl, rfl, rfl⟩, C21_prefill_batch engine_demo params_plain rfl (by decide) (by decide)⟩


/-! ## Theorems: positions -/

theorem int32_wrap_of_range (x : Int) (h1 : -2147483648 ≤ x) (h2 : x < 2147483648) :
    int32_wrap x = x := by
  unfold int32_wrap
  omega

theorem int32_wrap_succ (x : Int) : int32_wrap (int32_wrap x + 1) = int32_wrap (x + 1) := by
  unfold int32_wrap
  omega

theorem decode_batches_append (a b : List Event) :
    decode_batches (a ++ b) = decode_batches a ++ decode_batches b := by
  simp [decode_batches, decode_calls_append]

theorem submitted_positions_append (a b : List Event) :
    submitted_positions (a ++ b) = submitted_positions a ++ submitted_positions b := by
  simp [submitted_positions, decode_batches_append]

theorem fed_batches_concat (n : Nat) (fed : List llama_token) (tok : llama_token) :
    fed_batches n (fed ++ [tok])
      = fed_batches n fed
        ++ [[⟨tok, int32_wrap ((n : Int) + (fed.length : Int)), [0], true⟩]] := by
  simp [fed_batches, List.enum, List.enumFrom_append]

/-- The invariant holds at loop entry. -/
theorem fedInv_at_entry (E : Engine) (params : GenerateParams) (toks : List llama_token)
    (hfit : toks.length ≤ 4096) :
    FedInv toks [] (loop_entry E params (prefill_batch toks)) := by
  refine ⟨?_, ?_, rfl, fun h => absurd rfl h⟩
  · simp [loop_entry, decode_batches, decode_calls_append, decode_calls, preamble,
      prefill_batch, fed_batches]
  · have h : int32_wrap ((toks.length : Int) + (([] : List llama_token).length : Int))
        = (toks.length : Int) := by
      rw [int32_wrap_of_range _ (by simp; omega) (by simp; omega)]
      simp
    rw [h]
    simp [loop_entry, llama_batch.n_tokens, prefill_batch, prefill_entries_length]

/-- Feeding a token back keeps the invariant. -/
theorem fedInv_fed (toks fed : List llama_token) (st : GenerationState)
    (tok : llama_token) (ret : Int) (h : FedInv toks fed st) :
    FedInv toks (fed ++ [tok]) (fed_state st tok ret) := by
  obtain ⟨h1, h2, h3, -⟩ := h
  refine ⟨?_, ?_, ?_, fun _ => rfl⟩
  · simp only [fed_state, decode_batches_append, h1, fed_batches_concat, h2]
    simp [decode_batches, decode_calls]
  · simp only [fed_state, h2, List.length_append, List.length_singleton]
    rw [int32_wrap_succ]
    push_cast
    rw [Int.add_assoc]
  · simp only [fed_state, h3, List.length_append, List.length_singleton]
    push_cast
    rfl

/-- Events that are not decodes leave the invariant alone. -/
theorem fedInv_quiet (toks fed : List llama_token) (st st' : GenerationState)
    (ext : List Event) (h : FedInv toks fed st)
    (htr : st'.trace = st.trace ++ ext) (hq : decode_calls ext = [])
    (hn : st'.n_cur = st.n_cur) (hd : st'.n_decode = st.n_decode)
    (hb : st'.batch = st.batch) :
    FedInv toks fed st' := by
  obtain ⟨h1, h2, h3, h4⟩ := h
  refine ⟨?_, by rw [hn, h2], by rw [hd, h3], by rw [hb]; exact h4⟩
  rw [htr, decode_batches_append, h1]
  simp [decode_batches, hq]

/-- A pass keeps the invariant: the tokens fed back are the tokens sampled, except
that the token of a pass that breaks before the decode is not fed back. -/
theorem pass_fedInv (E : Engine) (params : GenerateParams) (toks : List llama_token)
    (st st' : GenerationState) (o : Option Status) (h : Pass E params st o st')
    (hinv : FedInv toks (sampled_tokens st.trace) st) :
    ∃ fed, FedInv toks fed st' ∧ fed <+: sampled_tokens st'.trace
      ∧ (o = none → fed = sampled_tokens st'.trace) := by
  cases h with
  | exception hs =>
    refine ⟨_, fedInv_quiet toks _ st _ [.sample none] hinv rfl rfl rfl rfl rfl, ?_, ?_⟩
    · simp [sampled_tokens_append, sampled_tokens]
    · intro h; exact absurd h (by simp)
  | eog tok hs he =>
    refine ⟨_, fedInv_quiet toks _ st _ [.sample (some tok)] hinv rfl rfl rfl rfl rfl,
      ?_, ?_⟩
    · simp [sampled_tokens_append, sampled_tokens]
    · intro h; exact absurd h (by simp)
  | stop tok hs he hn hm =>
    refine ⟨_, fedInv_quiet toks _ st _ [.sample (some tok)] hinv rfl rfl rfl rfl rfl,
      ?_, ?_⟩
    · simp [sampled_tokens_append, sampled_tokens]
    · intro h; exact absurd h (by simp)
  | emit tok ret o hs he hn hm hret ho =>
    have h1 := fedInv_quiet toks _ st
      { st with
        accumulatedOutput :=
          st.accumulatedOutput ++ piece_bytes (E.vocab.token_to_piece tok)
        trace := st.trace ++ [.sample (some tok)]
          ++ [.on_token (piece_bytes (E.vocab.token_to_piece tok))] }
      [.sample (some tok), .on_token (piece_bytes (E.vocab.token_to_piece tok))]
      hinv (by simp) rfl rfl rfl rfl
    have h2 := fedInv_fed toks _ _ tok ret h1
    have hs2 : sampled_tokens (fed_state
        { st with
          accumulatedOutput :=
            st.accumulatedOutput ++ piece_bytes (E.vocab.token_to_piece tok)
          trace := st.trace ++ [.sample (some tok)]
            ++ [.on_token (piece_bytes (E.vocab.token_to_piece tok))] } tok ret).trace
        = sampled_tokens st.trace ++ [tok] := by
      simp [fed_state, sampled_tokens_append, sampled_tokens]
    exact ⟨_, h2, by rw [hs2], fun _ => hs2.symm⟩
  | skip tok ret o hs he hn hret ho =>
    have h1 := fedInv_quiet toks _ st
      { st with trace := st.trace ++ [.sample (some tok)] }
      [.sample (some tok)] hinv rfl rfl rfl rfl rfl
    have h2 := fedInv_fed toks _ _ tok ret h1
    have hs2 : sampled_tokens (fed_state
        { st with trace := st.trace ++ [.sample (some tok)] } tok ret).trace
        = sampled_tokens st.trace ++ [tok] := by
      simp [fed_state, sampled_tokens_append, sampled_tokens]
    exact ⟨_, h2, by rw [hs2], fun _ => hs2.symm⟩

/-- The invariant when the loop is left. -/
theorem generation_loop_fedInv (E : Engine) (params : GenerateParams)
    (toks : List llama_token) (hfit : toks.length ≤ 4096)
    (fuel : Nat) (x : Status) (st : GenerationState)
    (h : generation_loop E params fuel (loop_entry E params (prefill_batch toks))
      = .done (x, st)) :
    ∃ fed, FedInv toks fed st ∧ fed <+: sampled_tokens st.trace := by
  refine generation_loop_induct E params
    (fun s => FedInv toks (sampled_tokens s.trace) s)
    (fun _ s => ∃ fed, FedInv toks fed s ∧ fed <+: sampled_tokens s.trace)
    ?_ ?_ ?_ fuel _ x st ?_ h
  · intro s s' hinv _ hp
    obtain ⟨fed, hf, -, heq⟩ := pass_fedInv E params toks s s' none hp hinv
    rw [← heq rfl]
    exact hf
  · intro s y s' hinv _ hp
    obtain ⟨fed, hf, hpre, -⟩ := pass_fedInv E params toks s s' (some y) hp hinv
    exact ⟨fed, hf, hpre⟩
  · intro s hinv _
    exact ⟨_, hinv, List.prefix_refl _⟩
  · have h0 : sampled_tokens (loop_entry E params (prefill_batch toks)).trace = [] := by
      simp [loop_entry, preamble, sampled_tokens_append, sampled_tokens]
    show FedInv toks (sampled_tokens (loop_entry E params (prefill_batch toks)).trace) _
    rw [h0]
    exact fedInv_at_entry E params toks hfit

/-- The batches of a finished run whose initial sequence fits. -/
theorem generate_worker_fed (E : Engine) (params : GenerateParams)
    (hatt : E.attach_ok = true)
    (hlen : 1 ≤ (tokens_list E.vocab params).length)
    (hfit : (tokens_list E.vocab params).length ≤ 4096)
    (fuel : Nat) (r : WorkerResult) (h : generate_worker E params fuel = .done r) :
    ∃ fed, fed <+: sampled_tokens r.trace ∧ fed.length ≤ params.maxTokens.toNat
      ∧ decode_batches r.trace
          = prefill_entries (tokens_list E.vocab params)
            :: fed_batches (tokens_list E.vocab params).length fed := by
  obtain ⟨ret, ext, htr, hne, hz⟩ :=
    generate_worker_prefill_trace E params fuel r hatt hlen hfit h
  by_cases hret : ret = 0
  · obtain ⟨st, hloop, hst, -⟩ := hz hret
    obtain ⟨fed, hf, hpre⟩ := generation_loop_fedInv E params _ hfit fuel _ st hloop
    have hpost := generation_loop_post E params fuel _ r.status st
      (loopInv_at_entry E params (prefill_batch (tokens_list E.vocab params))
        (by simp [prefill_batch]) (by simp [prefill_batch])) hloop
    have hrt : r.trace = st.trace ++ cleanup := by
      rw [htr, hst, hret]
      simp [loop_entry, prefill_batch]
    have hsam : sampled_tokens r.trace = sampled_tokens st.trace := by
      rw [hrt, sampled_tokens_append]
      simp [cleanup, sampled_tokens]
    refine ⟨fed, by rw [hsam]; exact hpre, ?_, ?_⟩
    · have h1 := hpre.length_le
      have h2 := sampled_tokens_length_le st.trace
      have h3 := hpost.samples_le
      omega
    · rw [hrt, decode_batches_append, hf.batches]
      simp [decode_batches, cleanup, decode_calls]
  · have hext := hne hret
    subst hext
    refine ⟨[], List.nil_prefix, by simp, ?_⟩
    rw [htr]
    simp [decode_batches, decode_calls_append, decode_calls, preamble, cleanup,
      fed_batches]

/-- The loop never writes outside the batch. -/
theorem generation_loop_in_bounds (E : Engine) (params : GenerateParams) :
    ∀ (fuel : Nat) (st : GenerationState), LoopInv params st →
      generation_loop E params fuel st ≠ .out_of_bounds := by
  intro fuel
  induction fuel with
  | zero =>
    intro st _
    simp [generation_loop]
  | succ fuel ih =>
    intro st hinv
    unfold generation_loop
    by_cases hlt : st.n_decode < params.maxTokens
    · rw [if_pos hlt]
      rcases loop_body_spec E params st hinv hlt with
        ⟨st1, hb, hinv1, -⟩ | ⟨s1, st1, hb, -⟩
      · rw [hb]
        exact ih st1 hinv1
      · rw [hb]
        simp
    · rw [if_neg hlt]
      simp

/-- The prefill of a sequence in two parts. -/
theorem prefill_add_append (l1 l2 : List llama_token) :
    ∀ (batch : llama_batch) (i : Nat),
      prefill_add batch (l1 ++ l2) i
        = match prefill_add batch l1 i with
          | none => none
          | some b => prefill_add b l2 (i + l1.length) := by
  induction l1 with
  | nil => intro batch i; simp [prefill_add]
  | cons tok rest ih =>
    intro batch i
    simp only [List.cons_append, prefill_add, List.length_cons]
    cases hadd : batch_add batch tok i [0] false with
    | none => rfl
    | some b1 =>
      simp only
      have hih := ih b1 (i + 1)
      have : i + 1 + rest.length = i + (rest.length + 1) := by omega
      rw [this] at hih
      exact hih

/-- C28: with the thread attached, no run of the worker writes outside its 4096-slot
batch exactly when the initial token sequence has between 1 and 4096 tokens. Under
that precondition every batch_add of the prefill and the logits assignment stay
inside the arrays and every batch submitted in the run has between 1 and 4096
entries; an empty sequence makes the logits assignment target index -1; for a
sequence of more than 4096 tokens the first 4096 calls of batch_add fill the batch
and the next one writes at index 4096. -/
theorem C28_prefill_in_bounds (E : Engine) (params : GenerateParams)
    (hatt : E.attach_ok = true) :
    ((1 ≤ (tokens_list E.vocab params).length ∧ (tokens_list E.vocab params).length ≤ 4096)
      ↔ ∀ fuel, generate_worker E params fuel ≠ .out_of_bounds)
    ∧ (1 ≤ (tokens_list E.vocab params).length →
        (tokens_list E.vocab params).length ≤ 4096 →
        (∃ b, prefill_add (llama_batch_init 4096 1) (tokens_list E.vocab params) 0 = some b
          ∧ batch_set_last_logits b = some (prefill_batch (tokens_list E.vocab params)))
        ∧ ∀ fuel r, generate_worker E params fuel = .done r →
            ∀ b ∈ decode_batches r.trace, 1 ≤ b.length ∧ b.length ≤ 4096)
    ∧ ((tokens_list E.vocab params).length = 0 →
        ∃ b, prefill_add (llama_batch_init 4096 1) (tokens_list E.vocab params) 0 = some b
          ∧ b.n_tokens - 1 = -1 ∧ batch_set_last_logits b = none)
    ∧ (4096 < (tokens_list E.vocab params).length →
        ∃ b, prefill_add (llama_batch_init 4096 1)
              ((tokens_list E.vocab params).take 4096) 0 = some b
          ∧ b.n_tokens = 4096 ∧ b.n_tokens_alloc = 4096
          ∧ batch_add b ((tokens_list E.vocab params).getD 4096 0) 4096 [0] false = none
          ∧ prefill_add (llama_batch_init 4096 1) (tokens_list E.vocab params) 0 = none) := by
  refine ⟨⟨?_, ?_⟩, ?_, ?_, ?_⟩
  · rintro ⟨hlen, hfit⟩ fuel
    rw [generate_worker_eq E params fuel hatt hlen hfit]
    split
    · simp
    · have hin := generation_loop_in_bounds E params fuel _
        (loopInv_at_entry E params (prefill_batch (tokens_list E.vocab params))
          (by simp [prefill_batch]) (by simp [prefill_batch]))
      have hentry : loop_entry E params (prefill_batch (tokens_list E.vocab params))
          = { n_cur := (prefill_batch (tokens_list E.vocab params)).n_tokens,
              n_decode := 0, accumulatedOutput := [],
              batch := prefill_batch (tokens_list E.vocab params),
              trace := preamble E params
                ++ [.decode (prefill_batch (tokens_list E.vocab params)).entries 0] } := rfl
      rw [← hentry] at hin
      cases hloop : generation_loop E params fuel
          (loop_entry E params (prefill_batch (tokens_list E.vocab params))) with
      | out_of_bounds => exact absurd hloop hin
      | out_of_fuel => simp
      | done p => obtain ⟨x, st⟩ := p; simp
  · intro h
    by_contra hno
    have hcase : (tokens_list E.vocab params).length = 0
        ∨ 4096 < (tokens_list E.vocab params).length := by omega
    exact h 0 (generate_worker_out_of_bounds E params 0 hatt hcase)
  · intro hlen hfit
    obtain ⟨b, hb⟩ := prefill_add_fits (tokens_list E.vocab params)
      (llama_batch_init 4096 1) 0
      (by simp only [llama_batch_init, List.length_nil]; omega) (by simp [llama_batch_init])
    have hne : tokens_list E.vocab params ≠ [] := by
      intro h0
      rw [h0] at hlen
      simp at hlen
    refine ⟨⟨b, hb, prefill_set_logits _ hne b hb⟩, ?_⟩
    intro fuel r h b1 hb1
    obtain ⟨fed, -, -, hbat⟩ := generate_worker_fed E params hatt hlen hfit fuel r h
    rw [hbat] at hb1
    rcases List.mem_cons.mp hb1 with h1 | h1
    · rw [h1, prefill_entries_length]
      exact ⟨hlen, hfit⟩
    · unfold fed_batches at h1
      obtain ⟨p, -, hp⟩ := List.mem_map.mp h1
      rw [← hp]
      simp
  · intro h0
    have h1 : tokens_list E.vocab params = [] := List.length_eq_zero.mp h0
    rw [h1]
    exact prefill_empty_logits
  · intro hbig
    obtain ⟨b, hb⟩ := prefill_add_fits ((tokens_list E.vocab params).take 4096)
      (llama_batch_init 4096 1) 0
      (by simp only [llama_batch_init, List.length_nil, List.length_take]; omega)
      (by simp [llama_batch_init])
    obtain ⟨h1, -, h3⟩ := prefill_add_some _ _ b 0 hb
    have hlen : b.entries.length = 4096 := by
      rw [h3]
      simp only [llama_batch_init, List.length_nil, List.length_take]
      omega
    refine ⟨b, hb, ?_, h1, ?_, (prefill_add_none_iff _).mpr hbig⟩
    · simp [llama_batch.n_tokens, hlen]
    · unfold batch_add
      rw [if_neg]
      rw [hlen, h1]
      simp [llama_batch_init]

theorem C28_prefill_in_bounds_witness :
    (engine_demo.attach_ok = true
      ∧ tokens_list engine_demo.vocab params_plain = [1, 2, 3]
      ∧ tokens_list engine_demo.vocab params_empty = []
      ∧ generate_worker engine_demo params_empty 3 = .out_of_bounds
      ∧ (tokens_list engine_demo.vocab params_too_long).length = 4097
      ∧ generate_worker engine_demo params_too_long 3 = .out_of_bounds)
    ∧ ((1 ≤ (tokens_list engine_demo.vocab params_plain).length
        ∧ (tokens_list engine_demo.vocab params_plain).length ≤ 4096)
      ↔ ∀ fuel, generate_worker engine_demo params_plain fuel ≠ .out_of_bounds)
    ∧ (1 ≤ (tokens_list engine_demo.vocab params_plain).length →
        (tokens_list engine_demo.vocab params_plain).length ≤ 4096 →
        (∃ b, prefill_add (llama_batch_init 4096 1)
              (tokens_list engine_demo.vocab params_plain) 0 = some b
          ∧ batch_set_last_logits b
              = some (prefill_batch (tokens_list engine_demo.vocab params_plain)))
        ∧ ∀ fuel r, generate_worker engine_demo params_plain fuel = .done r →
            ∀ b ∈ decode_batches r.trace, 1 ≤ b.length ∧ b.length ≤ 4096)
    ∧ ((tokens_list engine_demo.vocab params_plain).length = 0 →
        ∃ b, prefill_add (llama_batch_init 4096 1)
              (tokens_list engine_demo.vocab params_plain) 0 = some b
          ∧ b.n_tokens - 1 = -1 ∧ batch_set_last_logits b = none)
    ∧ (4096 < (tokens_list engine_demo.vocab params_plain).length →
        ∃ b, prefill_add (llama_batch_init 4096 1)
              ((tokens_list engine_demo.vocab params_plain).take 4096) 0 = some b
          ∧ b.n_tokens = 4096 ∧ b.n_tokens_alloc = 4096
          ∧ batch_add b ((tokens_list engine_demo.vocab params_plain).getD 4096 0) 4096 [0]
              false = none
          ∧ prefill_add (llama_batch_init 4096 1)
              (tokens_list engine_demo.vocab params_plain) 0 = none) :=
  ⟨⟨rfl, rfl, rfl, rfl,
      by rw [show tokens_list engine_demo.vocab params_too_long = List.replicate 4097 5
        from rfl, List.length_replicate],
      generate_worker_out_of_bounds engine_demo params_too_long 3 rfl
        (Or.inr (by
          rw [show tokens_list engine_demo.vocab params_too_long = List.replicate 4097 5
            from rfl, List.length_replicate]
          decide))⟩,
    C28_prefill_in_bounds engine_demo params_plain rfl⟩


/-! ## Theorems: a piece that does not fit the buffer -/

/-- C27: a pass of the loop that draws a non-EOG token whose piece conversion
reports a negative length feeds the token to the engine, as one entry at the current
position, and ends as the decode decides; the output accumulator is unchanged,
nothing is passed to the callback, the outcome does not depend on the stop
sequences, the budget counter advances by one, and the position advances by the
`int` increment: by one whenever it is below the largest `int`. -/
theorem C27_negative_piece_fed_undelivered (E : Engine) (params : GenerateParams)
    (st : GenerationState) (tok : llama_token)
    (hsample : E.sample st.trace = some tok)
    (heog : E.vocab.is_eog tok = false)
    (hn : (E.vocab.token_to_piece tok).1 < 0)
    (halloc : 0 < st.batch.n_tokens_alloc) (hseq : 1 ≤ st.batch.n_seq_max) :
    ∃ ret st', ret = E.decode (st.trace ++ [.sample (some tok)])
          [⟨tok, st.n_cur, [0], true⟩]
      ∧ loop_body E params st
          = (if ret ≠ 0 then .stop .failed_decode st' else .next st')
      ∧ (∀ stops, loop_body E { params with stopSequences := stops } st
          = loop_body E params st)
      ∧ st'.accumulatedOutput = st.accumulatedOutput
      ∧ delivered st'.trace = delivered st.trace
      ∧ st'.trace = st.trace
          ++ [.sample (some tok), .decode [⟨tok, st.n_cur, [0], true⟩] ret]
      ∧ st'.n_cur = int32_wrap (st.n_cur + 1)
      ∧ (-2147483648 ≤ st.n_cur → st.n_cur < 2147483647 → st'.n_cur = st.n_cur + 1)
      ∧ st'.n_decode = st.n_decode + 1 := by
  have hneg : ¬ (E.vocab.token_to_piece tok).1 ≥ 0 := by omega
  have hbody : ∀ p : GenerateParams, loop_body E p st
      = (if E.decode (st.trace ++ [.sample (some tok)]) [⟨tok, st.n_cur, [0], true⟩] ≠ 0
          then .stop .failed_decode
            (fed_state { st with trace := st.trace ++ [.sample (some tok)] } tok
              (E.decode (st.trace ++ [.sample (some tok)]) [⟨tok, st.n_cur, [0], true⟩]))
          else .next
            (fed_state { st with trace := st.trace ++ [.sample (some tok)] } tok
              (E.decode (st.trace ++ [.sample (some tok)])
                [⟨tok, st.n_cur, [0], true⟩]))) := by
    intro p
    simp only [loop_body, hsample, heog, hneg, Bool.false_eq_true, if_false]
    exact feed_token_eq E { st with trace := st.trace ++ [.sample (some tok)] } tok
      halloc hseq
  refine ⟨_, _, rfl, hbody params, ?_, rfl, ?_, ?_, rfl, ?_, rfl⟩
  · intro stops
    rw [hbody, hbody]
  · simp [fed_state, delivered_append, delivered]
  · simp [fed_state]
  · intro h1 h2
    show int32_wrap (st.n_cur + 1) = st.n_cur + 1
    exact int32_wrap_of_range _ (by omega) (by omega)

/-- C27 on the demo data: the first token drawn has a piece of 300 bytes. -/
theorem C27_negative_piece_fed_undelivered_witness :
    (engine_long_piece.sample state_demo.trace = some 1
      ∧ engine_long_piece.vocab.is_eog 1 = false
      ∧ (engine_long_piece.vocab.token_to_piece 1).1 < 0)
    ∧ ∃ ret st', ret = engine_long_piece.decode (state_demo.trace ++ [.sample (some 1)])
          [⟨1, state_demo.n_cur, [0], true⟩]
      ∧ loop_body engine_long_piece params_stop_a state_demo
          = (if ret ≠ 0 then .stop .failed_decode st' else .next st')
      ∧ (∀ stops, loop_body engine_long_piece
            { params_stop_a with stopSequences := stops } state_demo
          = loop_body engine_long_piece params_stop_a state_demo)
      ∧ st'.accumulatedOutput = state_demo.accumulatedOutput
      ∧ delivered st'.trace = delivered state_demo.trace
      ∧ st'.trace = state_demo.trace
          ++ [.sample (some 1), .decode [⟨1, state_demo.n_cur, [0], true⟩] ret]
      ∧ st'.n_cur = int32_wrap (state_demo.n_cur + 1)
      ∧ (-2147483648 ≤ state_demo.n_cur → state_demo.n_cur < 2147483647 →
          st'.n_cur = state_demo.n_cur + 1)
      ∧ st'.n_decode = state_demo.n_decode + 1 :=
  ⟨⟨rfl, rfl, by decide⟩,
    C27_negative_piece_fed_undelivered engine_long_piece params_stop_a state_demo 1
      rfl rfl (by decide) (by decide) (by decide)⟩


/-! ## Theorems: the empty stop sequence -/

/-- The stop check matches every accumulator when the empty string is among the
stop sequences. -/
theorem stop_triggered_of_empty (O : CppString) :
    ∀ (S : List CppString), [] ∈ S → stop_triggered O S = true := by
  intro S
  induction S with
  | nil => intro h; simp at h
  | cons s rest ih =>
    intro h
    unfold stop_triggered
    by_cases hs : s = []
    · subst hs
      simp [string_compare, compare_bytes]
    · have hrest : [] ∈ rest := by
        rcases List.mem_cons.mp h with h1 | h1
        · exact absurd h1.symm hs
        · exact h1
      rw [ih hrest]
      simp

/-- With the empty string among the stop sequences no pass delivers a chunk. -/
theorem pass_delivered_of_empty (E : Engine) (params : GenerateParams)
    (hempty : [] ∈ params.stopSequences) (st st' : GenerationState) (o : Option Status)
    (h : Pass E params st o st') : delivered st'.trace = delivered st.trace := by
  cases h with
  | exception hs => simp [delivered_append, delivered]
  | eog tok hs he => simp [delivered_append, delivered]
  | stop tok hs he hn hm => simp [delivered_append, delivered]
  | emit tok ret o hs he hn hm hret ho =>
    rw [stop_triggered_of_empty _ _ hempty] at hm
    exact absurd hm (by simp)
  | skip tok ret o hs he hn hret ho => simp [fed_state, delivered_append, delivered]

/-- C26: if the list of stop sequences contains the empty string, the stop check
matches whatever the accumulator holds; a pass that draws a token that is not
end-of-generation and whose piece conversion succeeds breaks as
Stopped(StopSequence), whatever the bytes of the piece, with no decode and no
callback; and no finished run of the worker has delivered a single chunk. -/
theorem C26_empty_stop_sequence (E : Engine) (params : GenerateParams)
    (hempty : [] ∈ params.stopSequences) :
    (∀ O, stop_triggered O params.stopSequences = true)
    ∧ (∀ st tok, E.sample st.trace = some tok → E.vocab.is_eog tok = false →
        0 ≤ (E.vocab.token_to_piece tok).1 →
        ∃ st', loop_body E params st = .stop .stopped_stop_sequence st'
          ∧ (∀ fuel, st.n_decode < params.maxTokens →
              generation_loop E params (fuel + 1) st = .done (.stopped_stop_sequence, st'))
          ∧ st'.trace = st.trace ++ [.sample (some tok)])
    ∧ (∀ fuel r, generate_worker E params fuel = .done r → delivered r.trace = []) := by
  refine ⟨fun O => stop_triggered_of_empty O _ hempty, ?_, ?_⟩
  · intro st tok hsample heog hn
    have hbody : loop_body E params st
        = .stop .stopped_stop_sequence
            { st with
              accumulatedOutput :=
                st.accumulatedOutput ++ piece_bytes (E.vocab.token_to_piece tok)
              trace := st.trace ++ [.sample (some tok)] } := by
      simp [loop_body, hsample, heog, hn, stop_triggered_of_empty _ _ hempty]
    refine ⟨_, hbody, ?_, rfl⟩
    intro fuel hbudget
    simp [generation_loop, hbudget, hbody]
  · intro fuel r h
    rcases generate_worker_run E params fuel r h with
      ⟨-, hr⟩ | ⟨-, b, ret, -, hr⟩ | ⟨-, batch, st, hloop, -, htr⟩
    · rw [hr]
      rfl
    · rw [hr]
      simp [preamble, cleanup, delivered_append, delivered]
    · have hst : delivered st.trace = [] := by
        refine generation_loop_induct E params
          (fun s => delivered s.trace = [])
          (fun _ s => delivered s.trace = [])
          ?_ ?_ ?_ fuel _ r.status st ?_ hloop
        · intro s s' hinv _ hp
          rw [pass_delivered_of_empty E params hempty s s' none hp]
          exact hinv
        · intro s y s' hinv _ hp
          rw [pass_delivered_of_empty E params hempty s s' (some y) hp]
          exact hinv
        · intro s hinv _
          exact hinv
        · simp [loop_entry, preamble, delivered_append, delivered]
      rw [htr, delivered_append, hst]
      simp [cleanup, delivered]

/-- C26 on the demo data: the empty string is the only stop sequence. -/
theorem C26_empty_stop_sequence_witness :
    [] ∈ params_stop_empty.stopSequences
    ∧ (∀ O, stop_triggered O params_stop_empty.stopSequences = true)
    ∧ (∀ st tok, engine_demo.sample st.trace = some tok →
        engine_demo.vocab.is_eog tok = false →
        0 ≤ (engine_demo.vocab.token_to_piece tok).1 →
        ∃ st', loop_body engine_demo params_stop_empty st
            = .stop .stopped_stop_sequence st'
          ∧ (∀ fuel, st.n_decode < params_stop_empty.maxTokens →
              generation_loop engine_demo params_stop_empty (fuel + 1) st
                = .done (.stopped_stop_sequence, st'))
          ∧ st'.trace = st.trace ++ [.sample (some tok)])
    ∧ (∀ fuel r, generate_worker engine_demo params_stop_empty fuel = .done r →
        delivered r.trace = []) :=
  ⟨by decide, C26_empty_stop_sequence engine_demo params_stop_empty (by decide)⟩


/-! ## Theorems: the manual framing of a rerank pair -/

/-- C23: when the model provides no rerank template, the token sequence built for a
query and a document is the manual framing of their plain tokenisations Q and D:
BOS if the vocabulary adds BOS, then Q, then the separator (SEP when it is not null,
otherwise EOS, nothing when both are null), then D, then EOS if the vocabulary adds
EOS and EOS is not null; so Q precedes D with at most the one separator token between
them. -/
theorem C23_manual_framing (E : RerankEngine) (query document : CppString) (fuel : Nat)
    (htmpl : E.chat_template = none) :
    rerank_tokens E query document fuel
      = some (manual_framing E.vocab (E.vocab.tokenize_plain query)
          (E.vocab.tokenize_plain document))
    ∧ (manual_separator E.vocab).length ≤ 1
    ∧ (manual_separator E.vocab = [] ↔
        (E.vocab.sep = LLAMA_TOKEN_NULL ∧ E.vocab.eos = LLAMA_TOKEN_NULL))
    ∧ ∃ pre suf, manual_framing E.vocab (E.vocab.tokenize_plain query)
          (E.vocab.tokenize_plain document)
        = pre ++ E.vocab.tokenize_plain query ++ manual_separator E.vocab
          ++ E.vocab.tokenize_plain document ++ suf := by
  refine ⟨?_, ?_, ?_, ⟨_, _, rfl⟩⟩
  · unfold rerank_tokens
    rw [htmpl]
    simp only [tokenize_vector_plain, manual_framing, manual_separator]
    by_cases hbos : E.vocab.add_bos = true <;> by_cases hsep : E.vocab.sep = LLAMA_TOKEN_NULL
      <;> by_cases heos : E.vocab.eos = LLAMA_TOKEN_NULL
      <;> by_cases haeos : E.vocab.add_eos = true
      <;> simp [hbos, hsep, heos, haeos]
  · unfold manual_separator
    split
    · simp
    · split <;> simp
  · unfold manual_separator
    by_cases hsep : E.vocab.sep = LLAMA_TOKEN_NULL
      <;> by_cases heos : E.vocab.eos = LLAMA_TOKEN_NULL <;> simp [hsep, heos]

/-- C23 on the demo rerank engine: BOS 1 and EOS 0 are added, SEP is null, so the
separator is EOS. -/
theorem C23_manual_framing_witness :
    rerank_engine_demo.chat_template = none
    ∧ rerank_tokens rerank_engine_demo [97] [98] 0 = some [1, 97, 0, 98, 0]
    ∧ (rerank_tokens rerank_engine_demo [97] [98] 0
        = some (manual_framing rerank_engine_demo.vocab
            (rerank_engine_demo.vocab.tokenize_plain [97])
            (rerank_engine_demo.vocab.tokenize_plain [98]))
      ∧ (manual_separator rerank_engine_demo.vocab).length ≤ 1
      ∧ (manual_separator rerank_engine_demo.vocab = [] ↔
          (rerank_engine_demo.vocab.sep = LLAMA_TOKEN_NULL
            ∧ rerank_engine_demo.vocab.eos = LLAMA_TOKEN_NULL))
      ∧ ∃ pre suf, manual_framing rerank_engine_demo.vocab
            (rerank_engine_demo.vocab.tokenize_plain [97])
            (rerank_engine_demo.vocab.tokenize_plain [98])
          = pre ++ rerank_engine_demo.vocab.tokenize_plain [97]
            ++ manual_separator rerank_engine_demo.vocab
            ++ rerank_engine_demo.vocab.tokenize_plain [98] ++ suf) :=
  ⟨rfl, by decide, C23_manual_framing rerank_engine_demo [97] [98] 0 rfl⟩


/-! ## Theorems: the seed of the XTC stage -/

/-- C24, evaluated where the code departs from it: with the XTC stage enabled and the
main seed 42, and again with the main seed 43, the XTC stage of the chain carries the
seed 1 both times, while the Distribution stage carries 42 and 43. -/
theorem C24_xtc_seed_is_literal_one :
    build_sampler_chain (params_xtc 42) vocab_demo
      = [.init_top_k 40, .init_top_p (.finite 1) 1, .init_min_p (.finite 0) 1,
         .init_xtc (.finite 1) (.finite 0) 1 1, .init_temp (.finite 1), .init_dist 42]
    ∧ build_sampler_chain (params_xtc 43) vocab_demo
      = [.init_top_k 40, .init_top_p (.finite 1) 1, .init_min_p (.finite 0) 1,
         .init_xtc (.finite 1) (.finite 0) 1 1, .init_temp (.finite 1), .init_dist 43]
    ∧ (∀ seed, llama_sampler.init_xtc (.finite 1) (.finite 0) 1 1
        ∈ build_sampler_chain (params_xtc seed) vocab_demo) := by
  refine ⟨by decide, by decide, ?_⟩
  intro seed
  rw [build_sampler_chain_eq]
  simp [optStage, params_xtc, params_plain, F32.gt, F32.lt, F32.zero]


/-! ## Theorems: the unassigned fields of infill -/

/-- C25, evaluated where the code departs from it: infill assigns none of the scalar
fields of the worker parameters, so the budget, the seed and the sampling knobs the
worker reads are whatever the unassigned fields hold. Two infill calls with the same
context and the same texts "a" and "b" run with the budgets 2 and -1, deliver two
chunks and none, and build sampler chains with and without the XTC stage. -/
theorem C25_infill_fields_unassigned :
    (∀ (vocab : llama_vocab) (uninit : GenerateParams) (pre_text suf_text : CppString),
      (infill_params vocab uninit pre_text suf_text).maxTokens = uninit.maxTokens
      ∧ (infill_params vocab uninit pre_text suf_text).seed = uninit.seed
      ∧ (infill_params vocab uninit pre_text suf_text).temperature = uninit.temperature
      ∧ (infill_params vocab uninit pre_text suf_text).topK = uninit.topK
      ∧ (infill_params vocab uninit pre_text suf_text).topP = uninit.topP
      ∧ (infill_params vocab uninit pre_text suf_text).minP = uninit.minP
      ∧ (infill_params vocab uninit pre_text suf_text).repeatPenalty = uninit.repeatPenalty
      ∧ (infill_params vocab uninit pre_text suf_text).repeatLastN = uninit.repeatLastN
      ∧ (infill_params vocab uninit pre_text suf_text).frequencyPenalty
          = uninit.frequencyPenalty
      ∧ (infill_params vocab uninit pre_text suf_text).presencePenalty
          = uninit.presencePenalty
      ∧ (infill_params vocab uninit pre_text suf_text).typicalP = uninit.typicalP
      ∧ (infill_params vocab uninit pre_text suf_text).xtcProbability
          = uninit.xtcProbability
      ∧ (infill_params vocab uninit pre_text suf_text).xtcThreshold = uninit.xtcThreshold
      ∧ (infill_params vocab uninit pre_text suf_text).mirostatMode = uninit.mirostatMode
      ∧ (infill_params vocab uninit pre_text suf_text).mirostatTau = uninit.mirostatTau
      ∧ (infill_params vocab uninit pre_text suf_text).mirostatEta = uninit.mirostatEta
      ∧ (infill_params vocab uninit pre_text suf_text).dryMultiplier = uninit.dryMultiplier
      ∧ (infill_params vocab uninit pre_text suf_text).dryBase = uninit.dryBase
      ∧ (infill_params vocab uninit pre_text suf_text).dryAllowedLength
          = uninit.dryAllowedLength)
    ∧ Java_com_cortex_app_LlamaEngine_infill 1 engine_demo host_demo params_plain [97] [98] 3
        = .done [.tokenize [97] false false, .tokenize [98] false false,
            .thread_create (8 * 1024 * 1024) true, .worker result_infill_demo,
            .thread_join]
    ∧ Java_com_cortex_app_LlamaEngine_infill 1 engine_demo host_demo params_negative_budget [97] [98] 3
        = .done [.tokenize [97] false false, .tokenize [98] false false,
            .thread_create (8 * 1024 * 1024) true, .worker result_infill_negative,
            .thread_join]
    ∧ delivered result_infill_demo.trace = [[97], [98]]
    ∧ delivered result_infill_negative.trace = []
    ∧ chain_kinds (infill_params vocab_demo params_plain [97] [98]) vocab_demo
        = [.TopK, .TopP, .MinP, .Temperature, .Distribution]
    ∧ chain_kinds (infill_params vocab_demo (params_xtc 42) [97] [98]) vocab_demo
        = [.TopK, .TopP, .MinP, .XTC, .Temperature, .Distribution] :=
  ⟨fun _ _ _ _ =>
      ⟨rfl, rfl, rfl, rfl, rfl, rfl, rfl, rfl, rfl, rfl, rfl, rfl, rfl, rfl, rfl, rfl, rfl,
        rfl, rfl⟩,
    rfl, rfl, rfl, rfl, by decide, by decide⟩


/-! ## Theorems: sampling from a logits array -/

theorem f32_lt_irrefl (a : F32) : F32.lt a a = false := by
  cases a <;> simp [F32.lt]

theorem f32_lt_trans (a b c : F32) (h1 : F32.lt a b = true) (h2 : F32.lt b c = true) :
    F32.lt a c = true := by
  cases a <;> cases b <;> cases c <;> simp [F32.lt] at h1 h2 ⊢
  exact lt_trans h1 h2

/-- On values that are not NaN, `a < b` false means `b <= a`. -/
theorem f32_lt_of_not_lt_of_lt (a b c : F32) (ha : a ≠ .nan) (hb : b ≠ .nan)
    (h1 : F32.lt b a = false) (h2 : F32.lt b c = true) : F32.lt a c = true := by
  cases a <;> cases b <;> cases c <;> simp [F32.lt] at ha hb h1 h2 ⊢
  exact lt_of_le_of_lt h1 h2

theorem f32_round_ne_nan (q : ℚ) : F32.round q ≠ .nan := by
  unfold F32.round
  simp only
  split_ifs <;> simp

/-- The quotient of a value that is not NaN by a positive finite value is not NaN. -/
theorem f32_div_ne_nan (t : ℚ) (ht : 0 < t) (a : F32) (ha : a ≠ .nan) :
    F32.div a (.finite t) ≠ .nan := by
  have htne : t ≠ 0 := ne_of_gt ht
  have htle : 0 ≤ t := le_of_lt ht
  cases a with
  | nan => exact absurd rfl ha
  | neg_inf => simp [F32.div, htle]
  | pos_inf => simp [F32.div, htle]
  | finite x =>
    simp only [F32.div, htne, if_false]
    exact f32_round_ne_nan _

/-- The argmax loop over values that are not NaN, compared after a map that keeps
their order: from a state in which `k0` is the smallest index of a maximal value
among the indices below `i`, it ends at the smallest index of a maximal value of the
whole list. -/
theorem argmax_loop_spec (g : F32 → F32)
    (hg : ∀ a b, a ≠ F32.nan → b ≠ F32.nan → F32.lt (g a) (g b) = F32.lt a b)
    (L : List F32) (hL : ∀ j, L.getD j F32.zero ≠ F32.nan) :
    ∀ (rest : List F32) (i k0 : Nat), rest = L.drop i → k0 < L.length →
      (∀ j, j < i → F32.gt (L.getD j F32.zero) (L.getD k0 F32.zero) = false) →
      (∀ j, j < k0 → F32.lt (L.getD j F32.zero) (L.getD k0 F32.zero) = true) →
      ∃ k : Nat, argmax_loop
            ((rest.enumFrom i).map
              (fun p => (⟨(p.1 : Int), g p.2⟩ : llama_token_data)))
            (k0 : Int) (g (L.getD k0 F32.zero)) = (k : Int)
        ∧ k < L.length
        ∧ (∀ j, j < L.length → F32.gt (L.getD j F32.zero) (L.getD k F32.zero) = false)
        ∧ (∀ j, j < k → F32.lt (L.getD j F32.zero) (L.getD k F32.zero) = true) := by
  intro rest
  induction rest with
  | nil =>
    intro i k0 hrest hk0 hle hlt
    have hlen : L.length ≤ i := List.drop_eq_nil_iff.mp hrest.symm
    exact ⟨k0, rfl, hk0, fun j hj => hle j (by omega), hlt⟩
  | cons c rest ih =>
    intro i k0 hrest hk0 hle hlt
    have hi : i < L.length := by
      by_contra hno
      rw [List.drop_eq_nil_of_le (by omega)] at hrest
      exact absurd hrest (by simp)
    rw [List.drop_eq_getElem_cons hi] at hrest
    have hc : c = L.getD i F32.zero := by
      rw [List.getD_eq_getElem L F32.zero hi]
      exact (List.cons.inj hrest).1
    have hrest2 : rest = L.drop (i + 1) := (List.cons.inj hrest).2
    subst hc
    simp only [List.enumFrom_cons, List.map_cons, argmax_loop, F32.gt]
    rw [hg _ _ (hL k0) (hL i)]
    by_cases hcmp : F32.lt (L.getD k0 F32.zero) (L.getD i F32.zero) = true
    · rw [if_pos hcmp]
      refine ih (i + 1) i hrest2 hi ?_ ?_
      · intro j hj
        by_cases hji : j = i
        · rw [hji]
          exact f32_lt_irrefl _
        · have h1 : F32.lt (L.getD k0 F32.zero) (L.getD j F32.zero) = false :=
            hle j (by omega)
          cases h2 : F32.gt (L.getD j F32.zero) (L.getD i F32.zero) with
          | false => rfl
          | true =>
            rw [f32_lt_trans _ _ _ hcmp h2] at h1
            exact absurd h1 (by simp)
      · intro j hj
        exact f32_lt_of_not_lt_of_lt _ _ _ (hL j) (hL k0) (hle j hj) hcmp
    · rw [if_neg hcmp]
      refine ih (i + 1) k0 hrest2 hk0 ?_ hlt
      intro j hj
      by_cases hji : j = i
      · rw [hji]
        simpa [F32.gt] using hcmp
      · exact hle j (by omega)

/-- The entry point on an array that has the size of the vocabulary: the argmax loop
over the values, scaled when the temperature test holds. -/
theorem sample_from_logits_eval (contextPtr : Int) (vocab : llama_vocab) (l0 : F32)
    (ls : List F32) (temperature : F32) (hctx : contextPtr ≠ 0)
    (hlen : (((l0 :: ls).length : Nat) : Int) = vocab.n_tokens) :
    Java_com_cortex_app_LlamaEngine_nativeSampleTokenFromLogits contextPtr vocab
        (some (l0 :: ls)) temperature
      = .done
          (if F32.ne temperature F32.one && F32.gt temperature F32.zero then
            argmax_loop
              ((ls.enumFrom 1).map
                (fun p => (⟨(p.1 : Int), F32.div p.2 temperature⟩ : llama_token_data)))
              0 (F32.div l0 temperature)
          else
            argmax_loop
              ((ls.enumFrom 1).map
                (fun p => (⟨(p.1 : Int), id p.2⟩ : llama_token_data)))
              0 (id l0)) := by
  unfold Java_com_cortex_app_LlamaEngine_nativeSampleTokenFromLogits
  simp only [hctx, if_false, hlen, ne_eq, not_true_eq_false]
  by_cases hc : (F32.ne temperature F32.one && F32.gt temperature F32.zero) = true
  · simp only [hc, if_true]
    simp [List.enum, List.enumFrom_map, Function.comp_def]
  · simp only [hc, if_false]
    simp [List.enum, List.enumFrom_map, Function.comp_def]

/-- The argmax loop of the entry point over an array of values that are not NaN: the
smallest index at which the value is maximal. -/
theorem argmax_first (m0 : F32) (ms : List F32) (hM : ∀ x ∈ m0 :: ms, x ≠ F32.nan) :
    ∃ k : Nat, argmax_loop
        ((ms.enumFrom 1).map (fun p => (⟨(p.1 : Int), id p.2⟩ : llama_token_data)))
        0 (id m0) = (k : Int)
      ∧ k < (m0 :: ms).length
      ∧ (∀ j, j < (m0 :: ms).length →
          F32.gt ((m0 :: ms).getD j F32.zero) ((m0 :: ms).getD k F32.zero) = false)
      ∧ (∀ j, j < k →
          F32.lt ((m0 :: ms).getD j F32.zero) ((m0 :: ms).getD k F32.zero) = true) := by
  have hL : ∀ j, (m0 :: ms).getD j F32.zero ≠ F32.nan := by
    intro j
    by_cases hj : j < (m0 :: ms).length
    · rw [List.getD_eq_getElem (m0 :: ms) F32.zero hj]
      exact hM _ (List.getElem_mem _)
    · rw [List.getD_eq_default (m0 :: ms) F32.zero (by omega)]
      simp [F32.zero]
  exact argmax_loop_spec id (fun _ _ _ _ => rfl) (m0 :: ms) hL ms 1 0 rfl (by simp)
    (by
      intro j hj
      have : j = 0 := by omega
      rw [this]
      exact f32_lt_irrefl _)
    (by intro j hj; omega)

/-- C29, where the claim fails. On the logits 0, 7, the next float above 7, 0 the
result is index 2 at temperature 1.0 and index 1 at temperature 0.8f: both quotients
round to the float 8.75, so the result depends on the temperature and is not an
index of the maximal logit. With NaN in slot 0 the result is index 0 although slot 1
holds 5; at temperature plus infinity every finite logit is scaled to 0 and the
result is index 0 although slot 1 holds the maximal logit. -/
theorem C29_counterexample :
    F32.lt (.finite 7) (.finite (14680065 / 2097152)) = true
    ∧ F32.div (.finite 7) temperature_08 = .finite (35 / 4)
    ∧ F32.div (.finite (14680065 / 2097152)) temperature_08 = .finite (35 / 4)
    ∧ Java_com_cortex_app_LlamaEngine_nativeSampleTokenFromLogits 1 vocab_four
        (some logits_close) F32.one = .done 2
    ∧ Java_com_cortex_app_LlamaEngine_nativeSampleTokenFromLogits 1 vocab_four
        (some logits_close) temperature_08 = .done 1
    ∧ Java_com_cortex_app_LlamaEngine_nativeSampleTokenFromLogits 1 vocab_four
        (some [.nan, .finite 5, .finite 0, .finite 0]) F32.one = .done 0
    ∧ Java_com_cortex_app_LlamaEngine_nativeSampleTokenFromLogits 1 vocab_four
        (some [.finite 1, .finite 2, .finite 0, .finite 0]) F32.one = .done 1
    ∧ Java_com_cortex_app_LlamaEngine_nativeSampleTokenFromLogits 1 vocab_four
        (some [.finite 1, .finite 2, .finite 0, .finite 0]) F32.pos_inf = .done 0 := by
  refine ⟨by decide!, by decide!, by decide!, by decide!, by decide!, by decide!,
    by decide!, by decide!⟩

/-- C29, amended: for every logits array without NaN whose length equals the
vocabulary size n >= 1 and every non-null context, nativeSampleTokenFromLogits
returns, when the temperature is 1.0, NaN or not positive (the logits are then left
unscaled), the smallest index in [0, n) at which the logit is maximal, and for every
other finite temperature the smallest index at which the float quotient logit /
temperature is maximal; when the array length differs from the vocabulary size it
returns -1. -/
theorem C29_argmax_first_maximum (contextPtr : Int) (vocab : llama_vocab)
    (logits : List F32) (hctx : contextPtr ≠ 0)
    (hnan : ∀ x ∈ logits, x ≠ F32.nan)
    (hlen : ((logits.length : Nat) : Int) = vocab.n_tokens)
    (hn : 1 ≤ logits.length) :
    (∃ k : Nat, k < logits.length
      ∧ (∀ j, j < logits.length →
          F32.gt (logits.getD j F32.zero) (logits.getD k F32.zero) = false)
      ∧ (∀ j, j < k → F32.lt (logits.getD j F32.zero) (logits.getD k F32.zero) = true)
      ∧ ∀ temperature,
          (F32.ne temperature F32.one && F32.gt temperature F32.zero) = false →
          Java_com_cortex_app_LlamaEngine_nativeSampleTokenFromLogits contextPtr vocab
            (some logits) temperature = .done (k : Int))
    ∧ (F32.ne F32.one F32.one && F32.gt F32.one F32.zero) = false
    ∧ (F32.ne F32.nan F32.one && F32.gt F32.nan F32.zero) = false
    ∧ (∀ temperature, F32.gt temperature F32.zero = false →
        (F32.ne temperature F32.one && F32.gt temperature F32.zero) = false)
    ∧ (∀ t : ℚ, 0 < t → t ≠ 1 →
        ∃ k : Nat, k < logits.length
          ∧ (∀ j, j < logits.length →
              F32.gt ((logits.map (fun x => F32.div x (.finite t))).getD j F32.zero)
                ((logits.map (fun x => F32.div x (.finite t))).getD k F32.zero) = false)
          ∧ (∀ j, j < k →
              F32.lt ((logits.map (fun x => F32.div x (.finite t))).getD j F32.zero)
                ((logits.map (fun x => F32.div x (.finite t))).getD k F32.zero) = true)
          ∧ Java_com_cortex_app_LlamaEngine_nativeSampleTokenFromLogits contextPtr vocab
              (some logits) (.finite t) = .done (k : Int))
    ∧ (∀ (other : List F32) (temperature : F32),
        ((other.length : Nat) : Int) ≠ vocab.n_tokens →
          Java_com_cortex_app_LlamaEngine_nativeSampleTokenFromLogits contextPtr vocab
            (some other) temperature = .done (-1)) := by
  obtain ⟨l0, ls, rfl⟩ : ∃ l0 ls, logits = l0 :: ls := by
    cases logits with
    | nil => simp at hn
    | cons a l => exact ⟨a, l, rfl⟩
  refine ⟨?_, by decide, by decide, ?_, ?_, ?_⟩
  · obtain ⟨k, hk, hklt, hkmax, hkfirst⟩ := argmax_first l0 ls hnan
    refine ⟨k, hklt, hkmax, hkfirst, ?_⟩
    intro temperature hc
    rw [sample_from_logits_eval contextPtr vocab l0 ls temperature hctx hlen]
    rw [if_neg (by rw [hc]; simp), hk]
  · intro temperature h
    rw [h]
    simp
  · intro t ht ht1
    have hM : ∀ x ∈ F32.div l0 (.finite t) :: ls.map (fun x => F32.div x (.finite t)),
        x ≠ F32.nan := by
      intro x hx
      have hx2 : x ∈ (l0 :: ls).map (fun x => F32.div x (.finite t)) := by
        simpa using hx
      obtain ⟨y, hy, rfl⟩ := List.mem_map.mp hx2
      exact f32_div_ne_nan t ht y (hnan y hy)
    obtain ⟨k, hk, hklt, hkmax, hkfirst⟩ :=
      argmax_first (F32.div l0 (.finite t)) (ls.map (fun x => F32.div x (.finite t))) hM
    have hc : (F32.ne (.finite t) F32.one && F32.gt (.finite t) F32.zero) = true := by
      simp [F32.ne, F32.eq, F32.gt, F32.lt, F32.zero, F32.one, ht, ht1]
    refine ⟨k, by simpa using hklt, ?_, ?_, ?_⟩
    · intro j hj
      exact hkmax j (by simpa using hj)
    · exact hkfirst
    · rw [sample_from_logits_eval contextPtr vocab l0 ls (.finite t) hctx hlen, if_pos hc,
        ← hk]
      simp [List.enumFrom_map, Function.comp_def]
  · intro other temperature hne
    unfold Java_com_cortex_app_LlamaEngine_nativeSampleTokenFromLogits
    simp [hctx, hne]

/-- C29 on the four logits 1, 3, 3, 2: index 1. -/
theorem C29_argmax_first_maximum_witness :
    ((1 : Int) ≠ 0
      ∧ (∀ x ∈ [F32.finite 1, F32.finite 3, F32.finite 3, F32.finite 2], x ≠ F32.nan)
      ∧ ((([F32.finite 1, F32.finite 3, F32.finite 3, F32.finite 2].length : Nat) : Int)
          = vocab_four.n_tokens)
      ∧ 1 ≤ [F32.finite 1, F32.finite 3, F32.finite 3, F32.finite 2].length)
    ∧ Java_com_cortex_app_LlamaEngine_nativeSampleTokenFromLogits 1 vocab_four
        (some [F32.finite 1, F32.finite 3, F32.finite 3, F32.finite 2]) F32.one = .done 1
    ∧ (∃ k : Nat, k < [F32.finite 1, F32.finite 3, F32.finite 3, F32.finite 2].length
        ∧ (∀ j, j < [F32.finite 1, F32.finite 3, F32.finite 3, F32.finite 2].length →
            F32.gt ([F32.finite 1, F32.finite 3, F32.finite 3, F32.finite 2].getD j F32.zero)
              ([F32.finite 1, F32.finite 3, F32.finite 3, F32.finite 2].getD k F32.zero)
              = false)
        ∧ (∀ j, j < k →
            F32.lt ([F32.finite 1, F32.finite 3, F32.finite 3, F32.finite 2].getD j F32.zero)
              ([F32.finite 1, F32.finite 3, F32.finite 3, F32.finite 2].getD k F32.zero)
              = true)
        ∧ ∀ temperature,
            (F32.ne temperature F32.one && F32.gt temperature F32.zero) = false →
            Java_com_cortex_app_LlamaEngine_nativeSampleTokenFromLogits 1 vocab_four
              (some [F32.finite 1, F32.finite 3, F32.finite 3, F32.finite 2]) temperature
              = .done (k : Int))
      ∧ (F32.ne F32.one F32.one && F32.gt F32.one F32.zero) = false
      ∧ (F32.ne F32.nan F32.one && F32.gt F32.nan F32.zero) = false
      ∧ (∀ temperature, F32.gt temperature F32.zero = false →
          (F32.ne temperature F32.one && F32.gt temperature F32.zero) = false)
      ∧ (∀ t : ℚ, 0 < t → t ≠ 1 →
          ∃ k : Nat, k < [F32.finite 1, F32.finite 3, F32.finite 3, F32.finite 2].length
            ∧ (∀ j, j < [F32.finite 1, F32.finite 3, F32.finite 3, F32.finite 2].length →
                F32.gt
                  (([F32.finite 1, F32.finite 3, F32.finite 3, F32.finite 2].map
                    (fun x => F32.div x (.finite t))).getD j F32.zero)
                  (([F32.finite 1, F32.finite 3, F32.finite 3, F32.finite 2].map
                    (fun x => F32.div x (.finite t))).getD k F32.zero) = false)
            ∧ (∀ j, j < k →
                F32.lt
                  (([F32.finite 1, F32.finite 3, F32.finite 3, F32.finite 2].map
                    (fun x => F32.div x (.finite t))).getD j F32.zero)
                  (([F32.finite 1, F32.finite 3, F32.finite 3, F32.finite 2].map
                    (fun x => F32.div x (.finite t))).getD k F32.zero) = true)
            ∧ Java_com_cortex_app_LlamaEngine_nativeSampleTokenFromLogits 1 vocab_four
                (some [F32.finite 1, F32.finite 3, F32.finite 3, F32.finite 2]) (.finite t)
                = .done (k : Int))
      ∧ (∀ (other : List F32) (temperature : F32),
          ((other.length : Nat) : Int) ≠ vocab_four.n_tokens →
            Java_com_cortex_app_LlamaEngine_nativeSampleTokenFromLogits 1 vocab_four
              (some other) temperature = .done (-1)) :=
  ⟨⟨by decide, by decide, by decide, by decide⟩, by decide,
    C29_argmax_first_maximum 1 vocab_four
      [F32.finite 1, F32.finite 3, F32.finite 3, F32.finite 2]
      (by decide) (by decide) (by decide) (by decide)⟩

/-! ## Theorems: string replacement -/

/-- Passing over the bytes of an occurrence. -/
theorem replace_occurrences_skip (search replace : CppString) (a b : CppString) :
    replace_occurrences search replace a.length (a ++ b)
      = replace_occurrences search replace 0 b := by
  induction a with
  | nil => rfl
  | cons x a ih =>
    simp only [List.cons_append, List.length_cons, replace_occurrences]
    exact ih

/-- The replacement at an occurrence that starts the string. -/
theorem replace_occurrences_at (search replace post : CppString) (hne : search ≠ []) :
    replace_occurrences search replace 0 (search ++ post)
      = replace ++ replace_occurrences search replace 0 post := by
  cases search with
  | nil => exact absurd rfl hne
  | cons c rest =>
    have hpre : (c :: rest).isPrefixOf (c :: (rest ++ post)) = true := by
      rw [List.isPrefixOf_iff_prefix]
      exact List.prefix_append (c :: rest) post
    have h := replace_occurrences_skip (c :: rest) replace rest post
    simp only [List.cons_append, replace_occurrences, List.length_cons,
      Nat.add_sub_cancel]
    exact (if_pos hpre).trans (congrArg _ h)

/-- What `find` returns, read against the left-to-right replacement. -/
theorem string_find_from_spec (search replace : CppString) (hne : search ≠ []) :
    ∀ (rest : CppString) (idx : Nat),
      (string_find_from search rest idx = none →
        replace_occurrences search replace 0 rest = rest)
      ∧ (∀ p, string_find_from search rest idx = some p →
          ∃ pre post, rest = pre ++ search ++ post ∧ p = idx + pre.length
            ∧ replace_occurrences search replace 0 rest
                = pre ++ replace ++ replace_occurrences search replace 0 post) := by
  intro rest
  induction rest with
  | nil =>
    intro idx
    have hemp : search.isEmpty = false := by
      cases search with
      | nil => exact absurd rfl hne
      | cons c r => rfl
    constructor
    · intro _
      rfl
    · intro p hp
      simp [string_find_from, hemp] at hp
  | cons c t ih =>
    intro idx
    by_cases hpre : search.isPrefixOf (c :: t) = true
    · constructor
      · intro h
        simp [string_find_from, hpre] at h
      · intro p hp
        simp only [string_find_from, hpre, if_true, Option.some.injEq] at hp
        have hsplit : search ++ (c :: t).drop search.length = c :: t :=
          List.prefix_iff_eq_append.mp (List.isPrefixOf_iff_prefix.mp hpre)
        refine ⟨[], (c :: t).drop search.length, ?_, ?_, ?_⟩
        · simp [hsplit]
        · simp [hp]
        · rw [← hsplit, replace_occurrences_at _ _ _ hne, hsplit]
          simp
    · have hfind : string_find_from search (c :: t) idx
          = string_find_from search t (idx + 1) := by
        simp [string_find_from, hpre]
      have hrep : replace_occurrences search replace 0 (c :: t)
          = c :: replace_occurrences search replace 0 t := by
        simp [replace_occurrences, hpre]
      rw [hfind, hrep]
      obtain ⟨ih1, ih2⟩ := ih (idx + 1)
      constructor
      · intro h
        rw [ih1 h]
      · intro p hp
        obtain ⟨pre, post, h1, h2, h3⟩ := ih2 p hp
        refine ⟨c :: pre, post, ?_, ?_, ?_⟩
        · rw [h1]
          simp
        · rw [h2]
          simp only [List.length_cons]
          omega
        · rw [h3]
          simp


/-- The loop of `string_replace_all` from a position that splits the string into the
text already produced and the rest of the original still to scan: with one unit of
fuel more than the rest is long it ends, with the rest replaced left to right. -/
theorem string_replace_all_from_spec (search replace : CppString) (hne : search ≠ []) :
    ∀ (fuel : Nat) (out rest : CppString), rest.length < fuel →
      string_replace_all_from search replace fuel (out ++ rest) out.length
        = some (out ++ replace_occurrences search replace 0 rest) := by
  intro fuel
  induction fuel with
  | zero => intro out rest h; omega
  | succ fuel ih =>
    intro out rest hfuel
    have hfind : string_find (out ++ rest) search out.length
        = string_find_from search rest out.length := by
      unfold string_find
      rw [if_pos (by simp), List.drop_left]
    unfold string_replace_all_from
    rw [hfind]
    obtain ⟨h1, h2⟩ := string_find_from_spec search replace hne rest out.length
    cases hres : string_find_from search rest out.length with
    | none =>
      simp only
      rw [h1 hres]
    | some p =>
      simp only
      obtain ⟨pre, post, hrest, hp, hrep⟩ := h2 p hres
      have hslen : 1 ≤ search.length := by
        cases search with
        | nil => exact absurd rfl hne
        | cons c r => simp
      have hlen : rest.length = pre.length + search.length + post.length := by
        rw [hrest]
        simp only [List.length_append]
      have htake : (out ++ rest).take p = out ++ pre := by
        rw [hrest, hp]
        have : out ++ (pre ++ search ++ post) = (out ++ pre) ++ (search ++ post) := by
          simp
        rw [this]
        exact List.take_left' (by simp)
      have hdrop : (out ++ rest).drop (p + search.length) = post := by
        rw [hrest, hp]
        have : out ++ (pre ++ search ++ post) = (out ++ pre ++ search) ++ post := by
          simp
        rw [this]
        exact List.drop_left' (by simp only [List.length_append])
      rw [htake, hdrop]
      have hpos : p + replace.length = (out ++ pre ++ replace).length := by
        rw [hp]
        simp only [List.length_append]
      rw [hpos, ih (out ++ pre ++ replace) post (by omega), hrep]
      simp

/-- The function `string_replace_all` ends, with the occurrences replaced left to
right. -/
theorem string_replace_all_spec (search replace s : CppString) (hne : search ≠ [])
    (fuel : Nat) (hfuel : s.length < fuel) :
    string_replace_all fuel s search replace
      = some (replace_occurrences search replace 0 s) := by
  have h := string_replace_all_from_spec search replace hne fuel [] s hfuel
  simpa [string_replace_all] using h

/-- The rerank prompt: the query substituted first, then the document in the
resulting text. -/
theorem rerank_prompt_spec (tmpl query document : CppString) (fuel : Nat)
    (h1 : tmpl.length < fuel)
    (h2 : (replace_occurrences placeholder_query query 0 tmpl).length < fuel) :
    rerank_prompt fuel tmpl query document
      = some (replace_occurrences placeholder_document document 0
          (replace_occurrences placeholder_query query 0 tmpl)) := by
  unfold rerank_prompt
  rw [string_replace_all_spec _ _ _ (by simp [placeholder_query]) fuel h1]
  simp only
  rw [string_replace_all_spec _ _ _ (by simp [placeholder_document]) fuel h2]

/-- The tokens of a pair under a template are the tokens of the rerank prompt. -/
theorem rerank_tokens_template (E : RerankEngine) (tmpl query document : CppString)
    (fuel : Nat) (htmpl : E.chat_template = some tmpl) :
    rerank_tokens E query document fuel
      = (rerank_prompt fuel tmpl query document).map
          (fun prompt => tokenize_vector (llama_tokenize E.vocab prompt) prompt.length) := by
  unfold rerank_tokens rerank_prompt
  rw [htmpl]
  simp only
  cases string_replace_all fuel tmpl placeholder_query query with
  | none => rfl
  | some prompt =>
    simp only
    cases string_replace_all fuel prompt placeholder_document document with
    | none => rfl
    | some prompt2 => rfl


/-! ## Theorems: the two substitutions of the rerank prompt -/

/-- A search string that starts with an opening brace has no occurrence that starts
inside a text without opening brace. -/
theorem replace_occurrences_brace_free (r replace x y : CppString)
    (hx : (123 : Byte) ∉ x) :
    replace_occurrences ((123 : Byte) :: r) replace 0 (x ++ y)
      = x ++ replace_occurrences ((123 : Byte) :: r) replace 0 y := by
  induction x with
  | nil => rfl
  | cons c x ih =>
    have hc : ¬ (123 : Byte) = c := fun h => hx (by rw [h]; exact List.mem_cons_self _ _)
    have hx2 : (123 : Byte) ∉ x := fun h => hx (List.mem_cons_of_mem _ h)
    have hpre : ((123 : Byte) :: r).isPrefixOf (c :: (x ++ y)) = false := by
      rw [List.isPrefixOf_cons₂]
      simp [hc]
    simp only [List.cons_append, replace_occurrences]
    exact (if_neg (by rw [Bool.not_eq_true]; exact hpre)).trans (congrArg _ (ih hx2))

/-- The scan of the simultaneous substitution passes over a text without opening
brace. -/
theorem substitute_both_brace_free (query document x y : CppString)
    (hx : (123 : Byte) ∉ x) :
    substitute_both query document 0 (x ++ y)
      = x ++ substitute_both query document 0 y := by
  induction x with
  | nil => rfl
  | cons c x ih =>
    have hc : ¬ (123 : Byte) = c := fun h => hx (by rw [h]; exact List.mem_cons_self _ _)
    have hx2 : (123 : Byte) ∉ x := fun h => hx (List.mem_cons_of_mem _ h)
    have hq : placeholder_query.isPrefixOf (c :: (x ++ y)) = false := by
      unfold placeholder_query
      rw [List.isPrefixOf_cons₂]
      simp [hc]
    have hd : placeholder_document.isPrefixOf (c :: (x ++ y)) = false := by
      unfold placeholder_document
      rw [List.isPrefixOf_cons₂]
      simp [hc]
    simp only [List.cons_append, substitute_both]
    refine (if_neg (by rw [Bool.not_eq_true]; exact hq)).trans ?_
    exact (if_neg (by rw [Bool.not_eq_true]; exact hd)).trans (congrArg _ (ih hx2))

theorem substitute_both_skip (query document a b : CppString) :
    substitute_both query document a.length (a ++ b)
      = substitute_both query document 0 b := by
  induction a with
  | nil => rfl
  | cons x a ih =>
    simp only [List.cons_append, List.length_cons, substitute_both]
    exact ih

/-- The simultaneous substitution at a query placeholder. -/
theorem substitute_both_query (query document y : CppString) :
    substitute_both query document 0 (placeholder_query ++ y)
      = query ++ substitute_both query document 0 y := by
  have h := substitute_both_skip query document [113, 117, 101, 114, 121, 125] y
  have hq : placeholder_query.isPrefixOf (placeholder_query ++ y) = true := by
    rw [List.isPrefixOf_iff_prefix]
    exact List.prefix_append _ _
  have hform : placeholder_query ++ y
      = (123 : Byte) :: ([113, 117, 101, 114, 121, 125] ++ y) := rfl
  rw [hform] at hq ⊢
  simp only [substitute_both]
  exact (if_pos hq).trans (congrArg _ h)

/-- The simultaneous substitution at a document placeholder. -/
theorem substitute_both_document (query document y : CppString) :
    substitute_both query document 0 (placeholder_document ++ y)
      = document ++ substitute_both query document 0 y := by
  have h := substitute_both_skip query document
    [100, 111, 99, 117, 109, 101, 110, 116, 125] y
  have hq : placeholder_query.isPrefixOf (placeholder_document ++ y) = false := rfl
  have hd : placeholder_document.isPrefixOf (placeholder_document ++ y) = true := by
    rw [List.isPrefixOf_iff_prefix]
    exact List.prefix_append _ _
  have hform : placeholder_document ++ y
      = (123 : Byte) :: ([100, 111, 99, 117, 109, 101, 110, 116, 125] ++ y) := rfl
  rw [hform] at hq hd ⊢
  simp only [substitute_both]
  refine (if_neg (by rw [Bool.not_eq_true]; exact hq)).trans ?_
  exact (if_pos hd).trans (congrArg _ h)


/-- The substitution of the query leaves a document placeholder in place. -/
theorem replace_query_at_document (query y : CppString) :
    replace_occurrences placeholder_query query 0 (placeholder_document ++ y)
      = placeholder_document ++ replace_occurrences placeholder_query query 0 y := by
  have hq : placeholder_query.isPrefixOf (placeholder_document ++ y) = false := rfl
  have h := replace_occurrences_brace_free [113, 117, 101, 114, 121, 125] query
    [100, 111, 99, 117, 109, 101, 110, 116, 125] y (by decide)
  have hform : placeholder_document ++ y
      = (123 : Byte) :: ([100, 111, 99, 117, 109, 101, 110, 116, 125] ++ y) := rfl
  rw [hform] at hq ⊢
  simp only [replace_occurrences]
  exact (if_neg (by rw [Bool.not_eq_true]; exact hq)).trans (congrArg _ h)

theorem render_template_cons (p : TemplatePiece) (ps : List TemplatePiece) :
    render_template (p :: ps) = p.render ++ render_template ps := rfl

theorem fill_template_cons (query document : CppString) (p : TemplatePiece)
    (ps : List TemplatePiece) :
    fill_template query document (p :: ps)
      = p.fill query document ++ fill_template query document ps := rfl

theorem braces_start_placeholders_tail (p : TemplatePiece) (ps : List TemplatePiece)
    (h : braces_start_placeholders (p :: ps)) : braces_start_placeholders ps :=
  fun bytes hb => h bytes (List.mem_cons_of_mem _ hb)

/-- The first substitution on a template whose opening braces all start a
placeholder: the query is put in, the document placeholders stay. -/
theorem replace_query_template (query : CppString) :
    ∀ (ps : List TemplatePiece), braces_start_placeholders ps →
      replace_occurrences placeholder_query query 0 (render_template ps)
        = fill_template query placeholder_document ps := by
  intro ps
  induction ps with
  | nil => intro _; rfl
  | cons p ps ih =>
    intro h
    have ih2 := ih (braces_start_placeholders_tail p ps h)
    rw [render_template_cons, fill_template_cons]
    cases p with
    | text bytes =>
      have hb : (123 : Byte) ∉ bytes := h bytes (List.mem_cons_self _ _)
      have := replace_occurrences_brace_free [113, 117, 101, 114, 121, 125] query bytes
        (render_template ps) hb
      exact this.trans (congrArg _ ih2)
    | query =>
      have := replace_occurrences_at placeholder_query query (render_template ps)
        (by simp [placeholder_query])
      exact this.trans (congrArg _ ih2)
    | document =>
      exact (replace_query_at_document query (render_template ps)).trans
        (congrArg _ ih2)

/-- The second substitution on the text the first one leaves, for a query without
opening brace. -/
theorem replace_document_template (query document : CppString)
    (hq : (123 : Byte) ∉ query) :
    ∀ (ps : List TemplatePiece), braces_start_placeholders ps →
      replace_occurrences placeholder_document document 0
          (fill_template query placeholder_document ps)
        = fill_template query document ps := by
  intro ps
  induction ps with
  | nil => intro _; rfl
  | cons p ps ih =>
    intro h
    have ih2 := ih (braces_start_placeholders_tail p ps h)
    rw [fill_template_cons, fill_template_cons]
    cases p with
    | text bytes =>
      have hb : (123 : Byte) ∉ bytes := h bytes (List.mem_cons_self _ _)
      have := replace_occurrences_brace_free [100, 111, 99, 117, 109, 101, 110, 116, 125]
        document bytes (fill_template query placeholder_document ps) hb
      exact this.trans (congrArg _ ih2)
    | query =>
      have := replace_occurrences_brace_free [100, 111, 99, 117, 109, 101, 110, 116, 125]
        document query (fill_template query placeholder_document ps) hq
      exact this.trans (congrArg _ ih2)
    | document =>
      have := replace_occurrences_at placeholder_document document
        (fill_template query placeholder_document ps) (by simp [placeholder_document])
      exact this.trans (congrArg _ ih2)

/-- The simultaneous substitution on a template whose opening braces all start a
placeholder fills the template piece by piece. -/
theorem substitute_both_template (query document : CppString) :
    ∀ (ps : List TemplatePiece), braces_start_placeholders ps →
      substitute_both query document 0 (render_template ps)
        = fill_template query document ps := by
  intro ps
  induction ps with
  | nil => intro _; rfl
  | cons p ps ih =>
    intro h
    have ih2 := ih (braces_start_placeholders_tail p ps h)
    rw [render_template_cons, fill_template_cons]
    cases p with
    | text bytes =>
      have hb : (123 : Byte) ∉ bytes := h bytes (List.mem_cons_self _ _)
      exact (substitute_both_brace_free query document bytes (render_template ps) hb).trans
        (congrArg _ ih2)
    | query =>
      exact (substitute_both_query query document (render_template ps)).trans
        (congrArg _ ih2)
    | document =>
      exact (substitute_both_document query document (render_template ps)).trans
        (congrArg _ ih2)


theorem tokenize_vector_special (vocab : llama_vocab) (text : CppString) :
    tokenize_vector (llama_tokenize vocab text) text.length = vocab.tokenize text :=
  tokenize_vector_eq (vocab.tokenize text) text.length

/-- C30, where the claim fails: the template "\x7bdocu\x7bquery\x7d" with the query
"ment\x7d" and the document "D". The query does not contain the document
placeholder, yet the text the first substitution leaves is the document placeholder,
which the second substitution replaces: the prompt is "D", while the simultaneous
substitution gives "\x7bdocument\x7d". -/
theorem C30_counterexample :
    string_find query_straddle placeholder_document 0 = none
    ∧ string_replace_all 13 template_straddle placeholder_query query_straddle
        = some placeholder_document
    ∧ rerank_prompt 13 template_straddle query_straddle [68] = some [68]
    ∧ rerank_tokens rerank_engine_straddle query_straddle [68] 13 = some [68]
    ∧ substitute_both query_straddle [68] 0 template_straddle = placeholder_document
    ∧ rerank_prompt 13 template_straddle query_straddle [68]
        ≠ some (substitute_both query_straddle [68] 0 template_straddle) := by
  refine ⟨by decide, by decide, by decide, by decide, by decide, by decide⟩

/-- C30, amended: for every string s, every non-empty search string and every
replacement, string_replace_all ends (one unit of fuel more than s is long suffices,
whatever the replacement holds) and turns s into the result of replacing, left to
right, each non-overlapping occurrence of the search string in the original s by the
replacement. Consequently the rerank prompt is the template with the query
placeholders replaced first and the document placeholders of the resulting text
replaced next; it equals the template with both placeholders substituted
simultaneously whenever every opening brace of the template starts a placeholder and
the query holds no opening brace. -/
theorem C30_string_replace_all (s search replace : CppString) (hne : search ≠ []) :
    (∀ fuel, s.length < fuel →
      string_replace_all fuel s search replace
        = some (replace_occurrences search replace 0 s))
    ∧ (∀ (E : RerankEngine) (tmpl query document : CppString) (fuel : Nat),
        E.chat_template = some tmpl → tmpl.length < fuel →
        (replace_occurrences placeholder_query query 0 tmpl).length < fuel →
        rerank_prompt fuel tmpl query document
            = some (replace_occurrences placeholder_document document 0
                (replace_occurrences placeholder_query query 0 tmpl))
          ∧ rerank_tokens E query document fuel
            = some (E.vocab.tokenize
                (replace_occurrences placeholder_document document 0
                  (replace_occurrences placeholder_query query 0 tmpl))))
    ∧ (∀ (pieces : List TemplatePiece) (query document : CppString),
        braces_start_placeholders pieces → (123 : Byte) ∉ query →
        replace_occurrences placeholder_document document 0
            (replace_occurrences placeholder_query query 0 (render_template pieces))
          = substitute_both query document 0 (render_template pieces)
        ∧ substitute_both query document 0 (render_template pieces)
          = fill_template query document pieces) := by
  refine ⟨fun fuel hfuel => string_replace_all_spec search replace s hne fuel hfuel, ?_, ?_⟩
  · intro E tmpl query document fuel htmpl h1 h2
    have hp := rerank_prompt_spec tmpl query document fuel h1 h2
    refine ⟨hp, ?_⟩
    rw [rerank_tokens_template E tmpl query document fuel htmpl, hp]
    simp only [Option.map_some', tokenize_vector_special]
  · intro pieces query document hb hq
    rw [replace_query_template query pieces hb,
      replace_document_template query document hq pieces hb,
      substitute_both_template query document pieces hb]
    exact ⟨rfl, rfl⟩

/-- C30 on the string "aXa" with the search string "a" and the replacement "aa",
which contains the search string. -/
theorem C30_string_replace_all_witness :
    ([97] : CppString) ≠ []
    ∧ string_replace_all 4 [97, 88, 97] [97] [97, 97] = some [97, 97, 88, 97, 97]
    ∧ replace_occurrences [97] [97, 97] 0 [97, 88, 97] = [97, 97, 88, 97, 97]
    ∧ (∀ fuel, ([97, 88, 97] : CppString).length < fuel →
        string_replace_all fuel [97, 88, 97] [97] [97, 97]
          = some (replace_occurrences [97] [97, 97] 0 [97, 88, 97]))
    ∧ (∀ (E : RerankEngine) (tmpl query document : CppString) (fuel : Nat),
        E.chat_template = some tmpl → tmpl.length < fuel →
        (replace_occurrences placeholder_query query 0 tmpl).length < fuel →
        rerank_prompt fuel tmpl query document
            = some (replace_occurrences placeholder_document document 0
                (replace_occurrences placeholder_query query 0 tmpl))
          ∧ rerank_tokens E query document fuel
            = some (E.vocab.tokenize
                (replace_occurrences placeholder_document document 0
                  (replace_occurrences placeholder_query query 0 tmpl))))
    ∧ (∀ (pieces : List TemplatePiece) (query document : CppString),
        braces_start_placeholders pieces → (123 : Byte) ∉ query →
        replace_occurrences placeholder_document document 0
            (replace_occurrences placeholder_query query 0 (render_template pieces))
          = substitute_both query document 0 (render_template pieces)
        ∧ substitute_both query document 0 (render_template pieces)
          = fill_template query document pieces) :=
  ⟨by decide, by decide, by decide, C30_string_replace_all [97, 88, 97] [97] [97, 97] (by decide)⟩

end LlamaJni
